import Mathlib

/-!
Verification of the json-stream-parser core against its specification.

The development shallowly embeds the streaming JSON engine:

* `JsonPattern` and its matching operations (src/json-transformer.js, class `JsonPath`);
* the character buffer (src/json-transform-stream-buffer.js);
* the anchored regular-expression lexeme matchers used by the primitive
  readers (string / number / literal / object-key parsers);
* the parser / consumer nodes and the bracket scanner
  (src/parser/*.js, src/consumer/*.js);
* the outer engine: root creation, chunk driving and finalization
  (src/json-transform-stream.js).

Modelling conventions:

* Buffers and paths are `List Char` (the decoded JS string after
  `TextDecoder`); chunk boundaries are modelled at character granularity.
* JSON numbers are modelled by their source lexeme (the engine hands the
  lexeme to the host `JSON.parse`; IEEE-754 conversion is outside the model,
  so two numbers are equal in the model iff their lexemes are equal).
* JS `undefined` (the value an incremental container records for a child
  handled by a skip consumer, which has no `getResult`) is `JsValue.jundef`.
* `\uXXXX` escapes decoding to lone UTF-16 surrogates are rejected by the
  modelled string decoder (Lean `Char` holds scalar values only); valid
  surrogate pairs are combined exactly as `JSON.parse` does.
-/

set_option maxRecDepth 20000
set_option linter.unusedVariables false

namespace JsonStream

/-- Decoded character buffers, paths and patterns are lists of characters. -/
abbrev Str := List Char

/-- ECMAScript `\s` (the class used by `/^\s+/` in `consumeWhitespace` and by
`[\s,\}\]]` in the number/literal terminator lookahead): tab, LF, VT, FF, CR,
space, NBSP, Ogham space mark, the U+2000–U+200A spaces, LS, PS, NNBSP, MMSP,
ideographic space and the BOM. -/
def isJsWs (c : Char) : Bool :=
  c.val = 0x9 || c.val = 0xA || c.val = 0xB || c.val = 0xC || c.val = 0xD ||
  c.val = 0x20 || c.val = 0xA0 || c.val = 0x1680 ||
  (0x2000 ≤ c.val && c.val ≤ 0x200A) ||
  c.val = 0x2028 || c.val = 0x2029 || c.val = 0x202F || c.val = 0x205F ||
  c.val = 0x3000 || c.val = 0xFEFF

/-- RFC 8259 JSON whitespace: space, tab, LF, CR (used by `JSON.parse` and
named by the spec for `consume_whitespace`). -/
def isJsonWs (c : Char) : Bool :=
  c.val = 0x20 || c.val = 0x9 || c.val = 0xA || c.val = 0xD

/-- `\d` of the array-wildcard regex. -/
def isDigit (c : Char) : Bool := '0' ≤ c && c ≤ '9'

/-! ## JsonPath patterns (src/json-transformer.js, class `JsonPath`) -/

inductive PatType where
  | exact
  | arrayWildcard
  | objectWildcard
deriving DecidableEq, Repr

/-- A parsed pattern: the raw pattern string, its classified type and the
base path (`_extractBasePath`). -/
structure JsonPattern where
  pattern : Str
  type : PatType
  basePath : Str
deriving DecidableEq, Repr

/-- `pattern.includes('**')`. -/
def containsStarStar : Str → Bool
  | '*' :: '*' :: _ => true
  | _ :: rest => containsStarStar rest
  | [] => false

/-- `JsonPath._determineType`: reject `**`; `[*]` suffix wins over `.*`. -/
def determineType (p : Str) : Option PatType :=
  if containsStarStar p then none
  else if (['[', '*', ']'] : Str).isSuffixOf p then some .arrayWildcard
  else if (['.', '*'] : Str).isSuffixOf p then some .objectWildcard
  else some .exact

/-- `JsonPath._extractBasePath`. -/
def extractBasePath (p : Str) (t : PatType) : Str :=
  match t with
  | .arrayWildcard => p.dropLast.dropLast.dropLast
  | .objectWildcard => p.dropLast.dropLast
  | .exact => p

/-- The `JsonPath` constructor: rejects empty (falsy) input and `**`. -/
def parsePattern (p : Str) : Option JsonPattern :=
  if p = [] then none
  else
    match determineType p with
    | none => none
    | some t => some ⟨p, t, extractBasePath p t⟩

/-- `\d+\]` tail of the precompiled array-wildcard regex: at least one digit,
then `]`, then end of input.  `seen` records whether a digit was read. -/
def awDigits : Bool → Str → Bool
  | seen, [c] => seen && c = ']'
  | _, [] => false
  | seen, c :: rest => isDigit c && awDigits (seen || true) rest

/-- `\[\d+\]$`: an opening bracket, then digits and the closing bracket. -/
def awTail : Str → Bool
  | [] => false
  | c :: rest => c = '[' && awDigits false rest

/-- Semantics of the precompiled regex `^<escaped base>\[\d+\]$`
(`_compileArrayWildcardRegex`; `_escapeRegex` makes the base literal, and the
special `$[*]` case compiles to the same regex as the general case). -/
def arrayWildcardTest (base path : Str) : Bool :=
  base.isPrefixOf path && awTail (path.drop base.length)

/-- `JsonPath._matchObjectWildcard`. -/
def matchObjectWildcard (base path : Str) : Bool :=
  let pre := base ++ ['.']
  pre.isPrefixOf path &&
    (let remaining := path.drop pre.length
     decide (remaining ≠ []) && !remaining.contains '.' && !remaining.contains '[')

/-- `JsonPath.match`. -/
def patMatch (jp : JsonPattern) (path : Str) : Bool :=
  if path = [] then false
  else
    match jp.type with
    | .exact => jp.pattern = path
    | .arrayWildcard => arrayWildcardTest jp.basePath path
    | .objectWildcard => matchObjectWildcard jp.basePath path

/-- `JsonPath._isPatternDescendantOf`. -/
def isPatternDescendantOf (jp : JsonPattern) (path : Str) : Bool :=
  path.isPrefixOf jp.basePath &&
    (match jp.basePath.drop path.length with
     | [] => true
     | '.' :: _ => true
     | '[' :: _ => true
     | _ => false)

/-- `JsonPath.isParentOf`. -/
def isParentOf (jp : JsonPattern) (path : Str) : Bool :=
  patMatch jp path || isPatternDescendantOf jp path

/-- `JsonPath.hasMatchingDescendants`. -/
def hasMatchingDescendants (jp : JsonPattern) (path : Str) : Bool :=
  if patMatch jp path then false else isPatternDescendantOf jp path

/-! ## The character buffer (src/json-transform-stream-buffer.js)

The buffer state is the unconsumed decoded text.  `addChunk` appends the
decoded characters (the streaming `TextDecoder` is modelled upstream: chunks
are already characters).  `consumedTotal` is bookkeeping only and is not
modelled. -/

/-- `peekFirstChar`. -/
def peekFirstChar (b : Str) : Option Char := b.head?

/-- `consumeChars`: the consumed text and the new buffer. -/
def consumeChars (n : Nat) (b : Str) : Str × Str := (b.take n, b.drop n)

/-- `consumeWhitespace`: the `/^\s+/` match is the longest prefix of
ECMAScript whitespace; returns (consumed, new buffer). -/
def consumeWhitespace (b : Str) : Str × Str :=
  (b.takeWhile isJsWs, b.dropWhile isJsWs)

/-- An anchored-regex matcher returns the length of the whole match at
position 0 together with a payload (the capture data); `none` when the
pattern does not match.  All reader patterns are `^`-anchored so
`match.index = 0`. -/
def consumeUntilMatch (m : Str → Option (Nat × α)) (b : Str) :
    Option (Str × α × Str) :=
  match m b with
  | none => none
  | some (len, a) => some (b.take len, a, b.drop len)

/-! ## Lexeme matchers

Each matcher implements the exact semantics of the corresponding anchored
JavaScript regular expression, including the cases where backtracking cannot
produce a match that the direct scan misses (justified inline). -/

/-- ECMAScript `.` without the `s` flag excludes the four line terminators. -/
def isLineTerm (c : Char) : Bool :=
  c.val = 0xA || c.val = 0xD || c.val = 0x2028 || c.val = 0x2029

/-- Scan for `(?:[^"\\]|\\.)*"`: number of characters up to and including the
closing quote.  The repetition cannot pass an unescaped `"` and `\\.` fails
on a backslash followed by a line terminator or end of input; in both cases
backtracking only retries shorter repetitions, which then demand a closing
quote at a position already known not to hold one, so the overall match
fails — the scan is exact. -/
def stringBodyLen : Str → Option Nat
  | [] => none
  | c :: rest =>
    if c = '"' then some 1
    else if c = '\\' then
      match rest with
      | [] => none
      | c2 :: rest2 =>
        if isLineTerm c2 then none else (stringBodyLen rest2).map (· + 2)
    else (stringBodyLen rest).map (· + 1)

/-- `STRING_PATTERN = /^("(?:[^"\\]|\\.)*")/` (src/parser/json-string-parser.js):
full match length (group 1 is the whole match). -/
def stringLexLen : Str → Option Nat
  | [] => none
  | c :: rest => if c = '"' then (stringBodyLen rest).map (· + 1) else none

/-- Terminator class `[\s,\}\]]` of the number/literal lookahead. -/
def isTermChar (c : Char) : Bool :=
  isJsWs c || c = ',' || c = '}' || c = ']'

/-- `0|[1-9]\d*`.  On a leading `0` the first alternative is taken and the
second can never match `0`, so no backtracking arises. -/
def numIntPart : Str → Option (Nat × Str)
  | [] => none
  | c :: rest =>
    if c = '0' then some (1, rest)
    else if isDigit c then
      some ((rest.takeWhile isDigit).length + 1, rest.dropWhile isDigit)
    else none

/-- `(\.\d+)?`. -/
def numFracPart (s : Str) : Nat × Str :=
  match s with
  | [] => (0, s)
  | c :: rest =>
    if c = '.' then
      if (rest.takeWhile isDigit).length = 0 then (0, s)
      else ((rest.takeWhile isDigit).length + 1, rest.dropWhile isDigit)
    else (0, s)

/-- `[+-]?`: 1 when an explicit sign follows the exponent marker. -/
def expSignLen : Str → Nat
  | c2 :: _ => if c2 = '+' || c2 = '-' then 1 else 0
  | [] => 0

/-- `([eE][+-]?\d+)?`. -/
def numExpPart (s : Str) : Nat × Str :=
  match s with
  | [] => (0, s)
  | c :: rest =>
    if c = 'e' || c = 'E' then
      if ((rest.drop (expSignLen rest)).takeWhile isDigit).length = 0 then
        (0, s)
      else
        (((rest.drop (expSignLen rest)).takeWhile isDigit).length + 1 +
           expSignLen rest,
         (rest.drop (expSignLen rest)).dropWhile isDigit)
    else (0, s)

/-- `NUMBER_PATTERN = /^(-?(?:0|[1-9]\d*)(?:\.\d+)?(?:[eE][+-]?\d+)?)(?=[\s,\}\]])/`
(src/parser/json-number-parser.js): length of the number lexeme (the
lookahead is zero-width, so this is also the whole-match length).
Backtracking after a failed lookahead only moves the lookahead position onto
a character of the munched lexeme — a number character, never a terminator —
so maximal munch plus one lookahead is exact. -/
def minusSplit (s : Str) : Nat × Str :=
  match s with
  | [] => (0, s)
  | c :: r => if c = '-' then (1, r) else (0, s)

def numLexLen (s : Str) : Option Nat :=
  match numIntPart (minusSplit s).2 with
  | none => none
  | some (ni, s2) =>
    match (numExpPart (numFracPart s2).2).2 with
    | c :: _ =>
      if isTermChar c then
        some ((minusSplit s).1 + ni + (numFracPart s2).1 +
          (numExpPart (numFracPart s2).2).1)
      else none
    | [] => none

/-- The literal word selected by the start character (`LITERAL_PATTERNS`). -/
def litWord (c : Char) : Option Str :=
  if c = 't' then some ('t' :: 'r' :: 'u' :: 'e' :: [])
  else if c = 'f' then some ('f' :: 'a' :: 'l' :: 's' :: 'e' :: [])
  else if c = 'n' then some ('n' :: 'u' :: 'l' :: 'l' :: [])
  else none

/-- `^(true)(?=[\s,\}\]])` and friends: the word, then the terminator
lookahead. -/
def litLexLen (w : Str) (s : Str) : Option Nat :=
  if w.isPrefixOf s then
    match s.drop w.length with
    | c :: _ => if isTermChar c then some w.length else none
    | [] => none
  else none

/-- `KEY_PATTERN = /^("(?:[^"\\]|\\.)*")\s*:/`
(src/parser/json-object-key-parser.js): (group-1 length, whole-match
length). -/
def keyLexLen (s : Str) : Option (Nat × Nat) :=
  match stringLexLen s with
  | none => none
  | some n =>
    let rest := s.drop n
    let wsn := (rest.takeWhile isJsWs).length
    match rest.drop wsn with
    | ':' :: _ => some (n, n + wsn + 1)
    | _ => none

/-! ## JSON values -/

/-- Decoded JavaScript values as delivered to the sink.  `jundef` is JS
`undefined`; numbers carry their source lexeme (see the header). -/
inductive JsValue where
  | jundef
  | jnull
  | jbool (b : Bool)
  | jnum (lex : Str)
  | jstr (s : Str)
  | jarr (elems : List JsValue)
  | jobj (pairs : List (Str × JsValue))
deriving Repr

/-- JS property assignment `obj[k] = v`: an existing key keeps its position
and is overwritten, a new key is appended. -/
def objInsert (ps : List (Str × JsValue)) (k : Str) (v : JsValue) :
    List (Str × JsValue) :=
  if ps.any (fun p => p.1 = k) then
    ps.map (fun p => if p.1 = k then (k, v) else p)
  else ps ++ [(k, v)]

/-! ## The host JSON decoder (`JSON.parse`)

The engine hands captured text to the host `JSON.parse`: the primitive
readers pass the captured lexeme, the bulk parsers pass the captured
subtree.  The model below implements `JSON.parse` for the shapes the engine
hands it. -/

def hexVal (c : Char) : Option Nat :=
  let n := c.toNat
  if 0x30 ≤ n && n ≤ 0x39 then some (n - 0x30)
  else if 0x61 ≤ n && n ≤ 0x66 then some (n - 0x61 + 10)
  else if 0x41 ≤ n && n ≤ 0x46 then some (n - 0x41 + 10)
  else none

def hex4 (a b c d : Char) : Option Nat :=
  match hexVal a, hexVal b, hexVal c, hexVal d with
  | some x, some y, some z, some w =>
    some (((x * 16 + y) * 16 + z) * 16 + w)
  | _, _, _, _ => none

/-- Decode the body of a JSON string literal (between the quotes) exactly as
`JSON.parse` does: raw control characters and invalid escapes are rejected;
`\uXXXX` surrogate pairs are combined.  Escapes producing lone surrogates
are rejected by the model (see the header). -/
def jsonUnescape : Nat → Str → Option Str
  | 0, _ => none
  | _ + 1, [] => some []
  | fuel + 1, c0 :: rest =>
    if c0 = '\\' then
      match rest with
      | [] => none
      | c1 :: r =>
        if c1 = '"' then (jsonUnescape fuel r).map ('"' :: ·)
        else if c1 = '\\' then (jsonUnescape fuel r).map ('\\' :: ·)
        else if c1 = '/' then (jsonUnescape fuel r).map ('/' :: ·)
        else if c1 = 'b' then (jsonUnescape fuel r).map (Char.ofNat 0x8 :: ·)
        else if c1 = 'f' then (jsonUnescape fuel r).map (Char.ofNat 0xC :: ·)
        else if c1 = 'n' then (jsonUnescape fuel r).map ('\n' :: ·)
        else if c1 = 'r' then (jsonUnescape fuel r).map (Char.ofNat 0xD :: ·)
        else if c1 = 't' then (jsonUnescape fuel r).map (Char.ofNat 0x9 :: ·)
        else if c1 = 'u' then
          match r with
          | a :: b :: c :: d :: r2 =>
            match hex4 a b c d with
            | none => none
            | some n =>
              if 0xD800 ≤ n && n ≤ 0xDBFF then
                match r2 with
                | e1 :: e2 :: a2 :: b2 :: c2 :: d2 :: r3 =>
                  if e1 = '\\' then
                    if e2 = 'u' then
                      match hex4 a2 b2 c2 d2 with
                      | none => none
                      | some m =>
                        if 0xDC00 ≤ m && m ≤ 0xDFFF then
                          (jsonUnescape fuel r3).map
                            (Char.ofNat
                              (0x10000 + (n - 0xD800) * 0x400 + (m - 0xDC00)) :: ·)
                        else none
                    else none
                  else none
                | _ => none
              else if 0xDC00 ≤ n && n ≤ 0xDFFF then none
              else (jsonUnescape fuel r2).map (Char.ofNat n :: ·)
          | _ => none
        else none
    else if c0.val < 0x20 then none
    else (jsonUnescape fuel rest).map (c0 :: ·)

/-- `JSON.parse` applied to a complete string lexeme (first and last
characters are the quotes). -/
def decodeStringLexeme (lex : Str) : Option Str :=
  jsonUnescape (lex.length + 1) ((lex.drop 1).take (lex.length - 2))

/-- Insignificant whitespace accepted by `JSON.parse` (RFC 8259). -/
def jpSkipWs (s : Str) : Str := s.dropWhile isJsonWs

/-- JSON number lexeme at the front of `s` (no terminator lookahead —
`JSON.parse` has none): length of the maximal lexeme. -/
def jpNumLen (s : Str) : Option Nat :=
  match numIntPart (minusSplit s).2 with
  | none => none
  | some (ni, s2) =>
    some ((minusSplit s).1 + ni + (numFracPart s2).1 +
      (numExpPart (numFracPart s2).2).1)

mutual

/-- One `JSON.parse` value at the front of the input; returns the value and
the rest.  `fuel` bounds recursion depth; every caller below supplies enough
fuel (`jpValue` consumes at least one character before recursing). -/
def jpValue : Nat → Str → Option (JsValue × Str)
  | 0, _ => none
  | fuel + 1, s0 =>
    let s := jpSkipWs s0
    if (['n', 'u', 'l', 'l'] : Str).isPrefixOf s then some (.jnull, s.drop 4)
    else if (['t', 'r', 'u', 'e'] : Str).isPrefixOf s then
      some (.jbool true, s.drop 4)
    else if (['f', 'a', 'l', 's', 'e'] : Str).isPrefixOf s then
      some (.jbool false, s.drop 5)
    else if s.head? = some '"' then
      match stringLexLen s with
      | none => none
      | some n =>
        match decodeStringLexeme (s.take n) with
        | none => none
        | some dec => some (.jstr dec, s.drop n)
    else if s.head? = some '[' then jpArr fuel (jpSkipWs (s.drop 1)) []
    else if s.head? = some '{' then jpObj fuel (jpSkipWs (s.drop 1)) []
    else
      match jpNumLen s with
      | none => none
      | some n => some (.jnum (s.take n), s.drop n)

/-- Array elements after `[` (leading whitespace already skipped). -/
def jpArr : Nat → Str → List JsValue → Option (JsValue × Str)
  | 0, _, _ => none
  | fuel + 1, s, acc =>
    if acc.isEmpty && s.head? = some ']' then some (.jarr [], s.drop 1)
    else
      match jpValue fuel s with
      | none => none
      | some (v, r) =>
        let r1 := jpSkipWs r
        if r1.head? = some ',' then
          jpArr fuel (jpSkipWs (r1.drop 1)) (acc ++ [v])
        else if r1.head? = some ']' then some (.jarr (acc ++ [v]), r1.drop 1)
        else none

/-- Object members after `{` (leading whitespace already skipped); duplicate
keys overwrite in place, as `JSON.parse` does. -/
def jpObj : Nat → Str → List (Str × JsValue) → Option (JsValue × Str)
  | 0, _, _ => none
  | fuel + 1, s, acc =>
    if acc.isEmpty && s.head? = some '}' then some (.jobj [], s.drop 1)
    else
      match stringLexLen s with
      | none => none
      | some n =>
        match decodeStringLexeme (s.take n) with
        | none => none
        | some k =>
          let r0 := jpSkipWs (s.drop n)
          if r0.head? = some ':' then
            match jpValue fuel (jpSkipWs (r0.drop 1)) with
            | none => none
            | some (v, r2) =>
              let r3 := jpSkipWs r2
              if r3.head? = some ',' then
                jpObj fuel (jpSkipWs (r3.drop 1)) (objInsert acc k v)
              else if r3.head? = some '}' then
                some (.jobj (objInsert acc k v), r3.drop 1)
              else none
          else none

end

/-- `JSON.parse`: one value, then only whitespace may remain. -/
def jsonParse (s : Str) : Option JsValue :=
  match jpValue (s.length + 1) s with
  | none => none
  | some (v, rest) => if jpSkipWs rest = [] then some v else none

/-! ## Canonical serialization

`serialize` renders a document without insignificant whitespace; it is the
reference form in which inputs are fed to the engine in the universal
theorems. -/

def hexDigit (n : Nat) : Char :=
  if n < 10 then Char.ofNat ('0'.toNat + n) else Char.ofNat ('a'.toNat + n - 10)

/-- Escape one character of a string value: `"` and `\` get a backslash,
control characters become `\u00XX`, everything else is verbatim. -/
def escChar (c : Char) : Str :=
  if c = '"' then ['\\', '"']
  else if c = '\\' then ['\\', '\\']
  else if c.val < 0x20 then
    ['\\', 'u', '0', '0', hexDigit (c.toNat / 16), hexDigit (c.toNat % 16)]
  else [c]

def escapeStr (s : Str) : Str := s.flatMap escChar

mutual

def serialize : JsValue → Str
  | .jundef => []
  | .jnull => 'n' :: 'u' :: 'l' :: 'l' :: []
  | .jbool true => 't' :: 'r' :: 'u' :: 'e' :: []
  | .jbool false => 'f' :: 'a' :: 'l' :: 's' :: 'e' :: []
  | .jnum lex => lex
  | .jstr s => '"' :: escapeStr s ++ ['"']
  | .jarr xs => '[' :: serializeElems xs ++ [']']
  | .jobj ps => '{' :: serializePairs ps ++ ['}']

def serializeElems : List JsValue → Str
  | [] => []
  | [x] => serialize x
  | x :: y :: xs => serialize x ++ ',' :: serializeElems (y :: xs)

def serializePairs : List (Str × JsValue) → Str
  | [] => []
  | [(k, v)] => '"' :: escapeStr k ++ '"' :: ':' :: serialize v
  | (k, v) :: q :: ps =>
    '"' :: escapeStr k ++ '"' :: ':' :: serialize v ++ ',' :: serializePairs (q :: ps)

end

mutual

/-- The value `JSON.parse` reconstructs from a serialized document: object
duplicate keys collapse to the last occurrence (kept at the first
occurrence's position). -/
def dedup : JsValue → JsValue
  | .jarr xs => .jarr (dedupList xs)
  | .jobj ps => .jobj (dedupPairs [] ps)
  | v => v

def dedupList : List JsValue → List JsValue
  | [] => []
  | x :: xs => dedup x :: dedupList xs

def dedupPairs : List (Str × JsValue) → List (Str × JsValue) →
    List (Str × JsValue)
  | acc, [] => acc
  | acc, (k, v) :: ps => dedupPairs (objInsert acc k (dedup v)) ps

end

/-- A complete, valid number lexeme (the full `NUMBER_PATTERN` group with
nothing left over). -/
def numLexValid (lex : Str) : Bool :=
  match numIntPart (minusSplit lex).2 with
  | none => false
  | some (_, s2) => (numExpPart (numFracPart s2).2).2.isEmpty

mutual

/-- Documents the universal theorems quantify over: no `undefined`, number
lexemes valid.  String contents are unrestricted (`escapeStr` handles every
scalar). -/
def validVal : JsValue → Bool
  | .jundef => false
  | .jnull => true
  | .jbool _ => true
  | .jnum lex => numLexValid lex
  | .jstr _ => true
  | .jarr xs => validList xs
  | .jobj ps => validPairs ps

def validList : List JsValue → Bool
  | [] => true
  | x :: xs => validVal x && validList xs

def validPairs : List (Str × JsValue) → Bool
  | [] => true
  | (_, v) :: ps => validVal v && validPairs ps

end

/-! ## Errors -/

/-- Terminal errors (`JsonStreamParserError` messages, by kind).
`outOfFuel` is a model artifact: the step functions are given a fuel bound;
the theorems below always supply sufficient fuel. -/
inductive PErr where
  | unexpectedStart (c : Char)
  | incompleteEmpty
  | incompleteStructure
  | extraData (c : Char)
  | trailingComma (isObj : Bool)
  | unexpectedComma (isObj : Bool)
  | unexpectedChar (c : Char)
  | hostParseError
  | invalidLiteralStart
  | outOfFuel
deriving DecidableEq, Repr

/-- An emission reaching the filtering controller: `(path, value)`. -/
abbrev Emit := Str × JsValue

/-! ## The bracket scanner
(`_findMatchingBracketIncremental`, identical in
src/consumer/structure-consumer-base.js and src/parser/bulk-parser-base.js) -/

/-- First position `≥ start` in `s` whose character satisfies `cls`,
together with that character (`indexOf` / `regexp.exec` with `lastIndex`). -/
def findFrom (cls : Char → Bool) : Str → Nat → Option (Nat × Char)
  | [], _ => none
  | c :: rest, i => if cls c then some (i, c) else findFrom cls rest (i + 1)

theorem findFrom_ge {cls : Char → Bool} {s : Str} {i q : Nat} {c : Char}
    (h : findFrom cls s i = some (q, c)) : i ≤ q := by
  induction s generalizing i with
  | nil => simp [findFrom] at h
  | cons x xs ih =>
    by_cases hx : cls x
    · simp [findFrom, hx] at h
      omega
    · simp [findFrom, hx] at h
      have := ih h
      omega

/-- Number of consecutive backslashes at positions `hi-1, hi-2, …` down to
(and including) position `lo` of `s` (the `checkPos >= pos` counting loop). -/
def backslashRun (s : Str) (lo hi : Nat) : Nat :=
  ((((s.drop lo).take (hi - lo)).reverse).takeWhile (fun c => c = '\\')).length

/-- The scan loop.  State: `depth`, `pos` (= `scannedPosition` on entry),
`inStr`.  Result: (position of the matching close bracket if found,
final depth, final `scannedPosition`, final `inStr`).  The first argument
bounds the number of iterations; since `pos` strictly increases on every
continuing iteration, the `s.length + 1` the callers pass is never
exhausted. -/
def scanLoop (openC closeC : Char) (cls : Char → Bool) (s : Str) :
    Nat → Nat → Nat → Bool → Option Nat × Nat × Nat × Bool
  | 0, depth, pos, inStr => (none, depth, pos, inStr)
  | fuel + 1, depth, pos, inStr =>
    if pos < s.length ∧ 0 < depth then
      if inStr then
        match findFrom (fun c => c = '"') (s.drop pos) pos with
        | none => (none, depth, s.length, true)
        | some (qp, _) =>
          if backslashRun s pos qp % 2 = 1 then
            scanLoop openC closeC cls s fuel depth (qp + 1) true
          else
            scanLoop openC closeC cls s fuel depth (qp + 1) false
      else
        match findFrom cls (s.drop pos) pos with
        | none => (none, depth, s.length, false)
        | some (mp, c) =>
          if c = '"' then scanLoop openC closeC cls s fuel depth (mp + 1) true
          else if c = openC then
            scanLoop openC closeC cls s fuel (depth + 1) (mp + 1) false
          else if c = closeC then
            if depth = 1 then (some mp, 0, mp, false)
            else scanLoop openC closeC cls s fuel (depth - 1) (mp + 1) false
          else (none, depth, pos, inStr)
    else (none, depth, pos, inStr)

/-! ## Parser and consumer nodes -/

/-- One parser/consumer node.  `res.isSome` models `isComplete` for parser
nodes (`_setResult` sets both together); the skip consumer carries an
explicit `complete` flag. -/
inductive Node where
  | nstr (path : Str) (res : Option JsValue)
  | nnum (path : Str) (res : Option JsValue)
  | nlit (start : Char) (path : Str) (res : Option JsValue)
  | nkey (res : Option Str)
  | nobj (path : Str) (data : List (Str × JsValue)) (child : Option Node)
      (expKey expVal : Bool) (curKey : Option Str) (opened : Bool)
      (res : Option JsValue)
  | narr (path : Str) (data : List JsValue) (child : Option Node) (idx : Nat)
      (expVal : Bool) (opened : Bool) (res : Option JsValue)
  | nbulk (path : Str) (isObj : Bool) (depth scanned : Nat) (inStr : Bool)
      (captured : Str) (res : Option JsValue)
  | nskip (path : Str) (isObj : Bool) (depth scanned : Nat) (inStr : Bool)
      (complete : Bool)
deriving Repr

/-- `isDone()`. -/
def Node.isDone : Node → Bool
  | .nstr _ r => r.isSome
  | .nnum _ r => r.isSome
  | .nlit _ _ r => r.isSome
  | .nkey r => r.isSome
  | .nobj _ _ _ _ _ _ _ r => r.isSome
  | .narr _ _ _ _ _ _ r => r.isSome
  | .nbulk _ _ _ _ _ _ r => r.isSome
  | .nskip _ _ _ _ _ c => c

/-- `getResult ? getResult() : undefined` for a completed value child:
`none` is JS `undefined` (consumers have no `getResult`). -/
def Node.valueResult : Node → Option JsValue
  | .nskip _ _ _ _ _ _ => none
  | .nstr _ r => r
  | .nnum _ r => r
  | .nlit _ _ r => r
  | .nkey _ => none
  | .nobj _ _ _ _ _ _ _ r => r
  | .narr _ _ _ _ _ _ r => r
  | .nbulk _ _ _ _ _ _ r => r

/-- The key parser's result. -/
def Node.keyResult : Node → Option Str
  | .nkey r => r
  | _ => none

/-! ## Strategy selection (src/json-transform-stream.js) -/

inductive Strat where
  | incremental
  | bulk
  | skip
deriving DecidableEq, Repr

/-- `JsonTransformStream._determineParseStrategy`. -/
def determineParseStrategy (pats : List JsonPattern) (path : Str) : Strat :=
  if pats.any (fun jp => hasMatchingDescendants jp path) then .incremental
  else if pats.any (fun jp => patMatch jp path) then .bulk
  else .skip

/-- `JsonTransformStream._createStructureParser` (with the fresh state the
node-class constructors set up). -/
def createStructureParser (pats : List JsonPattern) (path : Str)
    (isObj : Bool) : Node :=
  match determineParseStrategy pats path with
  | .skip => .nskip path isObj 0 0 false false
  | .bulk => .nbulk path isObj 0 0 false [] none
  | .incremental =>
    if isObj then .nobj path [] none true false none false none
    else .narr path [] none 0 true false none

/-- `JsonTransformStream._createParser`: dispatch on the first character. -/
def createParser (pats : List JsonPattern) (path : Str) (buf : Str) :
    Option Node :=
  match peekFirstChar buf with
  | none => none
  | some c =>
    if c = '"' then some (.nstr path none)
    else if c = '-' || ('0' ≤ c && c ≤ '9') then some (.nnum path none)
    else if c = 't' || c = 'f' || c = 'n' then some (.nlit c path none)
    else if c = '[' then some (createStructureParser pats path false)
    else if c = '{' then some (createStructureParser pats path true)
    else none

/-! ## Step functions -/

/-- `JsonStringParser.parse`: no match leaves all state untouched. -/
def stepStr (path : Str) (res : Option JsValue) (buf : Str) :
    Except PErr (Node × Str × List Emit) :=
  match consumeUntilMatch (fun s => (stringLexLen s).map (fun n => (n, ()))) buf with
  | none => .ok (.nstr path res, buf, [])
  | some (lex, _, rest) =>
    match decodeStringLexeme lex with
    | none => .error .hostParseError
    | some dec => .ok (.nstr path (some (.jstr dec)), rest, [(path, .jstr dec)])

/-- `JsonNumberParser.parse` (`JSON.parse` cannot fail on a
`NUMBER_PATTERN` group). -/
def stepNum (path : Str) (res : Option JsValue) (buf : Str) :
    Except PErr (Node × Str × List Emit) :=
  match consumeUntilMatch (fun s => (numLexLen s).map (fun n => (n, ()))) buf with
  | none => .ok (.nnum path res, buf, [])
  | some (lex, _, rest) =>
    .ok (.nnum path (some (.jnum lex)), rest, [(path, .jnum lex)])

def litVal (c : Char) : JsValue :=
  if c = 't' then .jbool true else if c = 'f' then .jbool false else .jnull

/-- `JsonLiteralParser.parse`. -/
def stepLit (start : Char) (path : Str) (res : Option JsValue) (buf : Str) :
    Except PErr (Node × Str × List Emit) :=
  match litWord start with
  | none => .error .invalidLiteralStart
  | some w =>
    match consumeUntilMatch (fun s => (litLexLen w s).map (fun n => (n, ()))) buf with
    | none => .ok (.nlit start path res, buf, [])
    | some (_, _, rest) =>
      .ok (.nlit start path (some (litVal start)), rest, [(path, litVal start)])

/-- `JsonObjectKeyParser.parse`: consumes through the colon, result is the
decoded key; keys are not emitted. -/
def stepKey (res : Option Str) (buf : Str) :
    Except PErr (Node × Str × List Emit) :=
  match consumeUntilMatch (fun s => (keyLexLen s).map (fun p => (p.2, p.1))) buf with
  | none => .ok (.nkey res, buf, [])
  | some (_, g1len, rest) =>
    match decodeStringLexeme (buf.take g1len) with
    | none => .error .hostParseError
    | some k => .ok (.nkey (some k), rest, [])

/-- `BulkParserBase.parse`. -/
def stepBulk (path : Str) (isObj : Bool) (depth scanned : Nat) (inStr : Bool)
    (captured : Str) (res : Option JsValue) (buf : Str) :
    Except PErr (Node × Str × List Emit) :=
  if res.isSome then .ok (.nbulk path isObj depth scanned inStr captured res, buf, [])
  else
    let openC := if isObj then '{' else '['
    let closeC := if isObj then '}' else ']'
    let cls := fun c => c = '"' || c = openC || c = closeC
    let init : Option (Nat × Nat × Str × Str) :=
      if depth = 0 then
        if peekFirstChar buf = some openC then
          some (1, 0, captured ++ buf.take 1, buf.drop 1)
        else none
      else some (depth, scanned, captured, buf)
    match init with
    | none => .ok (.nbulk path isObj depth scanned inStr captured res, buf, [])
    | some (d0, p0, cap0, buf0) =>
      match scanLoop openC closeC cls buf0 (buf0.length + 1) d0 p0 inStr with
      | (none, d1, p1, s1) => .ok (.nbulk path isObj d1 p1 s1 cap0 none, buf0, [])
      | (some mp, _, _, _) =>
        let cap1 := cap0 ++ buf0.take (mp + 1)
        let buf1 := buf0.drop (mp + 1)
        match jsonParse cap1 with
        | none => .error .hostParseError
        | some v => .ok (.nbulk path isObj 0 0 false cap1 (some v), buf1, [(path, v)])

/-- `StructureConsumerBase.skip`. -/
def stepSkip (path : Str) (isObj : Bool) (depth scanned : Nat) (inStr : Bool)
    (complete : Bool) (buf : Str) :
    Except PErr (Node × Str × List Emit) :=
  if complete then .ok (.nskip path isObj depth scanned inStr complete, buf, [])
  else
    let openC := if isObj then '{' else '['
    let closeC := if isObj then '}' else ']'
    let cls := fun c => c = '"' || c = openC || c = closeC
    let init : Option (Nat × Nat × Str) :=
      if depth = 0 then
        if peekFirstChar buf = some openC then some (1, 0, buf.drop 1)
        else none
      else some (depth, scanned, buf)
    match init with
    | none => .ok (.nskip path isObj depth scanned inStr complete, buf, [])
    | some (d0, p0, buf0) =>
      match scanLoop openC closeC cls buf0 (buf0.length + 1) d0 p0 inStr with
      | (none, d1, p1, s1) => .ok (.nskip path isObj d1 p1 s1 false, buf0, [])
      | (some mp, _, _, _) =>
        .ok (.nskip path isObj 0 0 false true, buf0.drop (mp + 1), [])

/-- `${currentPath}.${key}` with the `'$'` special case
(`JsonObjectParser._handleValueStart`). -/
def objChildPath (path k : Str) : Str :=
  if path = ['$'] then '$' :: '.' :: k else path ++ '.' :: k

/-- `${currentPath}[${index}]` (`JsonArrayParser.parse`). -/
def arrChildPath (path : Str) (idx : Nat) : Str :=
  path ++ '[' :: (Nat.repr idx).data ++ [']']

mutual

/-- `ParserBase.executeStep`: one `parse()`/`skip()` invocation of a node
against the buffer.  Returns the node, the buffer and the emissions pushed
to the (filtering) controller, in order. -/
def stepNode : Nat → List JsonPattern → Node → Str →
    Except PErr (Node × Str × List Emit)
  | 0, _, _, _ => .error .outOfFuel
  | fuel + 1, pats, n, buf =>
    match n with
    | .nstr path res => stepStr path res buf
    | .nnum path res => stepNum path res buf
    | .nlit start path res => stepLit start path res buf
    | .nkey res => stepKey res buf
    | .nbulk path isObj depth scanned inStr captured res =>
      stepBulk path isObj depth scanned inStr captured res buf
    | .nskip path isObj depth scanned inStr complete =>
      stepSkip path isObj depth scanned inStr complete buf
    | .nobj path data child expKey expVal curKey opened res =>
      let (opened', buf') :=
        if !opened && peekFirstChar buf = some '{' then (true, buf.drop 1)
        else (opened, buf)
      objLoop fuel pats path data child expKey expVal curKey opened' res buf' []
    | .narr path data child idx expVal opened res =>
      let (opened', buf') :=
        if !opened && peekFirstChar buf = some '[' then (true, buf.drop 1)
        else (opened, buf)
      arrLoop fuel pats path data child idx expVal opened' res buf' []

/-- The `while (!this.isComplete)` loop of `JsonObjectParser.parse`. -/
def objLoop : Nat → List JsonPattern → Str → List (Str × JsValue) →
    Option Node → Bool → Bool → Option Str → Bool → Option JsValue → Str →
    List Emit → Except PErr (Node × Str × List Emit)
  | 0, _, _, _, _, _, _, _, _, _, _, _ => .error .outOfFuel
  | fuel + 1, pats, path, data, child, expKey, expVal, curKey, opened, res,
      buf, acc =>
    if res.isSome then
      .ok (.nobj path data child expKey expVal curKey opened res, buf, acc)
    else
      match child with
      | some c =>
        match stepNode fuel pats c buf with
        | .error e => .error e
        | .ok (c', buf', em) =>
          if !c'.isDone then
            .ok (.nobj path data (some c') expKey expVal curKey opened res,
                 buf', acc ++ em)
          else if expKey then
            objLoop fuel pats path data none false true c'.keyResult opened
              res buf' (acc ++ em)
          else if expVal then
            objLoop fuel pats path
              (objInsert data (curKey.getD []) (c'.valueResult.getD .jundef))
              none expKey false none opened res buf' (acc ++ em)
          else
            objLoop fuel pats path data none expKey expVal curKey opened res
              buf' (acc ++ em)
      | none =>
        let buf1 := (consumeWhitespace buf).2
        match peekFirstChar buf1 with
        | none =>
          .ok (.nobj path data none expKey expVal curKey opened res, buf1, acc)
        | some c =>
          if c = '}' then
            if expKey && !data.isEmpty then .error (.trailingComma true)
            else
              .ok (.nobj path data none expKey expVal curKey opened
                     (some (.jobj data)),
                   buf1.drop 1, acc ++ [(path, .jobj data)])
          else if c = ',' then
            if expKey || expVal then .error (.unexpectedComma true)
            else
              objLoop fuel pats path data none true expVal curKey opened res
                (buf1.drop 1) acc
          else if expKey && c = '"' then
            objLoop fuel pats path data (some (.nkey none)) expKey expVal
              curKey opened res buf1 acc
          else if expVal then
            match createParser pats (objChildPath path (curKey.getD [])) buf1 with
            | none => .error (.unexpectedChar c)
            | some cn =>
              objLoop fuel pats path data (some cn) expKey expVal curKey
                opened res buf1 acc
          else .error (.unexpectedChar c)

/-- The `while (!this.isComplete)` loop of `JsonArrayParser.parse`. -/
def arrLoop : Nat → List JsonPattern → Str → List JsValue → Option Node →
    Nat → Bool → Bool → Option JsValue → Str → List Emit →
    Except PErr (Node × Str × List Emit)
  | 0, _, _, _, _, _, _, _, _, _, _ => .error .outOfFuel
  | fuel + 1, pats, path, data, child, idx, expVal, opened, res, buf, acc =>
    if res.isSome then
      .ok (.narr path data child idx expVal opened res, buf, acc)
    else
      match child with
      | some c =>
        match stepNode fuel pats c buf with
        | .error e => .error e
        | .ok (c', buf', em) =>
          if !c'.isDone then
            .ok (.narr path data (some c') idx expVal opened res, buf',
                 acc ++ em)
          else
            arrLoop fuel pats path (data ++ [c'.valueResult.getD .jundef])
              none idx false opened res buf' (acc ++ em)
      | none =>
        let buf1 := (consumeWhitespace buf).2
        match peekFirstChar buf1 with
        | none => .ok (.narr path data none idx expVal opened res, buf1, acc)
        | some c =>
          if c = ']' then
            if expVal && !data.isEmpty then .error (.trailingComma false)
            else
              .ok (.narr path data none idx expVal opened (some (.jarr data)),
                   buf1.drop 1, acc ++ [(path, .jarr data)])
          else if c = ',' then
            if expVal then .error (.unexpectedComma false)
            else
              arrLoop fuel pats path data none idx true opened res
                (buf1.drop 1) acc
          else if expVal then
            match createParser pats (arrChildPath path idx) buf1 with
            | none => .error (.unexpectedChar c)
            | some cn =>
              arrLoop fuel pats path data (some cn) (idx + 1) expVal opened
                res buf1 acc
          else .error (.unexpectedChar c)

end

/-! ## The engine (src/json-transform-stream.js) -/

/-- Engine state: buffer, optional root node and the raw emissions that
reached the filtering controller, in order. -/
structure EngineState where
  buffer : Str
  root : Option Node
  raw : List Emit

/-- The `filteringController`: pass `(path, value)` iff some parsed pattern
matches `path`. -/
def deliver (pats : List JsonPattern) (raw : List Emit) : List Emit :=
  raw.filter (fun e => pats.any (fun jp => patMatch jp e.1))

/-- The `transform` callback for one chunk (characters, already decoded). -/
def transformChunk (fuel : Nat) (pats : List JsonPattern) (st : EngineState)
    (chunk : Str) : Except PErr EngineState :=
  let buf := st.buffer ++ chunk
  match st.root with
  | some r =>
    match stepNode fuel pats r buf with
    | .error e => .error e
    | .ok (r', buf', em) => .ok ⟨buf', some r', st.raw ++ em⟩
  | none =>
    let buf1 := (consumeWhitespace buf).2
    match createParser pats ['$'] buf1 with
    | none =>
      match peekFirstChar buf1 with
      | some c => .error (.unexpectedStart c)
      | none => .ok ⟨buf1, none, st.raw⟩
    | some r0 =>
      match stepNode fuel pats r0 buf1 with
      | .error e => .error e
      | .ok (r', buf', em) => .ok ⟨buf', some r', st.raw ++ em⟩

/-- The `flush` callback: finalization checks, in source order. -/
def flushCheck (st : EngineState) : Option PErr :=
  match st.root with
  | none => some .incompleteEmpty
  | some r =>
    if !r.isDone then some .incompleteStructure
    else
      match peekFirstChar (consumeWhitespace st.buffer).2 with
      | some c => some (.extraData c)
      | none => none

def runChunksAux (fuel : Nat) (pats : List JsonPattern) :
    EngineState → List Str → EngineState × Option PErr
  | st, [] => (st, none)
  | st, ch :: rest =>
    match transformChunk fuel pats st ch with
    | .error e => (st, some e)
    | .ok st' => runChunksAux fuel pats st' rest

/-- Feed the chunks, then finalize.  Result: the delivered (filtered)
emissions and the terminal error, if any.  (Emissions made inside the very
step that throws are not tracked; no theorem below depends on them.) -/
def runEngine (fuel : Nat) (pats : List JsonPattern) (chunks : List Str) :
    List Emit × Option PErr :=
  match runChunksAux fuel pats ⟨[], none, []⟩ chunks with
  | (st, some e) => (deliver pats st.raw, some e)
  | (st, none) => (deliver pats st.raw, flushCheck st)

/-! ## Shared concrete fixtures -/

/-- The parsed pattern `$`. -/
def patDollar : JsonPattern := ⟨['$'], .exact, ['$']⟩

theorem parsePattern_dollar : parsePattern ['$'] = some patDollar := rfl

/-- The parsed pattern `$.a`. -/
def patDollarA : JsonPattern := ⟨['$', '.', 'a'], .exact, ['$', '.', 'a']⟩

theorem parsePattern_dollarA :
    parsePattern ['$', '.', 'a'] = some patDollarA := rfl

/-! ## Claim C5: strategy selection -/

/-- **C5.**  At a structural value spawned at path `p`, the node is
incremental iff some pattern has `hasMatchingDescendants p`; otherwise bulk
iff some pattern has `match p`; otherwise a skip consumer — and
`_createParser` routes `{`/`[` through this three-way choice. -/
theorem claim_C5 (pats : List JsonPattern) (p : Str) (isObj : Bool)
    (buf : Str) :
    ((determineParseStrategy pats p = .incremental ↔
        (pats.any fun jp => hasMatchingDescendants jp p) = true)
  ∧ ((pats.any fun jp => hasMatchingDescendants jp p) = false →
      (determineParseStrategy pats p = .bulk ↔
        (pats.any fun jp => patMatch jp p) = true))
  ∧ ((pats.any fun jp => hasMatchingDescendants jp p) = false →
      (pats.any fun jp => patMatch jp p) = false →
      determineParseStrategy pats p = .skip))
  ∧ (createStructureParser pats p isObj =
      match determineParseStrategy pats p with
      | .skip => .nskip p isObj 0 0 false false
      | .bulk => .nbulk p isObj 0 0 false [] none
      | .incremental =>
        if isObj then .nobj p [] none true false none false none
        else .narr p [] none 0 true false none)
  ∧ (peekFirstChar buf = some '{' →
      createParser pats p buf = some (createStructureParser pats p true))
  ∧ (peekFirstChar buf = some '[' →
      createParser pats p buf = some (createStructureParser pats p false)) := by
  refine ⟨⟨?_, ?_, ?_⟩, rfl, ?_, ?_⟩
  · unfold determineParseStrategy
    by_cases hA : (pats.any fun jp => hasMatchingDescendants jp p) = true
    · simp [hA]
    · by_cases hB : (pats.any fun jp => patMatch jp p) = true <;>
        simp [hA, hB]
  · intro h
    unfold determineParseStrategy
    simp [h]
  · intro h1 h2
    unfold determineParseStrategy
    simp [h1, h2]
  · intro h
    simp [createParser, h]
  · intro h
    simp [createParser, h]

theorem claim_C5_witness :
    determineParseStrategy [patDollarA] ['$'] = .incremental ∧
    determineParseStrategy [patDollar] ['$'] = .bulk ∧
    determineParseStrategy [patDollarA] ['$', '.', 'b'] = .skip := by
  refine ⟨?_, ?_, ?_⟩
  · exact (claim_C5 [patDollarA] ['$'] true []).1.1.mpr (by decide)
  · exact ((claim_C5 [patDollar] ['$'] true []).1.2.1 (by decide)).mpr (by decide)
  · exact (claim_C5 [patDollarA] ['$', '.', 'b'] true []).1.2.2 (by decide) (by decide)

/-! ## Claim C6: finalization order -/

/-- **C6.**  Finalization: no root → *Incomplete (empty/whitespace-only)*;
root not complete → *Incomplete (structure not closed)*; then after
stripping trailing whitespace a remaining character → *Structure (extra
data)*; otherwise success. -/
theorem claim_C6 (st : EngineState) :
    (st.root = none → flushCheck st = some .incompleteEmpty)
  ∧ (∀ r, st.root = some r → r.isDone = false →
      flushCheck st = some .incompleteStructure)
  ∧ (∀ r, st.root = some r → r.isDone = true →
      (∀ c, peekFirstChar (consumeWhitespace st.buffer).2 = some c →
        flushCheck st = some (.extraData c))
      ∧ (peekFirstChar (consumeWhitespace st.buffer).2 = none →
        flushCheck st = none)) := by
  refine ⟨?_, ?_, ?_⟩
  · intro h
    simp [flushCheck, h]
  · intro r h hd
    simp [flushCheck, h, hd]
  · intro r h hd
    constructor
    · intro c hc
      simp [flushCheck, h, hd, hc]
    · intro hc
      simp [flushCheck, h, hd, hc]

theorem claim_C6_witness :
    flushCheck ⟨[], none, []⟩ = some .incompleteEmpty ∧
    flushCheck ⟨[], some (.nstr ['$'] none), []⟩ = some .incompleteStructure ∧
    flushCheck ⟨[' ', 'x'], some (.nstr ['$'] (some (.jstr []))), []⟩ =
      some (.extraData 'x') ∧
    flushCheck ⟨[' '], some (.nstr ['$'] (some (.jstr []))), []⟩ = none := by
  refine ⟨?_, ?_, ?_, ?_⟩
  · exact (claim_C6 ⟨[], none, []⟩).1 rfl
  · exact (claim_C6 _).2.1 _ rfl (by decide)
  · exact (((claim_C6 _).2.2 _ rfl (by decide)).1 'x' (by decide))
  · exact (((claim_C6 _).2.2 _ rfl (by decide)).2 (by decide))

/-! ## Claim C7: whitespace consumption (corrected)

`consumeWhitespace` implements `/^\s+/`: ECMAScript `\s`, a strict superset
of the four JSON whitespace characters.  A vertical tab (or NBSP, form feed,
…) before the root value is therefore skipped, and the engine parses the
input instead of failing. -/

/-- **C7, counterexample.**  On the buffer `"\x0B{"` the code removes the
vertical tab — not a JSON whitespace character — so the removed text differs
from the longest `isJsonWs` prefix; and the engine accepts `"\x0B{}"`
instead of failing with the unexpected-start-character error. -/
theorem claim_C7_counterexample :
    (consumeWhitespace ['\x0B', '{']).1 ≠
      (['\x0B', '{'] : Str).takeWhile isJsonWs
  ∧ (consumeWhitespace ['\x0B', '{']).1 = ['\x0B']
  ∧ runEngine 50 [patDollar] [['\x0B', '{', '}']] =
      ([(['$'], .jobj [])], none) := by
  refine ⟨by decide, by decide, ?_⟩
  rfl

/-- **C7, amended.**  `consumeWhitespace` removes exactly the longest prefix
of ECMAScript `\s` whitespace (the four JSON characters plus VT, FF, NBSP,
the Unicode space separators, LS, PS and the BOM); the remainder starts with
a non-`\s` character.  Inputs led by such characters are skipped over
rather than rejected. -/
theorem claim_C7 (b : Str) :
    (consumeWhitespace b).1 ++ (consumeWhitespace b).2 = b
  ∧ (∀ c ∈ (consumeWhitespace b).1, isJsWs c = true)
  ∧ (∀ c, (consumeWhitespace b).2.head? = some c → isJsWs c = false)
  ∧ (∀ c, isJsonWs c = true → isJsWs c = true)
  ∧ (isJsWs '\x0B' = true ∧ isJsWs '\x0C' = true ∧ isJsWs '\xA0' = true ∧
      isJsonWs '\x0B' = false ∧ isJsonWs '\x0C' = false ∧
      isJsonWs '\xA0' = false) := by
  refine ⟨List.takeWhile_append_dropWhile _ _, ?_, ?_, ?_, by decide⟩
  · intro c hc
    exact List.mem_takeWhile_imp hc
  · intro c hc
    have h := List.head?_dropWhile_not isJsWs b
    rw [show consumeWhitespace b = (b.takeWhile isJsWs, b.dropWhile isJsWs) from rfl] at hc
    simp only at hc
    rw [hc] at h
    exact h
  · intro c hc
    unfold isJsonWs at hc
    unfold isJsWs
    rcases Bool.or_eq_true_iff.mp hc with h | h
    · rcases Bool.or_eq_true_iff.mp h with h | h
      · rcases Bool.or_eq_true_iff.mp h with h | h <;> simp [h]
      · simp [h]
    · simp [h]

/-! ## Claim C8: readers do not commit to partial consumption -/

/-- **C8.**  When a reader's anchored pattern does not match, the `parse()`
invocation leaves the buffer and the reader state exactly unchanged (string,
number, literal and object-key readers), and `consumeUntilMatch` consumes
nothing and returns null when its pattern does not match. -/
theorem claim_C8 :
    (∀ (path : Str) (res : Option JsValue) (buf : Str),
      stringLexLen buf = none → stepStr path res buf = .ok (.nstr path res, buf, []))
  ∧ (∀ (path : Str) (res : Option JsValue) (buf : Str),
      numLexLen buf = none → stepNum path res buf = .ok (.nnum path res, buf, []))
  ∧ (∀ (start : Char) (path : Str) (res : Option JsValue) (buf w : Str),
      litWord start = some w → litLexLen w buf = none →
      stepLit start path res buf = .ok (.nlit start path res, buf, []))
  ∧ (∀ (res : Option Str) (buf : Str),
      keyLexLen buf = none → stepKey res buf = .ok (.nkey res, buf, []))
  ∧ (∀ (α : Type) (m : Str → Option (Nat × α)) (buf : Str),
      m buf = none → consumeUntilMatch m buf = none) := by
  refine ⟨?_, ?_, ?_, ?_, ?_⟩
  · intro path res buf h
    simp [stepStr, consumeUntilMatch, h]
  · intro path res buf h
    simp [stepNum, consumeUntilMatch, h]
  · intro start path res buf w hw h
    simp [stepLit, hw, consumeUntilMatch, h]
  · intro res buf h
    simp [stepKey, consumeUntilMatch, h]
  · intro α m buf h
    simp [consumeUntilMatch, h]

theorem claim_C8_witness :
    stepNum ['$'] none ['1', '2'] = .ok (.nnum ['$'] none, ['1', '2'], []) ∧
    stepStr ['$'] none ['"', 'a'] = .ok (.nstr ['$'] none, ['"', 'a'], []) ∧
    stepLit 't' ['$'] none ['t', 'r', 'u'] =
      .ok (.nlit 't' ['$'] none, ['t', 'r', 'u'], []) ∧
    stepKey none ['"', 'k', '"', ' '] = .ok (.nkey none, ['"', 'k', '"', ' '], []) := by
  refine ⟨?_, ?_, ?_, ?_⟩
  · exact claim_C8.2.1 _ _ _ (by decide)
  · exact claim_C8.1 _ _ _ (by decide)
  · exact claim_C8.2.2.1 't' ['$'] none ['t', 'r', 'u'] ['t', 'r', 'u', 'e']
      (by decide) (by decide)
  · exact claim_C8.2.2.2.1 _ _ (by decide)

/-! ## Claim C2: chunk independence (code bug)

The resume logic of `_findMatchingBracketIncremental` is not
chunk-independent: when a scan suspends inside a string literal and resumes
after more data arrives, the backslash-counting loop stops at the resumed
`scannedPosition` (`checkPos >= pos`), so backslashes that arrived in the
earlier chunk are not counted.  A chunk boundary inside a run of
backslashes preceding a quote therefore flips the escape parity. -/

/-- `{"a\\":1}` — a bulk-scanned object whose key ends in an escaped
backslash. -/
def c2whole : Str := ['{', '"', 'a', '\\', '\\', '"', ':', '1', '}']

def c2chunk1 : Str := ['{', '"', 'a', '\\']

def c2chunk2 : Str := ['\\', '"', ':', '1', '}']

/-- **C2, violation.**  The same byte sequence fed whole emits
`($, {"a\" : 1})` and finalizes cleanly, but fed split inside the backslash
run the scanner treats the closing quote as escaped, never finds the `}`,
and finalization fails *Incomplete* — the two partitions produce different
emissions, contradicting chunk independence. -/
theorem claim_C2_theorem :
    c2chunk1 ++ c2chunk2 = c2whole
  ∧ runEngine 100 [patDollar] [c2whole] =
      ([(['$'], .jobj [(['a', '\\'], .jnum ['1'])])], none)
  ∧ runEngine 100 [patDollar] [c2chunk1, c2chunk2] =
      ([], some .incompleteStructure) := by
  exact ⟨rfl, rfl, rfl⟩

/-! ## Claim C1: delivered values versus path lookup (corrected)

Two independent failures:

* an incremental container that is itself delivered records `undefined`
  for any structural child that was handled by a skip consumer (the
  consumer has no `getResult`), so the delivered container is not the
  complete decoded subtree;
* object keys containing `.` are spliced verbatim into paths, so two
  distinct value-positions can share one path string and one delivered
  value per path cannot equal "the" value at that path.

The counterexample below exhibits the first failure. -/

/-- Decimal value of a digit string. -/
def decimalVal : Str → Nat → Nat
  | [], acc => acc
  | c :: r, acc => decimalVal r (acc * 10 + (c.toNat - '0'.toNat))

/-- Segment parsing for path-string lookup: `.key` and `[index]` segments
after the leading `$`.  The fuel (`length + 1` at the call site) is never
exhausted since every segment consumes at least one character. -/
def segsAux : Nat → Str → Option (List (Str ⊕ Nat))
  | 0, _ => none
  | _ + 1, [] => some []
  | f + 1, '.' :: r =>
    let k := r.takeWhile (fun c => !(c = '.' || c = '['))
    (segsAux f (r.dropWhile (fun c => !(c = '.' || c = '[')))).map (.inl k :: ·)
  | f + 1, '[' :: r =>
    let ds := r.takeWhile isDigit
    if ds.isEmpty then none
    else
      match r.dropWhile isDigit with
      | ']' :: r2 => (segsAux f r2).map (.inr (decimalVal ds 0) :: ·)
      | _ => none
  | _ + 1, _ => none

/-- The claim's "the fully decoded JSON value located at that path": parse
`$`, `.key` and `[index]` segments and navigate. -/
def segsOf (path : Str) : Option (List (Str ⊕ Nat)) :=
  match path with
  | '$' :: rest => segsAux (rest.length + 1) rest
  | _ => none

def lookupSegs : JsValue → List (Str ⊕ Nat) → Option JsValue
  | v, [] => some v
  | .jobj ps, .inl k :: rest =>
    match ps.find? (fun p => p.1 = k) with
    | some p => lookupSegs p.2 rest
    | none => none
  | .jarr xs, .inr i :: rest =>
    match xs.get? i with
    | some x => lookupSegs x rest
    | none => none
  | _, _ => none

def pathLookup (doc : JsValue) (path : Str) : Option JsValue :=
  match segsOf path with
  | none => none
  | some segs => lookupSegs doc segs

/-- `{"a":1,"b":{"c":2}}`. -/
def c1input : Str :=
  ['{', '"', 'a', '"', ':', '1', ',', '"', 'b', '"', ':',
   '{', '"', 'c', '"', ':', '2', '}', '}']

/-- Its full decode. -/
def c1doc : JsValue :=
  .jobj [(['a'], .jnum ['1']), (['b'], .jobj [(['c'], .jnum ['2'])])]

/-- **C1, counterexample.**  With patterns `$` and `$.a`, the root is parsed
incrementally (a descendant can match) and is itself delivered (it matches
`$`), but its child `$.b` matches nothing and is skip-consumed: the
delivered root value records `undefined` for `b` and is not the decoded
subtree at `$`. -/
theorem claim_C1_counterexample :
    jsonParse c1input = some c1doc
  ∧ (runEngine 200 [patDollar, patDollarA] [c1input]).1 =
      [(['$', '.', 'a'], .jnum ['1']),
       (['$'], .jobj [(['a'], .jnum ['1']), (['b'], .jundef)])]
  ∧ pathLookup c1doc ['$'] = some c1doc
  ∧ ¬ (∀ pv ∈ (runEngine 200 [patDollar, patDollarA] [c1input]).1,
        pathLookup c1doc pv.1 = some pv.2) := by
  refine ⟨rfl, rfl, rfl, ?_⟩
  intro h
  have hmem : ((['$'], JsValue.jobj [(['a'], .jnum ['1']), (['b'], .jundef)]) :
      Emit) ∈ (runEngine 200 [patDollar, patDollarA] [c1input]).1 := by
    rw [show (runEngine 200 [patDollar, patDollarA] [c1input]).1 =
      [(['$', '.', 'a'], .jnum ['1']),
       (['$'], .jobj [(['a'], .jnum ['1']), (['b'], .jundef)])] from rfl]
    simp
  have := h _ hmem
  rw [show pathLookup c1doc ['$'] = some c1doc from rfl] at this
  simp only [Option.some_inj] at this
  have hb := congrArg (fun v =>
    match v with
    | JsValue.jobj ps => ps
    | _ => []) this
  simp only [c1doc] at hb
  exact absurd (congrArg (fun l => l.get? 1) hb) (by simp)

/-! ## Claim C4: the pattern matcher -/

theorem dropLast3_append (t : Str) (a b c : Char) :
    (t ++ [a, b, c]).dropLast.dropLast.dropLast = t := by
  have h1 : t ++ [a, b, c] = ((t ++ [a]) ++ [b]) ++ [c] := by simp
  rw [h1, List.dropLast_concat, List.dropLast_concat, List.dropLast_concat]

theorem dropLast2_append (t : Str) (a b : Char) :
    (t ++ [a, b]).dropLast.dropLast = t := by
  have h1 : t ++ [a, b] = (t ++ [a]) ++ [b] := by simp
  rw [h1, List.dropLast_concat, List.dropLast_concat]

theorem contains_eq_false_iff (l : Str) (c : Char) :
    l.contains c = false ↔ c ∉ l := by
  rw [show l.contains c = l.elem c from rfl]
  constructor
  · intro h hm
    rw [List.elem_iff.mpr hm] at h
    exact absurd h (by simp)
  · intro h
    cases he : l.elem c
    · rfl
    · exact absurd (List.elem_iff.mp he) h

theorem awDigits_iff (seen : Bool) (l : Str) :
    awDigits seen l = true ↔
      ∃ ds : Str, l = ds ++ [']'] ∧ (∀ c ∈ ds, isDigit c = true) ∧
        (seen = true ∨ ds ≠ []) := by
  induction l generalizing seen with
  | nil =>
    simp only [awDigits, Bool.false_eq_true, false_iff, not_exists]
    rintro ds ⟨h, -, -⟩
    exact absurd h (by simp)
  | cons c rest ih =>
    cases rest with
    | nil =>
      simp only [awDigits, Bool.and_eq_true, decide_eq_true_eq]
      constructor
      · rintro ⟨hs, hc⟩
        exact ⟨[], by simp [hc], by simp, Or.inl hs⟩
      · rintro ⟨ds, h, hds, hcond⟩
        cases ds with
        | nil =>
          simp only [List.nil_append, List.cons.injEq, and_true] at h
          rcases hcond with hs | hne
          · exact ⟨hs, h⟩
          · exact absurd rfl hne
        | cons d ds' =>
          exfalso
          have hlen := congrArg List.length h
          simp at hlen
    | cons c2 rest2 =>
      simp only [awDigits, Bool.and_eq_true, Bool.or_true, ih true]
      constructor
      · rintro ⟨hd, ds', hl, hds', -⟩
        refine ⟨c :: ds', by simp [hl], ?_, Or.inr (by simp)⟩
        intro x hx
        rcases List.mem_cons.mp hx with h | h
        · exact h ▸ hd
        · exact hds' x h
      · rintro ⟨ds, h, hds, -⟩
        cases ds with
        | nil => simp at h
        | cons d ds' =>
          simp only [List.cons_append, List.cons.injEq] at h
          exact ⟨h.1 ▸ hds d (by simp), ds', h.2,
            fun x hx => hds x (List.mem_cons_of_mem d hx), by simp⟩

theorem awTail_iff (l : Str) :
    awTail l = true ↔
      ∃ ds : Str, ds ≠ [] ∧ (∀ c ∈ ds, isDigit c = true) ∧
        l = '[' :: (ds ++ [']']) := by
  cases l with
  | nil =>
    simp only [awTail, Bool.false_eq_true, false_iff, not_exists]
    rintro ds ⟨-, -, h⟩
    exact absurd h (by simp)
  | cons c rest =>
    simp only [awTail, Bool.and_eq_true, decide_eq_true_eq]
    rw [awDigits_iff]
    constructor
    · rintro ⟨hc, ds, hl, hds, hcond⟩
      subst hc
      refine ⟨ds, ?_, hds, by rw [hl]⟩
      rcases hcond with h' | h'
      · exact absurd h' (by simp)
      · exact h'
    · rintro ⟨ds, hne, hds, h⟩
      simp only [List.cons.injEq] at h
      exact ⟨h.1, ds, h.2, hds, Or.inr hne⟩

theorem prefix_drop_eq {base path rest : Str} (h : path = base ++ rest) :
    path.drop base.length = rest := by
  subst h
  exact List.drop_left base rest

theorem arrayWildcardTest_iff (base path : Str) :
    arrayWildcardTest base path = true ↔
      ∃ ds : Str, ds ≠ [] ∧ (∀ c ∈ ds, isDigit c = true) ∧
        path = base ++ ('[' :: (ds ++ [']'])) := by
  unfold arrayWildcardTest
  rw [Bool.and_eq_true]
  constructor
  · rintro ⟨hpre, htail⟩
    obtain ⟨rest, hrest⟩ := List.isPrefixOf_iff_prefix.mp hpre
    rw [prefix_drop_eq hrest.symm] at htail
    obtain ⟨ds, hne, hds, hl⟩ := (awTail_iff rest).mp htail
    exact ⟨ds, hne, hds, by rw [← hrest, hl]⟩
  · rintro ⟨ds, hne, hds, h⟩
    subst h
    refine ⟨List.isPrefixOf_iff_prefix.mpr
      (List.prefix_append base ('[' :: ds ++ [']'])), ?_⟩
    rw [List.drop_left]
    exact (awTail_iff _).mpr ⟨ds, hne, hds, rfl⟩

theorem matchObjectWildcard_iff (base path : Str) :
    matchObjectWildcard base path = true ↔
      ∃ seg : Str, seg ≠ [] ∧ '.' ∉ seg ∧ '[' ∉ seg ∧
        path = base ++ ('.' :: seg) := by
  simp only [matchObjectWildcard, Bool.and_eq_true, decide_eq_true_eq,
    Bool.not_eq_true']
  constructor
  · rintro ⟨hpre, ⟨hne, hdot⟩, hbr⟩
    obtain ⟨rest, hrest⟩ := List.isPrefixOf_iff_prefix.mp hpre
    have hdrop := @prefix_drop_eq (base ++ ['.']) _ _ hrest.symm
    rw [hdrop] at hne hdot hbr
    exact ⟨rest, hne, (contains_eq_false_iff rest '.').mp hdot,
      (contains_eq_false_iff rest '[').mp hbr, by rw [← hrest]; simp⟩
  · rintro ⟨seg, hne, hdot, hbr, h⟩
    subst h
    have heq : base ++ ('.' :: seg) = (base ++ ['.']) ++ seg := by simp
    rw [heq]
    refine ⟨List.isPrefixOf_iff_prefix.mpr (List.prefix_append _ seg), ?_, ?_⟩
    · rw [List.drop_left]
      exact ⟨hne, (contains_eq_false_iff seg '.').mpr hdot⟩
    · rw [List.drop_left]
      exact (contains_eq_false_iff seg '[').mpr hbr

theorem parsePattern_facts {raw : Str} {jp : JsonPattern}
    (h : parsePattern raw = some jp) :
    raw ≠ [] ∧ determineType raw = some jp.type ∧ jp.pattern = raw ∧
      jp.basePath = extractBasePath raw jp.type := by
  unfold parsePattern at h
  by_cases he : raw = []
  · simp [he] at h
  · simp only [he, if_false] at h
    match hdt : determineType raw with
    | none => rw [hdt] at h; exact absurd h (by simp)
    | some t =>
      rw [hdt] at h
      simp only [Option.some_inj] at h
      refine ⟨he, ?_, ?_, ?_⟩
      · rw [← h]
      · rw [← h]
      · rw [← h]

/-- **C4.** -/
theorem claim_C4 (raw : Str) (jp : JsonPattern) (path : Str)
    (h : parsePattern raw = some jp) :
    (jp.type = .exact → (patMatch jp path = true ↔ path = jp.pattern))
  ∧ (jp.type = .arrayWildcard →
      (patMatch jp path = true ↔
        ∃ ds : Str, ds ≠ [] ∧ (∀ c ∈ ds, isDigit c = true) ∧
          path = jp.basePath ++ ('[' :: (ds ++ [']'])))
      ∧ jp.pattern = jp.basePath ++ ['[', '*', ']'])
  ∧ (jp.type = .objectWildcard →
      (patMatch jp path = true ↔
        ∃ seg : Str, seg ≠ [] ∧ '.' ∉ seg ∧ '[' ∉ seg ∧
          path = jp.basePath ++ ('.' :: seg))
      ∧ jp.pattern = jp.basePath ++ ['.', '*']) := by
  obtain ⟨hne, hdt, hpat, hbase⟩ := parsePattern_facts h
  refine ⟨?_, ?_, ?_⟩
  · intro ht
    unfold patMatch
    rw [ht]
    by_cases hp : path = []
    · subst hp
      simp only [if_true]
      constructor
      · intro hff
        exact absurd hff (by simp)
      · intro hcontra
        exact absurd (hpat ▸ hcontra.symm) hne
    · simp only [hp, if_false, decide_eq_true_eq]
      exact eq_comm
  · intro ht
    have hsuf : (['[', '*', ']'] : Str).isSuffixOf raw = true := by
      unfold determineType at hdt
      by_cases h1 : containsStarStar raw = true
      · simp [h1] at hdt
      · by_cases h2 : (['[', '*', ']'] : Str).isSuffixOf raw = true
        · exact h2
        · exfalso
          by_cases h3 : (['.', '*'] : Str).isSuffixOf raw = true <;>
            simp [h1, h2, h3, ht] at hdt
    obtain ⟨t, hts⟩ := List.isSuffixOf_iff_suffix.mp hsuf
    have hbase' : jp.basePath = t := by
      rw [hbase, ht]
      unfold extractBasePath
      rw [← hts]
      exact dropLast3_append t '[' '*' ']'
    refine ⟨?_, by rw [hpat, hbase', ← hts]⟩
    unfold patMatch
    rw [ht]
    by_cases hp : path = []
    · subst hp
      simp only [if_true]
      constructor
      · intro hff
        exact absurd hff (by simp)
      · rintro ⟨ds, -, -, hcontra⟩
        exact absurd hcontra.symm (by simp)
    · simp only [hp, if_false]
      exact arrayWildcardTest_iff jp.basePath path
  · intro ht
    have hsuf : (['.', '*'] : Str).isSuffixOf raw = true := by
      unfold determineType at hdt
      by_cases h1 : containsStarStar raw = true
      · simp [h1] at hdt
      · by_cases h2 : (['[', '*', ']'] : Str).isSuffixOf raw = true
        · simp [h1, h2, ht] at hdt
        · by_cases h3 : (['.', '*'] : Str).isSuffixOf raw = true
          · exact h3
          · simp [h1, h2, h3, ht] at hdt
    obtain ⟨t, hts⟩ := List.isSuffixOf_iff_suffix.mp hsuf
    have hbase' : jp.basePath = t := by
      rw [hbase, ht]
      unfold extractBasePath
      rw [← hts]
      exact dropLast2_append t '.' '*'
    refine ⟨?_, by rw [hpat, hbase', ← hts]⟩
    unfold patMatch
    rw [ht]
    by_cases hp : path = []
    · subst hp
      simp only [if_true]
      constructor
      · intro hff
        exact absurd hff (by simp)
      · rintro ⟨seg, -, -, -, hcontra⟩
        exact absurd hcontra.symm (by simp)
    · simp only [hp, if_false]
      exact matchObjectWildcard_iff jp.basePath path

def patObjWild : JsonPattern :=
  ⟨['$', '.', 'a', '.', '*'], .objectWildcard, ['$', '.', 'a']⟩

theorem claim_C4_witness :
    (patMatch patObjWild ['$', '.', 'a', '.', 'b'] = true ↔
      ∃ seg : Str, seg ≠ [] ∧ '.' ∉ seg ∧ '[' ∉ seg ∧
        (['$', '.', 'a', '.', 'b'] : Str) = patObjWild.basePath ++ ('.' :: seg)) :=
  ((claim_C4 ['$', '.', 'a', '.', '*'] patObjWild ['$', '.', 'a', '.', 'b']
    (by decide)).2.2 rfl).1

/-! ## Claim C9: bare scalar roots -/


/-- Character class of every character that can occur in a number lexeme. -/
def numChar (c : Char) : Bool :=
  isDigit c || c = '-' || c = '+' || c = '.' || c = 'e' || c = 'E'

theorem isDigit_cases {c : Char} (h : isDigit c = true) :
    c = '0' ∨ c = '1' ∨ c = '2' ∨ c = '3' ∨ c = '4' ∨ c = '5' ∨ c = '6' ∨
    c = '7' ∨ c = '8' ∨ c = '9' := by
  simp only [isDigit, Bool.and_eq_true, decide_eq_true_eq] at h
  obtain ⟨h1, h2⟩ := h
  rw [Char.le_def] at h1 h2
  have hn1 : 48 ≤ c.val.toNat := h1
  have hn2 : c.val.toNat ≤ 57 := h2
  have hv : c.val.toNat = 48 ∨ c.val.toNat = 49 ∨ c.val.toNat = 50 ∨
      c.val.toNat = 51 ∨ c.val.toNat = 52 ∨ c.val.toNat = 53 ∨
      c.val.toNat = 54 ∨ c.val.toNat = 55 ∨ c.val.toNat = 56 ∨
      c.val.toNat = 57 := by omega
  rcases hv with h | h | h | h | h | h | h | h | h | h
  · exact Or.inl (Char.ext (UInt32.ext h))
  · exact Or.inr (Or.inl (Char.ext (UInt32.ext h)))
  · exact Or.inr (Or.inr (Or.inl (Char.ext (UInt32.ext h))))
  · exact Or.inr (Or.inr (Or.inr (Or.inl (Char.ext (UInt32.ext h)))))
  · exact Or.inr (Or.inr (Or.inr (Or.inr (Or.inl (Char.ext (UInt32.ext h))))))
  · exact Or.inr (Or.inr (Or.inr (Or.inr (Or.inr (Or.inl (Char.ext (UInt32.ext h)))))))
  · exact Or.inr (Or.inr (Or.inr (Or.inr (Or.inr (Or.inr (Or.inl (Char.ext (UInt32.ext h))))))))
  · exact Or.inr (Or.inr (Or.inr (Or.inr (Or.inr (Or.inr (Or.inr (Or.inl (Char.ext (UInt32.ext h)))))))))
  · exact Or.inr (Or.inr (Or.inr (Or.inr (Or.inr (Or.inr (Or.inr (Or.inr (Or.inl (Char.ext (UInt32.ext h))))))))))
  · exact Or.inr (Or.inr (Or.inr (Or.inr (Or.inr (Or.inr (Or.inr (Or.inr (Or.inr (Char.ext (UInt32.ext h))))))))))

theorem numChar_facts {c : Char} (h : numChar c = true) :
    isTermChar c = false ∧ isJsWs c = false ∧ c ≠ '"' ∧ c ≠ '{' ∧ c ≠ '[' ∧
      c ≠ 't' ∧ c ≠ 'f' ∧ c ≠ 'n' := by
  unfold numChar at h
  simp only [Bool.or_eq_true, decide_eq_true_eq] at h
  rcases h with ((((h | h) | h) | h) | h) | h
  · rcases isDigit_cases h with h | h | h | h | h | h | h | h | h | h <;>
      subst h <;> exact ⟨by decide, by decide, by decide, by decide, by decide,
        by decide, by decide, by decide⟩
  all_goals subst h
  all_goals exact ⟨by decide, by decide, by decide, by decide, by decide,
    by decide, by decide, by decide⟩

theorem dropWhile_suffix (p : Char → Bool) (s : Str) : s.dropWhile p <:+ s := by
  induction s with
  | nil => simp
  | cons c rest ih =>
    by_cases h : p c
    · simp only [List.dropWhile_cons, h, if_true]
      exact ih.trans (List.suffix_cons c rest)
    · simp [List.dropWhile_cons, h]

/-- `numIntPart` returns a suffix of its input. -/
theorem numIntPart_suffix {s : Str} {n : Nat} {r : Str}
    (h : numIntPart s = some (n, r)) : r <:+ s := by
  match s with
  | [] => simp [numIntPart] at h
  | c :: rest =>
    simp only [numIntPart] at h
    by_cases h0 : c = '0'
    · simp only [h0, if_true, Option.some_inj, Prod.mk.injEq] at h
      rw [← h.2]
      exact List.suffix_cons c rest
    · simp only [h0, if_false] at h
      by_cases hd : isDigit c = true
      · simp only [hd, if_true, Option.some_inj, Prod.mk.injEq] at h
        rw [← h.2]
        exact (dropWhile_suffix isDigit rest).trans (List.suffix_cons c rest)
      · simp [hd] at h

/-- `numFracPart` returns a suffix of its input. -/
theorem numFracPart_suffix (s : Str) : (numFracPart s).2 <:+ s := by
  match s with
  | [] => simp [numFracPart]
  | c :: rest =>
    simp only [numFracPart]
    by_cases h0 : c = '.'
    · simp only [h0, if_true]
      by_cases hz : (rest.takeWhile isDigit).length = 0
      · simp [hz]
      · simp only [hz, if_false]
        exact (dropWhile_suffix isDigit rest).trans (List.suffix_cons '.' rest)
    · simp [h0]

/-- `numExpPart` returns a suffix of its input. -/
theorem numExpPart_suffix (s : Str) : (numExpPart s).2 <:+ s := by
  match s with
  | [] => simp [numExpPart]
  | c :: rest =>
    simp only [numExpPart]
    by_cases h0 : (c = 'e' || c = 'E') = true
    · simp only [h0, if_true]
      by_cases hz : (((rest.drop (expSignLen rest)).takeWhile isDigit).length = 0)
      · simp only [hz, if_true]
        exact List.suffix_refl _
      · simp only [hz, if_false]
        exact ((dropWhile_suffix isDigit _).trans
          (List.drop_suffix _ rest)).trans (List.suffix_cons c rest)
    · simp [h0]


theorem takeWhile_all_numChar (s : Str) :
    ∀ c ∈ s.takeWhile isDigit, numChar c = true := by
  intro c hc
  have := List.mem_takeWhile_imp hc
  simp [numChar, this]

theorem minusSplit_split (s : Str) :
    s = s.take (minusSplit s).1 ++ (minusSplit s).2 ∧
      (∀ c ∈ s.take (minusSplit s).1, numChar c = true) := by
  match s with
  | [] => simp [minusSplit]
  | c :: r =>
    by_cases h : c = '-'
    · subst h
      refine ⟨by simp [minusSplit], ?_⟩
      intro x hx
      simp only [minusSplit, if_true, List.take_succ_cons, List.take_zero,
        List.mem_singleton, reduceIte] at hx
      simp [hx, numChar]
    · simp [minusSplit, h]

theorem numIntPart_split {s : Str} {n : Nat} {r : Str}
    (h : numIntPart s = some (n, r)) :
    ∃ pre : Str, s = pre ++ r ∧ (∀ c ∈ pre, numChar c = true) ∧
      ∃ d rest, s = d :: rest ∧ isDigit d = true := by
  match s with
  | [] => simp [numIntPart] at h
  | c :: rest =>
    simp only [numIntPart] at h
    by_cases h0 : c = '0'
    · subst h0
      rw [if_pos rfl] at h
      simp only [Option.some_inj, Prod.mk.injEq] at h
      exact ⟨['0'], by simp [← h.2], by simp [numChar, isDigit],
        '0', rest, rfl, by simp [isDigit]⟩
    · simp only [h0, if_false] at h
      by_cases hd : isDigit c = true
      · simp only [hd, if_true, Option.some_inj, Prod.mk.injEq] at h
        refine ⟨c :: rest.takeWhile isDigit, ?_, ?_, c, rest, rfl, hd⟩
        · rw [← h.2]
          simp [List.takeWhile_append_dropWhile]
        · intro x hx
          rcases List.mem_cons.mp hx with hx | hx
          · simp [hx, numChar, hd]
          · exact takeWhile_all_numChar rest x hx
      · simp [hd] at h

theorem numFracPart_split (s : Str) :
    ∃ pre : Str, s = pre ++ (numFracPart s).2 ∧
      ∀ c ∈ pre, numChar c = true := by
  match s with
  | [] => exact ⟨[], by simp [numFracPart], by simp⟩
  | c :: rest =>
    simp only [numFracPart]
    by_cases h0 : c = '.'
    · subst h0
      simp only [if_pos rfl]
      by_cases hz : (rest.takeWhile isDigit).length = 0
      · exact ⟨[], by simp [hz], by simp⟩
      · simp only [hz, if_false]
        refine ⟨'.' :: rest.takeWhile isDigit, ?_, ?_⟩
        · simp [List.takeWhile_append_dropWhile]
        · intro x hx
          rcases List.mem_cons.mp hx with hx | hx
          · simp [hx, numChar]
          · exact takeWhile_all_numChar rest x hx
    · exact ⟨[], by simp [h0], by simp⟩

theorem expSign_take_numChar (rest : Str) :
    ∀ c ∈ rest.take (expSignLen rest), numChar c = true := by
  match rest with
  | [] => simp
  | c2 :: r2 =>
    simp only [expSignLen]
    by_cases hs : (c2 = '+' || c2 = '-') = true
    · simp only [hs, if_true]
      intro x hx
      simp only [List.take_succ_cons, List.take_zero, List.mem_singleton] at hx
      subst hx
      rcases Bool.or_eq_true_iff.mp hs with h | h <;>
        simp only [decide_eq_true_eq] at h <;> simp [h, numChar]
    · simp [hs]

theorem numExpPart_split (s : Str) :
    ∃ pre : Str, s = pre ++ (numExpPart s).2 ∧
      ∀ c ∈ pre, numChar c = true := by
  match s with
  | [] => exact ⟨[], by simp [numExpPart], by simp⟩
  | c :: rest =>
    simp only [numExpPart]
    by_cases h0 : (c = 'e' || c = 'E') = true
    · simp only [h0, if_true]
      by_cases hz : (((rest.drop (expSignLen rest)).takeWhile isDigit).length = 0)
      · exact ⟨[], by simp [hz], by simp⟩
      · simp only [hz, if_false]
        refine ⟨c :: (rest.take (expSignLen rest) ++
          (rest.drop (expSignLen rest)).takeWhile isDigit), ?_, ?_⟩
        · simp only [List.cons_append, List.cons.injEq, true_and]
          rw [List.append_assoc, List.takeWhile_append_dropWhile,
            List.take_append_drop]
        · intro x hx
          rcases List.mem_cons.mp hx with hx | hx
          · rcases Bool.or_eq_true_iff.mp h0 with h | h <;>
              simp only [decide_eq_true_eq] at h <;> simp [hx, h, numChar]
          · rcases List.mem_append.mp hx with hx | hx
            · exact expSign_take_numChar rest x hx
            · exact takeWhile_all_numChar _ x hx
    · exact ⟨[], by simp [h0], by simp⟩

/-- The heart of C9: on a buffer made only of number characters the
`NUMBER_PATTERN` lookahead can never be satisfied. -/
theorem numLexLen_none {b : Str} (hb : ∀ c ∈ b, numChar c = true) :
    numLexLen b = none := by
  unfold numLexLen
  match hmi : numIntPart (minusSplit b).2 with
  | none => rfl
  | some (ni, s2) =>
    show (match (numExpPart (numFracPart s2).2).2 with
      | c :: _ =>
        if isTermChar c then
          some ((minusSplit b).1 + ni + (numFracPart s2).1 +
            (numExpPart (numFracPart s2).2).1)
        else none
      | [] => none) = none
    have hs2 : s2 <:+ b := by
      have h1 := numIntPart_suffix hmi
      have h2 : (minusSplit b).2 <:+ b := by
        obtain ⟨hsplit, -⟩ := minusSplit_split b
        exact ⟨b.take (minusSplit b).1, hsplit.symm⟩
      exact h1.trans h2
    have hs4 : (numExpPart (numFracPart s2).2).2 <:+ b :=
      ((numExpPart_suffix (numFracPart s2).2).trans
        (numFracPart_suffix s2)).trans hs2
    cases h4 : (numExpPart (numFracPart s2).2).2 with
    | nil => rfl
    | cons c t =>
      have hc : c ∈ b := by
        rw [h4] at hs4
        exact hs4.subset (by simp)
      have := (numChar_facts (hb c hc)).1
      simp [this]

/-- Structure facts about a complete valid number lexeme. -/
theorem numLexValid_facts {s : Str} (h : numLexValid s = true) :
    (∀ c ∈ s, numChar c = true) ∧
      ∃ c rest, s = c :: rest ∧ (c = '-' ∨ isDigit c = true) := by
  unfold numLexValid at h
  match hmi : numIntPart (minusSplit s).2 with
  | none => rw [hmi] at h; exact absurd h (by simp)
  | some (ni, s2) =>
    rw [hmi] at h
    have h : (numExpPart (numFracPart s2).2).2.isEmpty = true := h
    simp only [List.isEmpty_iff] at h
    obtain ⟨hsplit, hminus⟩ := minusSplit_split s
    obtain ⟨preI, hI, hIchar, d, restI, hshape, hd⟩ := numIntPart_split hmi
    obtain ⟨preF, hF, hFchar⟩ := numFracPart_split s2
    obtain ⟨preE, hE, hEchar⟩ := numExpPart_split (numFracPart s2).2
    constructor
    · intro c hc
      rw [hsplit] at hc
      rcases List.mem_append.mp hc with hc | hc
      · exact hminus c hc
      · rw [hI] at hc
        rcases List.mem_append.mp hc with hc | hc
        · exact hIchar c hc
        · rw [hF] at hc
          rcases List.mem_append.mp hc with hc | hc
          · exact hFchar c hc
          · rw [hE] at hc
            rcases List.mem_append.mp hc with hc | hc
            · exact hEchar c hc
            · rw [h] at hc
              exact absurd hc (List.not_mem_nil c)
    · match hms : s with
      | [] =>
        exfalso
        simp [minusSplit] at hshape
      | c :: rest =>
        refine ⟨c, rest, rfl, ?_⟩
        by_cases hm : c = '-'
        · exact Or.inl hm
        · right
          have : (minusSplit (c :: rest)).2 = c :: rest := by
            simp [minusSplit, hm]
          rw [this] at hshape
          rw [show d = c from (List.cons.injEq _ _ _ _ ▸ hshape).1.symm] at hd
          exact hd


theorem consumeWs_noop_cons {c : Char} {r : Str} (h : isJsWs c = false) :
    (consumeWhitespace (c :: r)).2 = c :: r := by
  simp [consumeWhitespace, List.dropWhile_cons, h]

theorem stepNum_nomatch (path : Str) (res : Option JsValue) {buf : Str}
    (h : numLexLen buf = none) :
    stepNum path res buf = .ok (.nnum path res, buf, []) := by
  simp [stepNum, consumeUntilMatch, h]

theorem createParser_num (pats : List JsonPattern) (path : Str) {c : Char}
    (r : Str) (h : c = '-' ∨ isDigit c = true) :
    createParser pats path (c :: r) = some (.nnum path none) := by
  have hnum : numChar c = true := by
    rcases h with h | h
    · simp [numChar, h]
    · simp [numChar, h]
  obtain ⟨-, -, hq, -, -, -, -, -⟩ := numChar_facts hnum
  unfold createParser peekFirstChar
  simp only [List.head?]
  rw [if_neg (by simpa using hq)]
  rw [if_pos ?_]
  rcases h with h | h
  · simp [h]
  · simp only [isDigit] at h
    simp [h]

/-- Engine state while a bare number is being fed: the whole prefix is
buffered, the root number parser never completes. -/
def mkNumSt (p : Str) : EngineState :=
  ⟨p, if p.isEmpty then none else some (.nnum ['$'] none), []⟩

theorem num_transform (fuel : Nat) (hf : 0 < fuel) (pats : List JsonPattern)
    {s : Str} (hall : ∀ c ∈ s, numChar c = true)
    (hhead : ∀ c r, s = c :: r → (c = '-' ∨ isDigit c = true))
    {p ch : Str} (hpre : (p ++ ch) <+: s) :
    transformChunk fuel pats (mkNumSt p) ch = .ok (mkNumSt (p ++ ch)) := by
  obtain ⟨k, rfl⟩ : ∃ k, fuel = k + 1 := ⟨fuel - 1, by omega⟩
  have hnolex : numLexLen (p ++ ch) = none :=
    numLexLen_none (fun c hc => hall c (hpre.subset hc))
  unfold transformChunk mkNumSt
  by_cases hp : p.isEmpty
  · rw [List.isEmpty_iff] at hp
    subst hp
    simp only [List.isEmpty_nil, if_true, List.nil_append] at *
    cases hch : ch with
    | nil =>
      simp [consumeWhitespace, createParser, peekFirstChar]
    | cons c r =>
      obtain ⟨t, ht⟩ := hpre
      rw [hch] at ht
      have hhc : c = '-' ∨ isDigit c = true := hhead c (r ++ t) (by rw [← ht]; simp)
      have hnumc : numChar c = true := by
        rcases hhc with h | h
        · simp [numChar, h]
        · simp [numChar, h]
      have hws : isJsWs c = false := (numChar_facts hnumc).2.1
      rw [show (consumeWhitespace (c :: r)).2 = c :: r from consumeWs_noop_cons hws]
      rw [createParser_num pats ['$'] r hhc]
      dsimp only
      rw [show stepNode (k + 1) pats (.nnum ['$'] none) (c :: r) =
        stepNum ['$'] none (c :: r) from rfl]
      rw [stepNum_nomatch ['$'] none (by rw [← hch]; exact hnolex)]
      simp
  · have hp' : ¬p.isEmpty = true := hp
    rw [if_neg hp']
    dsimp only
    rw [show stepNode (k + 1) pats (.nnum ['$'] none) (p ++ ch) =
      stepNum ['$'] none (p ++ ch) from rfl]
    rw [stepNum_nomatch ['$'] none hnolex]
    have hemp : (p ++ ch).isEmpty = false := by
      have hne : ¬(p ++ ch).isEmpty = true := by
        rw [List.isEmpty_iff, List.append_eq_nil]
        intro hcon
        rw [List.isEmpty_iff] at hp
        exact hp hcon.1
      exact Bool.not_eq_true _ ▸ hne
    simp [hemp]

theorem num_run (fuel : Nat) (hf : 0 < fuel) (pats : List JsonPattern)
    {s : Str} (hall : ∀ c ∈ s, numChar c = true)
    (hhead : ∀ c r, s = c :: r → (c = '-' ∨ isDigit c = true)) :
    ∀ (chunks : List Str) (p : Str), p ++ chunks.flatten = s →
      runChunksAux fuel pats (mkNumSt p) chunks = (mkNumSt s, none) := by
  intro chunks
  induction chunks with
  | nil =>
    intro p hp
    simp only [List.flatten_nil, List.append_nil] at hp
    subst hp
    rfl
  | cons ch rest ih =>
    intro p hp
    simp only [List.flatten_cons] at hp
    have hpre : (p ++ ch) <+: s := ⟨rest.flatten, by rw [← hp]; simp⟩
    show (match transformChunk fuel pats (mkNumSt p) ch with
      | Except.error e => (mkNumSt p, some e)
      | Except.ok st' => runChunksAux fuel pats st' rest) = _
    rw [num_transform fuel hf pats hall hhead hpre]
    exact ih (p ++ ch) (by rw [← hp]; simp)


/-! Literal case -/

theorem litWord_cases {c : Char} {w : Str} (h : litWord c = some w) :
    (c = 't' ∧ w = ['t', 'r', 'u', 'e']) ∨ (c = 'f' ∧ w = ['f', 'a', 'l', 's', 'e']) ∨
      (c = 'n' ∧ w = ['n', 'u', 'l', 'l']) := by
  unfold litWord at h
  by_cases h1 : c = 't'
  · rw [if_pos h1] at h
    exact Or.inl ⟨h1, (Option.some_inj.mp h).symm⟩
  · rw [if_neg h1] at h
    by_cases h2 : c = 'f'
    · rw [if_pos h2] at h
      exact Or.inr (Or.inl ⟨h2, (Option.some_inj.mp h).symm⟩)
    · rw [if_neg h2] at h
      by_cases h3 : c = 'n'
      · rw [if_pos h3] at h
        exact Or.inr (Or.inr ⟨h3, (Option.some_inj.mp h).symm⟩)
      · rw [if_neg h3] at h
        exact absurd h (by simp)

theorem litLexLen_prefix_none {w b : Str} (hb : b <+: w) :
    litLexLen w b = none := by
  unfold litLexLen
  by_cases hp : w.isPrefixOf b = true
  · have hwb : w <+: b := List.isPrefixOf_iff_prefix.mp hp
    have heq : b = w := hb.eq_of_length (Nat.le_antisymm hb.length_le hwb.length_le)
    subst heq
    rw [if_pos hp, List.drop_length]
  · simp [hp]

theorem createParser_lit (pats : List JsonPattern) (path : Str) {c : Char}
    (r : Str) (h : c = 't' ∨ c = 'f' ∨ c = 'n') :
    createParser pats path (c :: r) = some (.nlit c path none) := by
  unfold createParser peekFirstChar
  simp only [List.head?]
  rcases h with h | h | h <;> subst h <;>
    rw [if_neg (by decide), if_neg (by decide), if_pos (by decide)]

theorem stepLit_nomatch (start : Char) (path : Str) (res : Option JsValue)
    {w buf : Str} (hw : litWord start = some w) (h : litLexLen w buf = none) :
    stepLit start path res buf = .ok (.nlit start path res, buf, []) := by
  unfold stepLit
  rw [hw]
  simp [consumeUntilMatch, h]

def mkLitSt (start : Char) (p : Str) : EngineState :=
  ⟨p, if p.isEmpty then none else some (.nlit start ['$'] none), []⟩

theorem lit_transform (fuel : Nat) (hf : 0 < fuel) (pats : List JsonPattern)
    {c : Char} {w : Str} (hw : litWord c = some w)
    {p ch : Str} (hpre : (p ++ ch) <+: w) :
    transformChunk fuel pats (mkLitSt c p) ch = .ok (mkLitSt c (p ++ ch)) := by
  obtain ⟨k, rfl⟩ : ∃ k, fuel = k + 1 := ⟨fuel - 1, by omega⟩
  have hnolex : litLexLen w (p ++ ch) = none := litLexLen_prefix_none hpre
  have hcset : c = 't' ∨ c = 'f' ∨ c = 'n' := by
    rcases litWord_cases hw with ⟨h, -⟩ | ⟨h, -⟩ | ⟨h, -⟩ <;> simp [h]
  unfold transformChunk mkLitSt
  by_cases hp : p.isEmpty
  · rw [List.isEmpty_iff] at hp
    subst hp
    simp only [List.isEmpty_nil, if_true, List.nil_append] at *
    cases hch : ch with
    | nil =>
      simp [consumeWhitespace, createParser, peekFirstChar]
    | cons c2 r =>
      have hc2 : c2 = c := by
        obtain ⟨t, ht⟩ := hpre
        rcases litWord_cases hw with ⟨hcv, hwv⟩ | ⟨hcv, hwv⟩ | ⟨hcv, hwv⟩ <;>
          (subst hcv; rw [hwv] at ht; rw [hch] at ht;
           exact (List.cons.injEq _ _ _ _ ▸ ht).1)
      subst hc2
      have hws : isJsWs c2 = false := by
        rcases hcset with h | h | h <;> subst h <;> decide
      rw [show (consumeWhitespace (c2 :: r)).2 = c2 :: r from consumeWs_noop_cons hws]
      rw [createParser_lit pats ['$'] r hcset]
      dsimp only
      rw [show stepNode (k + 1) pats (.nlit c2 ['$'] none) (c2 :: r) =
        stepLit c2 ['$'] none (c2 :: r) from rfl]
      rw [stepLit_nomatch c2 ['$'] none hw (by rw [← hch]; exact hnolex)]
      simp
  · have hp' : ¬p.isEmpty = true := hp
    rw [if_neg hp']
    dsimp only
    rw [show stepNode (k + 1) pats (.nlit c ['$'] none) (p ++ ch) =
      stepLit c ['$'] none (p ++ ch) from rfl]
    rw [stepLit_nomatch c ['$'] none hw hnolex]
    have hemp : (p ++ ch).isEmpty = false := by
      have hne : ¬(p ++ ch).isEmpty = true := by
        rw [List.isEmpty_iff, List.append_eq_nil]
        intro hcon
        rw [List.isEmpty_iff] at hp
        exact hp hcon.1
      exact Bool.not_eq_true _ ▸ hne
    simp [hemp]

theorem lit_run (fuel : Nat) (hf : 0 < fuel) (pats : List JsonPattern)
    {c : Char} {w : Str} (hw : litWord c = some w) :
    ∀ (chunks : List Str) (p : Str), p ++ chunks.flatten = w →
      runChunksAux fuel pats (mkLitSt c p) chunks = (mkLitSt c w, none) := by
  intro chunks
  induction chunks with
  | nil =>
    intro p hp
    simp only [List.flatten_nil, List.append_nil] at hp
    subst hp
    rfl
  | cons ch rest ih =>
    intro p hp
    simp only [List.flatten_cons] at hp
    have hpre : (p ++ ch) <+: w := ⟨rest.flatten, by rw [← hp]; simp⟩
    show (match transformChunk fuel pats (mkLitSt c p) ch with
      | Except.error e => (mkLitSt c p, some e)
      | Except.ok st' => runChunksAux fuel pats st' rest) = _
    rw [lit_transform fuel hf pats hw hpre]
    exact ih (p ++ ch) (by rw [← hp]; simp)


/-! String case -/

theorem stringBodyLen_cons (c : Char) (rest : Str) :
    stringBodyLen (c :: rest) =
      if c = '"' then some 1
      else if c = '\\' then
        match rest with
        | [] => none
        | c2 :: rest2 =>
          if isLineTerm c2 then none else (stringBodyLen rest2).map (· + 2)
      else (stringBodyLen rest).map (· + 1) := by
  rw [stringBodyLen.eq_def]
  rfl

theorem stringBodyLen_take_none :
    ∀ (n : Nat) (body : Str), body.length ≤ n →
      stringBodyLen body = some body.length →
      ∀ k, k < body.length → stringBodyLen (body.take k) = none := by
  intro n
  induction n with
  | zero =>
    intro body hlen h k hk
    omega
  | succ n ih =>
    intro body hlen h k hk
    match body with
    | [] => simp at hk
    | c :: rest =>
      rw [stringBodyLen_cons] at h
      by_cases hq : c = '"'
      · rw [if_pos hq] at h
        have hr : rest.length = 0 := by
          have h1 := Option.some_inj.mp h
          simp only [List.length_cons] at h1
          omega
        have hk0 : k = 0 := by
          simp only [List.length_cons, hr] at hk
          omega
        subst hk0
        rfl
      · rw [if_neg hq] at h
        by_cases hb : c = '\\'
        · rw [if_pos hb] at h
          match rest with
          | [] => simp at h
          | c2 :: rest2 =>
            dsimp only at h
            by_cases hlt : isLineTerm c2 = true
            · rw [if_pos hlt] at h
              simp at h
            · rw [if_neg hlt] at h
              rw [Option.map_eq_some'] at h
              obtain ⟨m, hm, hm2⟩ := h
              have hmlen : m = rest2.length := by
                simp only [List.length_cons] at hm2
                omega
              subst hmlen
              match k with
              | 0 => rfl
              | 1 =>
                rw [show (c :: c2 :: rest2).take 1 = [c] from rfl]
                rw [stringBodyLen_cons, if_neg hq, if_pos hb]
              | k + 2 =>
                rw [show (c :: c2 :: rest2).take (k + 2) =
                  c :: c2 :: rest2.take k from rfl]
                rw [stringBodyLen_cons, if_neg hq, if_pos hb]
                dsimp only
                rw [if_neg hlt]
                rw [ih rest2 (by simp only [List.length_cons] at hlen; omega) hm k
                  (by simp only [List.length_cons] at hk; omega)]
                rfl
        · rw [if_neg hb] at h
          rw [Option.map_eq_some'] at h
          obtain ⟨m, hm, hm2⟩ := h
          have hmlen : m = rest.length := by
            simp only [List.length_cons] at hm2
            omega
          subst hmlen
          match k with
          | 0 => rfl
          | k + 1 =>
            rw [show (c :: rest).take (k + 1) = c :: rest.take k from rfl]
            rw [stringBodyLen_cons, if_neg hq, if_neg hb]
            rw [ih rest (by simp only [List.length_cons] at hlen; omega) hm k
              (by simp only [List.length_cons] at hk; omega)]
            rfl

theorem stringLexLen_shape {s : Str} (hfull : stringLexLen s = some s.length) :
    ∃ body, s = '"' :: body ∧ stringBodyLen body = some body.length := by
  match s with
  | [] => simp [stringLexLen] at hfull
  | c :: rest =>
    rw [show stringLexLen (c :: rest) =
      if c = '"' then (stringBodyLen rest).map (· + 1) else none from rfl] at hfull
    by_cases hq : c = '"'
    · subst hq
      rw [if_pos rfl, Option.map_eq_some'] at hfull
      obtain ⟨m, hm, hm2⟩ := hfull
      refine ⟨rest, rfl, ?_⟩
      have hm3 : m = rest.length := by
        simp only [List.length_cons] at hm2
        omega
      rw [hm, hm3]
    · rw [if_neg hq] at hfull
      exact absurd hfull (by simp)

theorem stringLexLen_prefix_none {s b : Str}
    (hfull : stringLexLen s = some s.length) (hb : b <+: s) (hne : b ≠ s) :
    stringLexLen b = none := by
  obtain ⟨body, hs, hbody⟩ := stringLexLen_shape hfull
  subst hs
  match b with
  | [] => rfl
  | c2 :: b2 =>
    obtain ⟨t, ht⟩ := hb
    have hc2 : c2 = '"' := (List.cons.injEq _ _ _ _ ▸ ht).1
    subst hc2
    have hb2 : b2 ++ t = body := (List.cons.injEq _ _ _ _ ▸ ht).2
    have hb2pre : b2 <+: body := ⟨t, hb2⟩
    have hb2lt : b2.length < body.length := by
      have hle := hb2pre.length_le
      rcases Nat.lt_or_ge b2.length body.length with h | h
      · exact h
      · exfalso
        exact hne (by rw [hb2pre.eq_of_length (by omega)])
    have hb2take : b2 = body.take b2.length := by
      rw [← hb2]
      simp
    rw [show stringLexLen ('"' :: b2) =
      (stringBodyLen b2).map (· + 1) from rfl]
    rw [hb2take, stringBodyLen_take_none body.length body (le_refl _) hbody
      b2.length hb2lt]
    rfl

theorem createParser_str (pats : List JsonPattern) (path : Str) (r : Str) :
    createParser pats path ('"' :: r) = some (.nstr path none) := by
  unfold createParser peekFirstChar
  simp only [List.head?]
  rw [if_pos (by decide)]

theorem stepStr_nomatch (path : Str) (res : Option JsValue) {buf : Str}
    (h : stringLexLen buf = none) :
    stepStr path res buf = .ok (.nstr path res, buf, []) := by
  simp [stepStr, consumeUntilMatch, h]

theorem stepStr_full {s dec : Str} (hfull : stringLexLen s = some s.length)
    (hdec : decodeStringLexeme s = some dec) (path : Str) :
    stepStr path none s =
      .ok (.nstr path (some (.jstr dec)), [], [(path, .jstr dec)]) := by
  simp only [stepStr, consumeUntilMatch, hfull, Option.map_some', List.take_length,
    List.drop_length, hdec]

def mkStrSt (dec s p : Str) : EngineState :=
  if p.isEmpty then ⟨[], none, []⟩
  else if p = s then
    ⟨[], some (.nstr ['$'] (some (.jstr dec))), [(['$'], .jstr dec)]⟩
  else ⟨p, some (.nstr ['$'] none), []⟩

theorem str_transform (fuel : Nat) (hf : 0 < fuel) (pats : List JsonPattern)
    {s dec : Str} (hfull : stringLexLen s = some s.length)
    (hdec : decodeStringLexeme s = some dec)
    {p ch : Str} (hpre : (p ++ ch) <+: s) :
    transformChunk fuel pats (mkStrSt dec s p) ch = .ok (mkStrSt dec s (p ++ ch)) := by
  obtain ⟨k, rfl⟩ : ∃ k, fuel = k + 1 := ⟨fuel - 1, by omega⟩
  obtain ⟨body, hs, hbody⟩ := stringLexLen_shape hfull
  have hsne : s ≠ [] := by rw [hs]; simp
  have hstFull : mkStrSt dec s s =
      ⟨[], some (.nstr ['$'] (some (.jstr dec))), [(['$'], .jstr dec)]⟩ := by
    unfold mkStrSt
    rw [if_neg (fun hcon => hsne (List.isEmpty_iff.mp hcon)), if_pos rfl]
  by_cases hps : p = s
  · subst hps
    have hch : ch = [] := by
      obtain ⟨t, ht⟩ := hpre
      have hlen := congrArg List.length ht
      simp only [List.length_append] at hlen
      exact List.length_eq_zero.mp (by omega)
    subst hch
    rw [List.append_nil, hstFull]
    unfold transformChunk
    dsimp only
    rw [show stepNode (k + 1) pats (.nstr ['$'] (some (.jstr dec))) ([] ++ []) =
      stepStr ['$'] (some (.jstr dec)) [] from rfl]
    rw [stepStr_nomatch ['$'] (some (.jstr dec)) (by rfl)]
    simp
  · by_cases hp : p.isEmpty
    · rw [List.isEmpty_iff] at hp
      subst hp
      have hst0 : mkStrSt dec s [] = ⟨[], none, []⟩ := rfl
      rw [hst0]
      unfold transformChunk
      dsimp only
      simp only [List.nil_append] at hpre ⊢
      cases hch : ch with
      | nil =>
        simp [consumeWhitespace, createParser, peekFirstChar, mkStrSt]
      | cons c2 r =>
        rw [hch] at hpre
        have hc2 : c2 = '"' := by
          obtain ⟨t, ht⟩ := hpre
          rw [hs] at ht
          exact (List.cons.injEq _ _ _ _ ▸ ht).1
        subst hc2
        rw [show (consumeWhitespace ('"' :: r)).2 = '"' :: r from
          consumeWs_noop_cons (by decide)]
        rw [createParser_str pats ['$'] r]
        dsimp only
        rw [show stepNode (k + 1) pats (.nstr ['$'] none) ('"' :: r) =
          stepStr ['$'] none ('"' :: r) from rfl]
        by_cases hchs : ('"' :: r) = s
        · rw [hchs, stepStr_full hfull hdec ['$'], hstFull]
        · rw [stepStr_nomatch ['$'] none
            (stringLexLen_prefix_none hfull hpre hchs)]
          have hst3 : mkStrSt dec s ('"' :: r) =
              ⟨'"' :: r, some (.nstr ['$'] none), []⟩ := by
            unfold mkStrSt
            rw [if_neg (by simp), if_neg hchs]
          rw [hst3]
    · have hp' : ¬p.isEmpty = true := hp
      have hstRun : mkStrSt dec s p = ⟨p, some (.nstr ['$'] none), []⟩ := by
        unfold mkStrSt
        rw [if_neg hp', if_neg hps]
      rw [hstRun]
      unfold transformChunk
      dsimp only
      rw [show stepNode (k + 1) pats (.nstr ['$'] none) (p ++ ch) =
        stepStr ['$'] none (p ++ ch) from rfl]
      by_cases hchs : p ++ ch = s
      · rw [hchs, stepStr_full hfull hdec ['$'], hstFull]
        rfl
      · rw [stepStr_nomatch ['$'] none
          (stringLexLen_prefix_none hfull hpre hchs)]
        have hst4 : mkStrSt dec s (p ++ ch) =
            ⟨p ++ ch, some (.nstr ['$'] none), []⟩ := by
          unfold mkStrSt
          have hne : ¬(p ++ ch).isEmpty = true := by
            rw [List.isEmpty_iff, List.append_eq_nil]
            exact fun hcon => hp' (by rw [hcon.1]; rfl)
          rw [if_neg hne, if_neg hchs]
        rw [hst4]
        simp

theorem str_run (fuel : Nat) (hf : 0 < fuel) (pats : List JsonPattern)
    {s dec : Str} (hfull : stringLexLen s = some s.length)
    (hdec : decodeStringLexeme s = some dec) :
    ∀ (chunks : List Str) (p : Str), p ++ chunks.flatten = s →
      runChunksAux fuel pats (mkStrSt dec s p) chunks = (mkStrSt dec s s, none) := by
  intro chunks
  induction chunks with
  | nil =>
    intro p hp
    simp only [List.flatten_nil, List.append_nil] at hp
    subst hp
    rfl
  | cons ch rest ih =>
    intro p hp
    simp only [List.flatten_cons] at hp
    have hpre : (p ++ ch) <+: s := ⟨rest.flatten, by rw [← hp]; simp⟩
    show (match transformChunk fuel pats (mkStrSt dec s p) ch with
      | Except.error e => (mkStrSt dec s p, some e)
      | Except.ok st' => runChunksAux fuel pats st' rest) = _
    rw [str_transform fuel hf pats hfull hdec hpre]
    exact ih (p ++ ch) (by rw [← hp]; simp)


/-! Assembled C9 -/

/-- **C9.**  An input stream whose entire content is a single bare number
lexeme, or a single `true`/`false`/`null` literal word with nothing after
it, makes the engine deliver nothing and finalization fail *Incomplete*
(the number and literal readers only complete on seeing a terminator
`[\s,\x7d\]]` after the lexeme, which never arrives at top level); a
bare root-level string has no such lookahead: it is delivered (subject to
the pattern filter) and finalization succeeds.  Quantified over every
chunk partition of the input and every pattern list. -/
theorem claim_C9 :
    (∀ (fuel : Nat) (pats : List JsonPattern) (chunks : List Str) (s : Str),
      0 < fuel → chunks.flatten = s → numLexValid s = true →
      runEngine fuel pats chunks = ([], some .incompleteStructure))
  ∧ (∀ (fuel : Nat) (pats : List JsonPattern) (chunks : List Str)
      (c : Char) (w : Str),
      0 < fuel → litWord c = some w → chunks.flatten = w →
      runEngine fuel pats chunks = ([], some .incompleteStructure))
  ∧ (∀ (fuel : Nat) (pats : List JsonPattern) (chunks : List Str) (s dec : Str),
      0 < fuel → chunks.flatten = s →
      stringLexLen s = some s.length → decodeStringLexeme s = some dec →
      runEngine fuel pats chunks = (deliver pats [(['$'], .jstr dec)], none)) := by
  refine ⟨?_, ?_, ?_⟩
  · intro fuel pats chunks s hf hflat hvalid
    obtain ⟨hall, c, rest, hs, hc⟩ := numLexValid_facts hvalid
    subst hs
    have hhead : ∀ c' r', (c :: rest) = c' :: r' → (c' = '-' ∨ isDigit c' = true) := by
      intro c' r' h'
      have hcc : c = c' := ((List.cons.injEq _ _ _ _).mp h').1
      exact hcc ▸ hc
    unfold runEngine
    rw [show (⟨[], none, []⟩ : EngineState) = mkNumSt [] from rfl]
    rw [num_run fuel hf pats hall hhead chunks [] (by simpa using hflat)]
    rfl
  · intro fuel pats chunks c w hf hw hflat
    unfold runEngine
    rw [show (⟨[], none, []⟩ : EngineState) = mkLitSt c [] from rfl]
    rw [lit_run fuel hf pats hw chunks [] (by simpa using hflat)]
    have hrep : mkLitSt c w = ⟨w, some (.nlit c ['$'] none), []⟩ := by
      unfold mkLitSt
      have hwne : ¬w.isEmpty = true := by
        rcases litWord_cases hw with ⟨-, h⟩ | ⟨-, h⟩ | ⟨-, h⟩ <;> subst h <;> decide
      rw [if_neg hwne]
    rw [hrep]
    rfl
  · intro fuel pats chunks s dec hf hflat hfull hdec
    obtain ⟨body, hs, hbody⟩ := stringLexLen_shape hfull
    have hsne : s ≠ [] := by rw [hs]; simp
    unfold runEngine
    rw [show (⟨[], none, []⟩ : EngineState) = mkStrSt dec s [] from rfl]
    rw [str_run fuel hf pats hfull hdec chunks [] (by simpa using hflat)]
    have hstFull2 : mkStrSt dec s s =
        ⟨[], some (.nstr ['$'] (some (.jstr dec))), [(['$'], .jstr dec)]⟩ := by
      unfold mkStrSt
      rw [if_neg (fun hcon => hsne (List.isEmpty_iff.mp hcon)), if_pos rfl]
    rw [hstFull2]
    rfl

theorem claim_C9_witness :
    runEngine 1 [patDollar] [['5']] = ([], some .incompleteStructure) ∧
    runEngine 1 [patDollar] [['t'], ['r', 'u', 'e']] =
      ([], some .incompleteStructure) ∧
    runEngine 1 [patDollar] [['"', 'a'], ['b', '"']] =
      (deliver [patDollar] [(['$'], .jstr ['a', 'b'])], none) := by
  refine ⟨?_, ?_, ?_⟩
  · exact claim_C9.1 1 [patDollar] [['5']] ['5'] (by decide) (by decide) (by decide)
  · exact claim_C9.2.1 1 [patDollar] [['t'], ['r', 'u', 'e']] 't'
      ['t', 'r', 'u', 'e'] (by decide) (by decide) (by decide)
  · exact claim_C9.2.2 1 [patDollar] [['"', 'a'], ['b', '"']]
      ['"', 'a', 'b', '"'] ['a', 'b'] (by decide) (by decide) (by decide)
      (by decide)


/-! Phase 1: the bracket scanner on serialized documents -/

/-- The scanner with canonical (always-sufficient) fuel. -/
def scanF (oc cc : Char) (cls : Char → Bool) (buf : Str) (d pos : Nat)
    (i : Bool) : Option Nat × Nat × Nat × Bool :=
  scanLoop oc cc cls buf (buf.length + 1) d pos i

theorem findFrom_append_none {cls : Char → Bool} {a : Str}
    (ha : ∀ c ∈ a, cls c = false) (b : Str) (i : Nat) :
    findFrom cls (a ++ b) i = findFrom cls b (i + a.length) := by
  induction a generalizing i with
  | nil => simp [findFrom]
  | cons x xs ih =>
    have hx : cls x = false := ha x (by simp)
    rw [List.cons_append]
    rw [show findFrom cls (x :: (xs ++ b)) i =
      if cls x then some (i, x) else findFrom cls (xs ++ b) (i + 1) from rfl]
    rw [hx]
    simp only [Bool.false_eq_true, if_false]
    rw [ih (fun c hc => ha c (by simp [hc]))]
    simp only [List.length_cons]
    congr 1
    omega

theorem findFrom_cons_true {cls : Char → Bool} {c : Char}
    (hc : cls c = true) (r : Str) (i : Nat) :
    findFrom cls (c :: r) i = some (i, c) := by
  rw [show findFrom cls (c :: r) i =
    if cls c then some (i, c) else findFrom cls r (i + 1) from rfl]
  rw [hc]
  simp

theorem scanLoop_succ (oc cc : Char) (cls : Char → Bool) (buf : Str) :
    ∀ (f d pos : Nat) (i : Bool), buf.length + 1 ≤ f + pos →
      scanLoop oc cc cls buf (f + 1) d pos i = scanLoop oc cc cls buf f d pos i := by
  intro f
  induction f with
  | zero =>
    intro d pos i h
    rw [show scanLoop oc cc cls buf 1 d pos i =
      if pos < buf.length ∧ 0 < d then
        (if i then
          match findFrom (fun c => c = '"') (buf.drop pos) pos with
          | none => (none, d, buf.length, true)
          | some (qp, _) =>
            if backslashRun buf pos qp % 2 = 1 then
              scanLoop oc cc cls buf 0 d (qp + 1) true
            else scanLoop oc cc cls buf 0 d (qp + 1) false
        else
          match findFrom cls (buf.drop pos) pos with
          | none => (none, d, buf.length, false)
          | some (mp, c) =>
            if c = '"' then scanLoop oc cc cls buf 0 d (mp + 1) true
            else if c = oc then scanLoop oc cc cls buf 0 (d + 1) (mp + 1) false
            else if c = cc then
              if d = 1 then (some mp, 0, mp, false)
              else scanLoop oc cc cls buf 0 (d - 1) (mp + 1) false
            else (none, d, pos, i))
      else (none, d, pos, i) from rfl]
    rw [if_neg (by omega)]
    rfl
  | succ f ih =>
    intro d pos i h
    rw [show scanLoop oc cc cls buf (f + 1 + 1) d pos i =
      if pos < buf.length ∧ 0 < d then
        (if i then
          match findFrom (fun c => c = '"') (buf.drop pos) pos with
          | none => (none, d, buf.length, true)
          | some (qp, _) =>
            if backslashRun buf pos qp % 2 = 1 then
              scanLoop oc cc cls buf (f + 1) d (qp + 1) true
            else scanLoop oc cc cls buf (f + 1) d (qp + 1) false
        else
          match findFrom cls (buf.drop pos) pos with
          | none => (none, d, buf.length, false)
          | some (mp, c) =>
            if c = '"' then scanLoop oc cc cls buf (f + 1) d (mp + 1) true
            else if c = oc then
              scanLoop oc cc cls buf (f + 1) (d + 1) (mp + 1) false
            else if c = cc then
              if d = 1 then (some mp, 0, mp, false)
              else scanLoop oc cc cls buf (f + 1) (d - 1) (mp + 1) false
            else (none, d, pos, i))
      else (none, d, pos, i) from rfl]
    rw [show scanLoop oc cc cls buf (f + 1) d pos i =
      if pos < buf.length ∧ 0 < d then
        (if i then
          match findFrom (fun c => c = '"') (buf.drop pos) pos with
          | none => (none, d, buf.length, true)
          | some (qp, _) =>
            if backslashRun buf pos qp % 2 = 1 then
              scanLoop oc cc cls buf f d (qp + 1) true
            else scanLoop oc cc cls buf f d (qp + 1) false
        else
          match findFrom cls (buf.drop pos) pos with
          | none => (none, d, buf.length, false)
          | some (mp, c) =>
            if c = '"' then scanLoop oc cc cls buf f d (mp + 1) true
            else if c = oc then
              scanLoop oc cc cls buf f (d + 1) (mp + 1) false
            else if c = cc then
              if d = 1 then (some mp, 0, mp, false)
              else scanLoop oc cc cls buf f (d - 1) (mp + 1) false
            else (none, d, pos, i))
      else (none, d, pos, i) from rfl]
    by_cases hg : pos < buf.length ∧ 0 < d
    · rw [if_pos hg, if_pos hg]
      cases i with
      | true =>
        simp only [if_true]
        match hf : findFrom (fun c => c = '"') (buf.drop pos) pos with
        | none => rfl
        | some (qp, c) =>
          dsimp only
          have hqp := findFrom_ge hf
          by_cases hb : backslashRun buf pos qp % 2 = 1
          · rw [if_pos hb, if_pos hb]
            exact ih d (qp + 1) true (by omega)
          · rw [if_neg hb, if_neg hb]
            exact ih d (qp + 1) false (by omega)
      | false =>
        simp only [Bool.false_eq_true, if_false]
        match hf : findFrom cls (buf.drop pos) pos with
        | none => rfl
        | some (mp, c) =>
          dsimp only
          have hmp := findFrom_ge hf
          by_cases h1 : c = '"'
          · rw [if_pos h1, if_pos h1]
            exact ih d (mp + 1) true (by omega)
          · rw [if_neg h1, if_neg h1]
            by_cases h2 : c = oc
            · rw [if_pos h2, if_pos h2]
              exact ih (d + 1) (mp + 1) false (by omega)
            · rw [if_neg h2, if_neg h2]
              by_cases h3 : c = cc
              · rw [if_pos h3, if_pos h3]
                by_cases h4 : d = 1
                · rw [if_pos h4, if_pos h4]
                · rw [if_neg h4, if_neg h4]
                  exact ih (d - 1) (mp + 1) false (by omega)
              · rw [if_neg h3, if_neg h3]
    · rw [if_neg hg, if_neg hg]

theorem scanLoop_eq_scanF (oc cc : Char) (cls : Char → Bool) (buf : Str)
    (d pos : Nat) (i : Bool) (hpos : 1 ≤ pos) :
    scanLoop oc cc cls buf buf.length d pos i = scanF oc cc cls buf d pos i := by
  exact (scanLoop_succ oc cc cls buf buf.length d pos i (by omega)).symm


theorem takeWhile_append_stop {p : Char → Bool} {x : Str}
    (hx : x.dropWhile p ≠ []) (y : Str) :
    (x ++ y).takeWhile p = x.takeWhile p := by
  induction x with
  | nil => simp at hx
  | cons c r ih =>
    by_cases hc : p c
    · rw [List.cons_append, List.takeWhile_cons, hc]
      rw [List.takeWhile_cons, hc]
      simp only []
      rw [ih (by rwa [List.dropWhile_cons, hc] at hx)]
    · rw [List.cons_append, List.takeWhile_cons, List.takeWhile_cons]
      rw [Bool.not_eq_true] at hc
      rw [hc]
      simp

theorem dropWhile_append_stop {p : Char → Bool} {x : Str}
    (hx : x.dropWhile p ≠ []) (y : Str) :
    (x ++ y).dropWhile p = x.dropWhile p ++ y := by
  induction x with
  | nil => simp at hx
  | cons c r ih =>
    by_cases hc : p c
    · rw [List.cons_append, List.dropWhile_cons, hc]
      rw [List.dropWhile_cons, hc]
      simp only [if_true]
      exact ih (by rwa [List.dropWhile_cons, hc] at hx)
    · rw [Bool.not_eq_true] at hc
      rw [List.cons_append, List.dropWhile_cons, List.dropWhile_cons, hc]
      simp

theorem takeWhile_append_all {p : Char → Bool} {x : Str}
    (hx : ∀ c ∈ x, p c = true) (y : Str) :
    (x ++ y).takeWhile p = x ++ y.takeWhile p := by
  induction x with
  | nil => simp
  | cons c r ih =>
    rw [List.cons_append, List.takeWhile_cons, hx c (by simp)]
    simp only [if_true]
    rw [ih (fun c hc => hx c (by simp [hc]))]
    rfl

theorem dropWhile_append_all {p : Char → Bool} {x : Str}
    (hx : ∀ c ∈ x, p c = true) (y : Str) :
    (x ++ y).dropWhile p = y.dropWhile p := by
  induction x with
  | nil => simp
  | cons c r ih =>
    rw [List.cons_append, List.dropWhile_cons, hx c (by simp)]
    simp only [if_true]
    exact ih (fun c hc => hx c (by simp [hc]))

theorem hexDigit_facts :
    ∀ n, n < 16 → hexDigit n ≠ '"' ∧ hexDigit n ≠ '\\' ∧
      isLineTerm (hexDigit n) = false := by
  decide

/-- Block shape of one escaped character. -/
theorem escChar_shape (c : Char) :
    (escChar c = [c] ∧ c ≠ '"' ∧ c ≠ '\\' ∧ ¬c.val < 0x20) ∨
    (escChar c = ['\\', '"'] ∧ c = '"') ∨
    (escChar c = ['\\', '\\'] ∧ c = '\\') ∨
    (∃ n1 n2, n1 < 16 ∧ n2 < 16 ∧
      escChar c = ['\\', 'u', '0', '0', hexDigit n1, hexDigit n2] ∧
      c.toNat = 16 * n1 + n2) := by
  unfold escChar
  by_cases h1 : c = '"'
  · rw [if_pos h1]
    exact Or.inr (Or.inl ⟨rfl, h1⟩)
  · rw [if_neg h1]
    by_cases h2 : c = '\\'
    · rw [if_pos h2]
      exact Or.inr (Or.inr (Or.inl ⟨rfl, h2⟩))
    · rw [if_neg h2]
      by_cases h3 : c.val < 0x20
      · rw [if_pos h3]
        have hlt : c.toNat < 32 := h3
        refine Or.inr (Or.inr (Or.inr
          ⟨c.toNat / 16, c.toNat % 16, by omega, by omega, rfl, by omega⟩))
      · rw [if_neg h3]
        exact Or.inl ⟨rfl, h1, h2, h3⟩

theorem escapeStr_append (a b : Str) :
    escapeStr (a ++ b) = escapeStr a ++ escapeStr b := by
  unfold escapeStr
  exact List.flatMap_append ..

theorem escapeStr_cons (c : Char) (t : Str) :
    escapeStr (c :: t) = escChar c ++ escapeStr t := rfl

theorem escapeStr_quote_free {t : Str} (ht : ∀ c ∈ t, c ≠ '"') :
    ∀ c ∈ escapeStr t, c ≠ '"' := by
  induction t with
  | nil => simp [escapeStr]
  | cons x r ih =>
    intro c hc
    rw [escapeStr_cons, List.mem_append] at hc
    rcases hc with hc | hc
    · have hx : x ≠ '"' := ht x (by simp)
      rcases escChar_shape x with ⟨he, hq, hb, hv⟩ | ⟨he, hq⟩ | ⟨he, hq⟩ |
          ⟨n1, n2, hn1, hn2, he, hcv⟩
      · rw [he] at hc
        simp only [List.mem_singleton] at hc
        subst hc
        simp [hq]
      · exact absurd hq hx
      · rw [he] at hc
        simp only [List.mem_cons, List.not_mem_nil, or_false] at hc
        rcases hc with hc | hc <;> subst hc <;> decide
      · rw [he] at hc
        simp only [List.mem_cons, List.not_mem_nil, or_false] at hc
        rcases hc with hc | hc | hc | hc | hc | hc
        all_goals subst hc
        · decide
        · decide
        · decide
        · decide
        · simp [(hexDigit_facts n1 hn1).1]
        · simp [(hexDigit_facts n2 hn2).1]
    · exact ih (fun c hc => ht c (by simp [hc])) c hc

/-- The trailing backslash run of an escaped string is even. -/
theorem escapeStr_trail_even (t : Str) :
    ((escapeStr t).reverse.takeWhile (fun c => c = '\\')).length % 2 = 0 := by
  induction t using List.reverseRecOn with
  | nil => simp [escapeStr]
  | append_singleton t c ih =>
    rw [escapeStr_append]
    rw [show escapeStr [c] = escChar c ++ escapeStr [] from rfl]
    rw [show escapeStr ([] : Str) = [] from rfl, List.append_nil]
    rcases escChar_shape c with ⟨he, hq, hb, hv⟩ | ⟨he, hq⟩ | ⟨he, hq⟩ |
        ⟨n1, n2, hn1, hn2, he, hcv⟩ <;> rw [he]
    · rw [List.reverse_append]
      rw [show ([c] : Str).reverse = [c] from rfl]
      rw [show ([c] : Str) ++ (escapeStr t).reverse =
        c :: (escapeStr t).reverse from rfl]
      rw [List.takeWhile_cons]
      rw [show (decide (c = '\\')) = false by simp [hb]]
      simp
    · rw [List.reverse_append]
      rw [show (['\\', '"'] : Str).reverse = ['"', '\\'] from rfl]
      rw [show (['"', '\\'] : Str) ++ (escapeStr t).reverse =
        '"' :: '\\' :: (escapeStr t).reverse from rfl]
      rw [List.takeWhile_cons]
      simp
    · rw [List.reverse_append]
      rw [show (['\\', '\\'] : Str).reverse = ['\\', '\\'] from rfl]
      rw [show (['\\', '\\'] : Str) ++ (escapeStr t).reverse =
        '\\' :: '\\' :: (escapeStr t).reverse from rfl]
      have hstep : ('\\' :: '\\' :: (escapeStr t).reverse).takeWhile
          (fun c => c = '\\') =
          '\\' :: '\\' :: ((escapeStr t).reverse.takeWhile (fun c => c = '\\')) := by
        simp [List.takeWhile_cons]
      rw [hstep]
      simp only [List.length_cons]
      omega
    · rw [List.reverse_append]
      rw [show (['\\', 'u', '0', '0', hexDigit n1, hexDigit n2] : Str).reverse =
        [hexDigit n2, hexDigit n1, '0', '0', 'u', '\\'] from rfl]
      rw [show ([hexDigit n2, hexDigit n1, '0', '0', 'u', '\\'] : Str) ++
        (escapeStr t).reverse =
        hexDigit n2 :: [hexDigit n1, '0', '0', 'u', '\\'] ++
          (escapeStr t).reverse from rfl]
      rw [List.cons_append, List.takeWhile_cons]
      rw [show (decide (hexDigit n2 = '\\')) = false by
        simp [(hexDigit_facts n2 hn2).2.1]]
      simp


theorem findFrom_cls {cls : Char → Bool} {s : Str} {i mp : Nat} {c : Char}
    (h : findFrom cls s i = some (mp, c)) : cls c = true := by
  induction s generalizing i with
  | nil => simp [findFrom] at h
  | cons x xs ih =>
    by_cases hx : cls x
    · rw [findFrom_cons_true hx] at h
      obtain ⟨h1, h2⟩ := Prod.mk.injEq .. ▸ Option.some_inj.mp h
      rw [← h2]
      exact hx
    · rw [show findFrom cls (x :: xs) i =
        if cls x then some (i, x) else findFrom cls xs (i + 1) from rfl] at h
      rw [if_neg hx] at h
      exact ih h

theorem drop_decomp {buf w rest : Str} {pos : Nat} (h : buf.drop pos = w ++ rest) :
    buf.drop (pos + w.length) = rest := by
  have h2 := List.drop_drop w.length pos buf
  rw [h, List.drop_left] at h2
  exact h2.symm

theorem pos_lt_of_drop_cons {buf rest : Str} {pos : Nat} {c : Char}
    (h : buf.drop pos = c :: rest) : pos < buf.length := by
  by_contra hcon
  rw [List.drop_eq_nil_of_le (by omega)] at h
  exact absurd h (by simp)

theorem drop_len_bound {buf w rest : Str} {pos : Nat}
    (h : buf.drop pos = w ++ rest) (hpos : pos ≤ buf.length) :
    buf.length = pos + w.length + rest.length := by
  have := congrArg List.length h
  rw [List.length_drop, List.length_append] at this
  omega

theorem backslashRun_seg {buf w rest : Str} {pos : Nat}
    (h : buf.drop pos = w ++ rest) :
    backslashRun buf pos (pos + w.length) =
      (w.reverse.takeWhile (fun c => c = '\\')).length := by
  unfold backslashRun
  rw [show pos + w.length - pos = w.length from by omega, h, List.take_left]

theorem scanF_unfold (oc cc : Char) (cls : Char → Bool) (buf : Str)
    (d pos : Nat) (i : Bool) :
    scanF oc cc cls buf d pos i =
      if pos < buf.length ∧ 0 < d then
        (if i then
          match findFrom (fun c => c = '"') (buf.drop pos) pos with
          | none => (none, d, buf.length, true)
          | some (qp, _) =>
            if backslashRun buf pos qp % 2 = 1 then
              scanLoop oc cc cls buf buf.length d (qp + 1) true
            else scanLoop oc cc cls buf buf.length d (qp + 1) false
        else
          match findFrom cls (buf.drop pos) pos with
          | none => (none, d, buf.length, false)
          | some (mp, c) =>
            if c = '"' then scanLoop oc cc cls buf buf.length d (mp + 1) true
            else if c = oc then
              scanLoop oc cc cls buf buf.length (d + 1) (mp + 1) false
            else if c = cc then
              if d = 1 then (some mp, 0, mp, false)
              else scanLoop oc cc cls buf buf.length (d - 1) (mp + 1) false
            else (none, d, pos, i))
      else (none, d, pos, i) := rfl

theorem scanF_shift_false {oc cc : Char} {cls : Char → Bool} {buf w rest : Str}
    {pos d : Nat}
    (hcls : ∀ c, cls c = true → c = '"' ∨ c = oc ∨ c = cc)
    (hdrop : buf.drop pos = w ++ rest)
    (hfree : ∀ c ∈ w, cls c = false) (hd : 0 < d) :
    scanF oc cc cls buf d pos false = scanF oc cc cls buf d (pos + w.length) false := by
  have hdrop2 : buf.drop (pos + w.length) = rest := drop_decomp hdrop
  by_cases hg1 : pos < buf.length
  · have hlen : buf.length = pos + w.length + rest.length :=
      drop_len_bound hdrop (by omega)
    rw [scanF_unfold, scanF_unfold]
    rw [if_pos ⟨hg1, hd⟩]
    simp only [Bool.false_eq_true, if_false]
    rw [hdrop, findFrom_append_none hfree rest pos]
    by_cases hg2 : pos + w.length < buf.length
    · rw [if_pos ⟨hg2, hd⟩, hdrop2]
      match hm : findFrom cls rest (pos + w.length) with
      | none => rfl
      | some (mp, c) =>
        dsimp only
        rcases hcls c (findFrom_cls hm) with hc | hc | hc
        · rw [if_pos hc, if_pos hc]
        · by_cases h1 : c = '"'
          · rw [if_pos h1, if_pos h1]
          · rw [if_neg h1, if_neg h1, if_pos hc, if_pos hc]
        · by_cases h1 : c = '"'
          · rw [if_pos h1, if_pos h1]
          · rw [if_neg h1, if_neg h1]
            by_cases h2 : c = oc
            · rw [if_pos h2, if_pos h2]
            · rw [if_neg h2, if_neg h2, if_pos hc, if_pos hc]
    · have hrest : rest = [] := by
        rw [← hdrop2, List.drop_eq_nil_of_le (by omega)]
      rw [if_neg (by omega)]
      rw [hrest]
      rw [show findFrom cls [] (pos + w.length) = none from rfl]
      have : buf.length = pos + w.length := by rw [hlen, hrest]; simp
      rw [this]
  · have hnil : w ++ rest = [] := by
      rw [← hdrop, List.drop_eq_nil_of_le (by omega)]
    rw [List.append_eq_nil] at hnil
    rw [hnil.1]
    simp

theorem scanF_instr_seg {oc cc : Char} {cls : Char → Bool} {buf w rest : Str}
    {pos d : Nat} (hdrop : buf.drop pos = w ++ '"' :: rest)
    (hfree : ∀ c ∈ w, c ≠ '"') (hd : 0 < d) :
    scanF oc cc cls buf d pos true =
      (if (w.reverse.takeWhile (fun c => c = '\\')).length % 2 = 1 then
        scanF oc cc cls buf d (pos + w.length + 1) true
      else scanF oc cc cls buf d (pos + w.length + 1) false) := by
  have hg1 : pos < buf.length := by
    have hlen := congrArg List.length hdrop
    rw [List.length_drop, List.length_append] at hlen
    simp only [List.length_cons] at hlen
    omega
  rw [scanF_unfold]
  rw [if_pos ⟨hg1, hd⟩]
  simp only [if_true]
  rw [hdrop,
    findFrom_append_none (fun c hc => decide_eq_false (hfree c hc)) _ pos,
    findFrom_cons_true (by simp) rest (pos + w.length)]
  dsimp only
  rw [backslashRun_seg hdrop]
  by_cases hb : (w.reverse.takeWhile (fun c => c = '\\')).length % 2 = 1
  · rw [if_pos hb, if_pos hb]
    exact scanLoop_eq_scanF oc cc cls buf d (pos + w.length + 1) true (by omega)
  · rw [if_neg hb, if_neg hb]
    exact scanLoop_eq_scanF oc cc cls buf d (pos + w.length + 1) false (by omega)

/-- Traversing the serialized body of a string value while `inStr`: every
interior quote is escaped (odd backslash run), the closing delimiter is not. -/
theorem scanF_string_body (oc cc : Char) (cls : Char → Bool) (buf : Str) :
    ∀ (n : Nat) (s : Str), s.length ≤ n →
      ∀ (pos d : Nat) (post : Str),
        buf.drop pos = escapeStr s ++ '"' :: post → 0 < d →
        scanF oc cc cls buf d pos true =
          scanF oc cc cls buf d (pos + (escapeStr s).length + 1) false := by
  intro n
  induction n with
  | zero =>
    intro s hlen pos d post hdrop hd
    have hs : s = [] := by
      cases s with
      | nil => rfl
      | cons c r => simp at hlen
    subst hs
    rw [show escapeStr [] = [] from rfl] at hdrop ⊢
    rw [scanF_instr_seg hdrop (by simp) hd]
    simp
  | succ n ih =>
    intro s hlen pos d post hdrop hd
    by_cases hq : ∀ c ∈ s, c ≠ '"'
    · have hfree := escapeStr_quote_free hq
      rw [scanF_instr_seg hdrop hfree hd]
      rw [if_neg (by
        have := escapeStr_trail_even s
        omega)]
    · push_neg at hq
      obtain ⟨cq, hcqmem, hcq⟩ := hq
      have hsplit : s = s.takeWhile (fun c => c ≠ '"') ++
          '"' :: (s.dropWhile (fun c => c ≠ '"')).tail := by
        have h1 := List.takeWhile_append_dropWhile
          (p := fun c => decide (c ≠ '"')) (l := s)
        have hdw : s.dropWhile (fun c => c ≠ '"') ≠ [] := by
          intro hcon
          have : cq ∈ s.takeWhile (fun c => decide (c ≠ '"')) := by
            have := List.takeWhile_append_dropWhile
              (p := fun c => decide (c ≠ '"')) (l := s)
            rw [hcon, List.append_nil] at this
            rw [this]
            exact hcqmem
          have := List.mem_takeWhile_imp this
          simp at this
          exact this hcq
        match hdw2 : s.dropWhile (fun c => c ≠ '"') with
        | [] => exact absurd hdw2 hdw
        | ch :: r =>
          have hch : ¬(ch ≠ '"') := by
            have := List.head?_dropWhile_not (p := fun c => decide (c ≠ '"')) s
            rw [hdw2] at this
            simp at this
            exact fun hcon => hcon this
          push_neg at hch
          subst hch
          conv_lhs => rw [← h1]
          rw [hdw2]
          rfl
      set t := s.takeWhile (fun c => c ≠ '"') with ht
      set s2 := (s.dropWhile (fun c => c ≠ '"')).tail with hs2
      have htq : ∀ c ∈ t, c ≠ '"' := by
        intro c hc
        have := List.mem_takeWhile_imp hc
        simpa using this
      have hlens : s.length = t.length + 1 + s2.length := by
        rw [hsplit]
        simp only [List.length_append, List.length_cons]
        omega
      rw [hsplit] at hdrop
      rw [escapeStr_append] at hdrop
      rw [show escapeStr ('"' :: s2) = ['\\', '"'] ++ escapeStr s2 from rfl]
        at hdrop
      have hdrop' : buf.drop pos =
          (escapeStr t ++ ['\\']) ++ '"' :: (escapeStr s2 ++ '"' :: post) := by
        rw [hdrop]
        simp
      have hfree' : ∀ c ∈ escapeStr t ++ ['\\'], c ≠ '"' := by
        intro c hc
        rw [List.mem_append] at hc
        rcases hc with hc | hc
        · exact escapeStr_quote_free htq c hc
        · simp only [List.mem_singleton] at hc
          subst hc
          decide
      rw [scanF_instr_seg hdrop' hfree' hd]
      have htrail : (((escapeStr t ++ ['\\']).reverse.takeWhile
          (fun c => c = '\\')).length) % 2 = 1 := by
        rw [List.reverse_append]
        rw [show (['\\'] : Str).reverse = ['\\'] from rfl]
        rw [show (['\\'] : Str) ++ (escapeStr t).reverse =
          '\\' :: (escapeStr t).reverse from rfl]
        have hstep2 : ('\\' :: (escapeStr t).reverse).takeWhile
            (fun c => c = '\\') =
            '\\' :: ((escapeStr t).reverse.takeWhile (fun c => c = '\\')) := by
          simp [List.takeWhile_cons]
        rw [hstep2]
        simp only [List.length_cons]
        have := escapeStr_trail_even t
        omega
      rw [if_pos htrail]
      have hdropnext : buf.drop (pos + (escapeStr t ++ ['\\']).length + 1) =
          escapeStr s2 ++ '"' :: post := by
        have h2 := drop_decomp hdrop'
        have h3 : buf.drop (pos + (escapeStr t ++ ['\\']).length) =
          '"' :: (escapeStr s2 ++ '"' :: post) := h2
        have h4 := @drop_decomp _ ['"']
          (escapeStr s2 ++ '"' :: post) (pos + (escapeStr t ++ ['\\']).length) (by rw [h3]; rfl)
        simpa using h4
      rw [ih s2 (by omega) _ d post hdropnext hd]
      congr 2
      rw [hsplit, escapeStr_append]
      rw [show escapeStr ('"' :: s2) = ['\\', '"'] ++ escapeStr s2 from rfl]
      simp only [List.length_append, List.length_cons]
      simp
      omega


/-! The two bracket kinds and their character class. -/

def bOpen (isObj : Bool) : Char := if isObj then '{' else '['

def bClose (isObj : Bool) : Char := if isObj then '}' else ']'

def bCls (isObj : Bool) : Char → Bool :=
  fun c => c = '"' || c = bOpen isObj || c = bClose isObj

theorem bCls_cases (isObj : Bool) :
    ∀ c, bCls isObj c = true → c = '"' ∨ c = bOpen isObj ∨ c = bClose isObj := by
  intro c hc
  simp only [bCls, Bool.or_eq_true, decide_eq_true_eq] at hc
  tauto

theorem numChar_not_close {c : Char} (h : numChar c = true) :
    c ≠ '\x7d' ∧ c ≠ ']' := by
  unfold numChar at h
  simp only [Bool.or_eq_true, decide_eq_true_eq] at h
  rcases h with ((((h | h) | h) | h) | h) | h
  · rcases isDigit_cases h with h | h | h | h | h | h | h | h | h | h <;>
      subst h <;> exact ⟨by decide, by decide⟩
  all_goals subst h
  all_goals exact ⟨by decide, by decide⟩

theorem numChar_bCls_free {c : Char} (h : numChar c = true) (isObj : Bool) :
    bCls isObj c = false := by
  obtain ⟨-, -, hq, hob, hab, -, -, -⟩ := numChar_facts h
  obtain ⟨hcb, hcer⟩ := numChar_not_close h
  cases isObj <;>
    simp [bCls, bOpen, bClose, hq, hob, hab, hcb, hcer]

theorem scanF_hit {oc cc : Char} {cls : Char → Bool} {buf rest : Str}
    {pos d : Nat} {c : Char} (hdrop : buf.drop pos = c :: rest)
    (hc : cls c = true) (hd : 0 < d) :
    scanF oc cc cls buf d pos false =
      (if c = '"' then scanF oc cc cls buf d (pos + 1) true
      else if c = oc then scanF oc cc cls buf (d + 1) (pos + 1) false
      else if c = cc then
        (if d = 1 then (some pos, 0, pos, false)
         else scanF oc cc cls buf (d - 1) (pos + 1) false)
      else (none, d, pos, false)) := by
  have hg1 : pos < buf.length := pos_lt_of_drop_cons hdrop
  rw [scanF_unfold]
  rw [if_pos ⟨hg1, hd⟩]
  simp only [Bool.false_eq_true, if_false]
  rw [hdrop, findFrom_cons_true hc rest pos]
  dsimp only
  by_cases h1 : c = '"'
  · rw [if_pos h1, if_pos h1]
    exact scanLoop_eq_scanF oc cc cls buf d (pos + 1) true (by omega)
  · rw [if_neg h1, if_neg h1]
    by_cases h2 : c = oc
    · rw [if_pos h2, if_pos h2]
      exact scanLoop_eq_scanF oc cc cls buf (d + 1) (pos + 1) false (by omega)
    · rw [if_neg h2, if_neg h2]
      by_cases h3 : c = cc
      · rw [if_pos h3, if_pos h3]
        by_cases h4 : d = 1
        · rw [if_pos h4, if_pos h4]
        · rw [if_neg h4, if_neg h4]
          exact scanLoop_eq_scanF oc cc cls buf (d - 1) (pos + 1) false (by omega)
      · rw [if_neg h3, if_neg h3]

/-- A single character that is not in the class. -/
theorem scanF_shift_one {oc cc : Char} {cls : Char → Bool} {buf rest : Str}
    {pos d : Nat} {c : Char}
    (hcls : ∀ c, cls c = true → c = '"' ∨ c = oc ∨ c = cc)
    (hdrop : buf.drop pos = c :: rest) (hfree : cls c = false) (hd : 0 < d) :
    scanF oc cc cls buf d pos false = scanF oc cc cls buf d (pos + 1) false := by
  have := @scanF_shift_false _ _ _ _ [c] rest _ _ hcls (by rw [hdrop]; rfl)
    (by intro x hx; simp only [List.mem_singleton] at hx; rwa [hx]) hd
  simpa using this


theorem litChar_bCls_free (isObj : Bool) {c : Char}
    (h : c = 'n' ∨ c = 'u' ∨ c = 'l' ∨ c = 't' ∨ c = 'r' ∨ c = 'e' ∨
      c = 'f' ∨ c = 'a' ∨ c = 's') : bCls isObj c = false := by
  cases isObj <;>
    rcases h with h | h | h | h | h | h | h | h | h <;> subst h <;> decide

mutual

/-- A serialized valid value is scan-neutral: the scanner crosses it without
net depth change and without finding the sought close bracket. -/
theorem scanF_neutral (isObj : Bool) (buf : Str) (v : JsValue)
    (hv : validVal v = true) :
    ∀ (pos d : Nat) (post : Str),
      buf.drop pos = serialize v ++ post → 0 < d →
      scanF (bOpen isObj) (bClose isObj) (bCls isObj) buf d pos false =
        scanF (bOpen isObj) (bClose isObj) (bCls isObj) buf d
          (pos + (serialize v).length) false := by
  match v with
  | .jundef => intro pos d post hdrop hd; exact absurd hv (by simp [validVal])
  | .jnull =>
    intro pos d post hdrop hd
    refine scanF_shift_false (bCls_cases isObj) hdrop ?_ hd
    intro c hc
    rw [show serialize JsValue.jnull = ['n', 'u', 'l', 'l'] from rfl] at hc
    simp only [List.mem_cons, List.not_mem_nil, or_false] at hc
    exact litChar_bCls_free isObj (by tauto)
  | .jbool true =>
    intro pos d post hdrop hd
    refine scanF_shift_false (bCls_cases isObj) hdrop ?_ hd
    intro c hc
    rw [show serialize (JsValue.jbool true) = ['t', 'r', 'u', 'e'] from rfl] at hc
    simp only [List.mem_cons, List.not_mem_nil, or_false] at hc
    exact litChar_bCls_free isObj (by tauto)
  | .jbool false =>
    intro pos d post hdrop hd
    refine scanF_shift_false (bCls_cases isObj) hdrop ?_ hd
    intro c hc
    rw [show serialize (JsValue.jbool false) = ['f', 'a', 'l', 's', 'e'] from rfl]
      at hc
    simp only [List.mem_cons, List.not_mem_nil, or_false] at hc
    exact litChar_bCls_free isObj (by tauto)
  | .jnum lex =>
    intro pos d post hdrop hd
    have hall := (numLexValid_facts (show numLexValid lex = true from hv)).1
    exact scanF_shift_false (bCls_cases isObj) hdrop
      (fun c hc => numChar_bCls_free (hall c hc) isObj) hd
  | .jstr s =>
    intro pos d post hdrop hd
    have hdrop' : buf.drop pos = '"' :: (escapeStr s ++ '"' :: post) := by
      rw [hdrop]
      simp [serialize]
    rw [scanF_hit hdrop' (by cases isObj <;> decide) hd]
    rw [if_pos rfl]
    have hdrop2 : buf.drop (pos + 1) = escapeStr s ++ '"' :: post :=
      drop_decomp (w := ['"']) (by rw [hdrop']; rfl)
    rw [scanF_string_body (bOpen isObj) (bClose isObj) (bCls isObj) buf
      s.length s (le_refl _) (pos + 1) d post hdrop2 hd]
    rw [show pos + 1 + (escapeStr s).length + 1 =
      pos + (serialize (JsValue.jstr s)).length from by
        simp [serialize]
        omega]
  | .jarr xs =>
    intro pos d post hdrop hd
    have hvl : validList xs = true := hv
    have hdrop' : buf.drop pos = '[' :: (serializeElems xs ++ ']' :: post) := by
      rw [hdrop]
      simp [serialize]
    have hlen : (serialize (JsValue.jarr xs)).length =
        (serializeElems xs).length + 2 := by
      simp [serialize]
    cases isObj with
    | true =>
      rw [scanF_shift_one (bCls_cases true) hdrop' (by decide) hd]
      have hdrop2 : buf.drop (pos + 1) = serializeElems xs ++ ']' :: post :=
        drop_decomp (w := ['[']) (by rw [hdrop']; rfl)
      rw [scanF_elems true buf xs hvl (pos + 1) d (']' :: post) hdrop2 hd]
      have hdrop3 : buf.drop (pos + 1 + (serializeElems xs).length) =
          ']' :: post := drop_decomp hdrop2
      rw [scanF_shift_one (bCls_cases true) hdrop3 (by decide) hd]
      rw [show pos + 1 + (serializeElems xs).length + 1 =
        pos + (serialize (JsValue.jarr xs)).length from by rw [hlen]; omega]
    | false =>
      rw [scanF_hit hdrop' (by decide) hd]
      rw [if_neg (by decide), if_pos (show '[' = bOpen false from rfl)]
      have hdrop2 : buf.drop (pos + 1) = serializeElems xs ++ ']' :: post :=
        drop_decomp (w := ['[']) (by rw [hdrop']; rfl)
      rw [scanF_elems false buf xs hvl (pos + 1) (d + 1) (']' :: post) hdrop2
        (by omega)]
      have hdrop3 : buf.drop (pos + 1 + (serializeElems xs).length) =
          ']' :: post := drop_decomp hdrop2
      rw [scanF_hit hdrop3 (by decide) (by omega)]
      rw [if_neg (by decide), if_neg (by decide),
        if_pos (show ']' = bClose false from rfl)]
      rw [if_neg (by omega)]
      rw [show d + 1 - 1 = d from by omega]
      rw [show pos + 1 + (serializeElems xs).length + 1 =
        pos + (serialize (JsValue.jarr xs)).length from by rw [hlen]; omega]
  | .jobj ps =>
    intro pos d post hdrop hd
    have hvp : validPairs ps = true := hv
    have hdrop' : buf.drop pos = '\x7b' :: (serializePairs ps ++ '\x7d' :: post) := by
      rw [hdrop]
      simp [serialize]
    have hlen : (serialize (JsValue.jobj ps)).length =
        (serializePairs ps).length + 2 := by
      simp [serialize]
    cases isObj with
    | false =>
      rw [scanF_shift_one (bCls_cases false) hdrop' (by decide) hd]
      have hdrop2 : buf.drop (pos + 1) = serializePairs ps ++ '\x7d' :: post :=
        drop_decomp (w := ['\x7b']) (by rw [hdrop']; rfl)
      rw [scanF_pairs false buf ps hvp (pos + 1) d ('\x7d' :: post) hdrop2 hd]
      have hdrop3 : buf.drop (pos + 1 + (serializePairs ps).length) =
          '\x7d' :: post := drop_decomp hdrop2
      rw [scanF_shift_one (bCls_cases false) hdrop3 (by decide) hd]
      rw [show pos + 1 + (serializePairs ps).length + 1 =
        pos + (serialize (JsValue.jobj ps)).length from by rw [hlen]; omega]
    | true =>
      rw [scanF_hit hdrop' (by decide) hd]
      rw [if_neg (by decide), if_pos (show '\x7b' = bOpen true from rfl)]
      have hdrop2 : buf.drop (pos + 1) = serializePairs ps ++ '\x7d' :: post :=
        drop_decomp (w := ['\x7b']) (by rw [hdrop']; rfl)
      rw [scanF_pairs true buf ps hvp (pos + 1) (d + 1) ('\x7d' :: post) hdrop2
        (by omega)]
      have hdrop3 : buf.drop (pos + 1 + (serializePairs ps).length) =
          '\x7d' :: post := drop_decomp hdrop2
      rw [scanF_hit hdrop3 (by decide) (by omega)]
      rw [if_neg (by decide), if_neg (by decide),
        if_pos (show '\x7d' = bClose true from rfl)]
      rw [if_neg (by omega)]
      rw [show d + 1 - 1 = d from by omega]
      rw [show pos + 1 + (serializePairs ps).length + 1 =
        pos + (serialize (JsValue.jobj ps)).length from by rw [hlen]; omega]

theorem scanF_elems (isObj : Bool) (buf : Str) (xs : List JsValue)
    (hv : validList xs = true) :
    ∀ (pos d : Nat) (post : Str),
      buf.drop pos = serializeElems xs ++ post → 0 < d →
      scanF (bOpen isObj) (bClose isObj) (bCls isObj) buf d pos false =
        scanF (bOpen isObj) (bClose isObj) (bCls isObj) buf d
          (pos + (serializeElems xs).length) false := by
  match xs with
  | [] =>
    intro pos d post hdrop hd
    rw [show (serializeElems []).length = 0 from rfl, Nat.add_zero]
  | [x] =>
    intro pos d post hdrop hd
    have hvx : validVal x = true := by
      have : (validVal x && validList []) = true := hv
      simp at this
      exact this.1
    exact scanF_neutral isObj buf x hvx pos d post hdrop hd
  | x :: y :: ys =>
    intro pos d post hdrop hd
    have hvx : validVal x = true := by
      have : (validVal x && validList (y :: ys)) = true := hv
      exact (Bool.and_eq_true _ _ ▸ this).1
    have hvr : validList (y :: ys) = true := by
      have : (validVal x && validList (y :: ys)) = true := hv
      exact (Bool.and_eq_true _ _ ▸ this).2
    have hdrop' : buf.drop pos =
        serialize x ++ (',' :: serializeElems (y :: ys) ++ post) := by
      rw [hdrop]
      simp [serializeElems]
    rw [scanF_neutral isObj buf x hvx pos d _ hdrop' hd]
    have hdrop2 : buf.drop (pos + (serialize x).length) =
        ',' :: (serializeElems (y :: ys) ++ post) := by
      have := drop_decomp hdrop'
      rw [this]
      rfl
    rw [scanF_shift_one (bCls_cases isObj) hdrop2
      (by cases isObj <;> decide) hd]
    have hdrop3 : buf.drop (pos + (serialize x).length + 1) =
        serializeElems (y :: ys) ++ post :=
      drop_decomp (w := [',']) (by rw [hdrop2]; rfl)
    rw [scanF_elems isObj buf (y :: ys) hvr _ d post hdrop3 hd]
    rw [show pos + (serialize x).length + 1 + (serializeElems (y :: ys)).length =
      pos + (serializeElems (x :: y :: ys)).length from by
        simp [serializeElems, List.length_append]
        omega]

theorem scanF_pairs (isObj : Bool) (buf : Str) (ps : List (Str × JsValue))
    (hv : validPairs ps = true) :
    ∀ (pos d : Nat) (post : Str),
      buf.drop pos = serializePairs ps ++ post → 0 < d →
      scanF (bOpen isObj) (bClose isObj) (bCls isObj) buf d pos false =
        scanF (bOpen isObj) (bClose isObj) (bCls isObj) buf d
          (pos + (serializePairs ps).length) false := by
  match ps with
  | [] =>
    intro pos d post hdrop hd
    rw [show (serializePairs []).length = 0 from rfl, Nat.add_zero]
  | [(k, x)] =>
    intro pos d post hdrop hd
    have hvx : validVal x = true := by
      have : (validVal x && validPairs []) = true := hv
      simp at this
      exact this.1
    have hdrop' : buf.drop pos =
        '"' :: (escapeStr k ++ '"' :: (':' :: (serialize x ++ post))) := by
      rw [hdrop]
      simp [serializePairs]
    rw [scanF_hit hdrop' (by cases isObj <;> decide) hd, if_pos rfl]
    have hdrop2 : buf.drop (pos + 1) =
        escapeStr k ++ '"' :: (':' :: (serialize x ++ post)) :=
      drop_decomp (w := ['"']) (by rw [hdrop']; rfl)
    rw [scanF_string_body (bOpen isObj) (bClose isObj) (bCls isObj) buf
      k.length k (le_refl _) (pos + 1) d _ hdrop2 hd]
    have hdrop3 : buf.drop (pos + 1 + (escapeStr k).length + 1) =
        ':' :: (serialize x ++ post) := by
      have h4 := @drop_decomp _ (escapeStr k ++ ['"'])
        (':' :: (serialize x ++ post)) (pos + 1)
        (by rw [hdrop2]; simp)
      rw [show pos + 1 + (escapeStr k ++ ['"']).length =
        pos + 1 + (escapeStr k).length + 1 from by
          simp only [List.length_append, List.length_cons, List.length_nil]
          omega] at h4
      exact h4
    rw [scanF_shift_one (bCls_cases isObj) hdrop3
      (by cases isObj <;> decide) hd]
    have hdrop4 : buf.drop (pos + 1 + (escapeStr k).length + 1 + 1) =
        serialize x ++ post :=
      drop_decomp (w := [':']) (by rw [hdrop3]; rfl)
    rw [scanF_neutral isObj buf x hvx _ d post hdrop4 hd]
    rw [show pos + 1 + (escapeStr k).length + 1 + 1 + (serialize x).length =
      pos + (serializePairs [(k, x)]).length from by
        simp [serializePairs, List.length_append]
        omega]
  | (k, x) :: q :: qs =>
    intro pos d post hdrop hd
    have hvx : validVal x = true := by
      have : (validVal x && validPairs (q :: qs)) = true := hv
      exact (Bool.and_eq_true _ _ ▸ this).1
    have hvr : validPairs (q :: qs) = true := by
      have : (validVal x && validPairs (q :: qs)) = true := hv
      exact (Bool.and_eq_true _ _ ▸ this).2
    have hdrop' : buf.drop pos =
        '"' :: (escapeStr k ++ '"' ::
          (':' :: (serialize x ++ ',' :: (serializePairs (q :: qs) ++ post)))) := by
      rw [hdrop]
      simp [serializePairs]
    rw [scanF_hit hdrop' (by cases isObj <;> decide) hd, if_pos rfl]
    have hdrop2 : buf.drop (pos + 1) =
        escapeStr k ++ '"' ::
          (':' :: (serialize x ++ ',' :: (serializePairs (q :: qs) ++ post))) :=
      drop_decomp (w := ['"']) (by rw [hdrop']; rfl)
    rw [scanF_string_body (bOpen isObj) (bClose isObj) (bCls isObj) buf
      k.length k (le_refl _) (pos + 1) d _ hdrop2 hd]
    have hdrop3 : buf.drop (pos + 1 + (escapeStr k).length + 1) =
        ':' :: (serialize x ++ ',' :: (serializePairs (q :: qs) ++ post)) := by
      have h4 := @drop_decomp _ (escapeStr k ++ ['"'])
        (':' :: (serialize x ++ ',' :: (serializePairs (q :: qs) ++ post)))
        (pos + 1) (by rw [hdrop2]; simp)
      rw [show pos + 1 + (escapeStr k ++ ['"']).length =
        pos + 1 + (escapeStr k).length + 1 from by
          simp only [List.length_append, List.length_cons, List.length_nil]
          omega] at h4
      exact h4
    rw [scanF_shift_one (bCls_cases isObj) hdrop3
      (by cases isObj <;> decide) hd]
    have hdrop4 : buf.drop (pos + 1 + (escapeStr k).length + 1 + 1) =
        serialize x ++ ',' :: (serializePairs (q :: qs) ++ post) :=
      drop_decomp (w := [':']) (by rw [hdrop3]; rfl)
    rw [scanF_neutral isObj buf x hvx _ d _ hdrop4 hd]
    have hdrop5 : buf.drop
        (pos + 1 + (escapeStr k).length + 1 + 1 + (serialize x).length) =
        ',' :: (serializePairs (q :: qs) ++ post) := by
      have := drop_decomp hdrop4
      rw [this]
    rw [scanF_shift_one (bCls_cases isObj) hdrop5
      (by cases isObj <;> decide) hd]
    have hdrop6 : buf.drop
        (pos + 1 + (escapeStr k).length + 1 + 1 + (serialize x).length + 1) =
        serializePairs (q :: qs) ++ post :=
      drop_decomp (w := [',']) (by rw [hdrop5]; rfl)
    rw [scanF_pairs isObj buf (q :: qs) hvr _ d post hdrop6 hd]
    rw [show pos + 1 + (escapeStr k).length + 1 + 1 + (serialize x).length + 1 +
        (serializePairs (q :: qs)).length =
      pos + (serializePairs ((k, x) :: q :: qs)).length from by
        simp [serializePairs, List.length_append]
        omega]

end


theorem scan_top_obj (ps : List (Str × JsValue)) (hv : validPairs ps = true)
    (rest : Str) :
    scanF (bOpen true) (bClose true) (bCls true)
        (serializePairs ps ++ '\x7d' :: rest) 1 0 false =
      (some (serializePairs ps).length, 0, (serializePairs ps).length, false) := by
  have hdrop0 : (serializePairs ps ++ '\x7d' :: rest).drop 0 =
      serializePairs ps ++ '\x7d' :: rest := rfl
  rw [scanF_pairs true _ ps hv 0 1 _ hdrop0 (by omega)]
  have hdrop1 : (serializePairs ps ++ '\x7d' :: rest).drop
      (0 + (serializePairs ps).length) = '\x7d' :: rest := drop_decomp hdrop0
  rw [scanF_hit hdrop1 (by decide) (by omega)]
  rw [if_neg (by decide), if_neg (by decide),
    if_pos (show '\x7d' = bClose true from rfl), if_pos rfl]
  rw [Nat.zero_add]

theorem scan_top_arr (xs : List JsValue) (hv : validList xs = true)
    (rest : Str) :
    scanF (bOpen false) (bClose false) (bCls false)
        (serializeElems xs ++ ']' :: rest) 1 0 false =
      (some (serializeElems xs).length, 0, (serializeElems xs).length, false) := by
  have hdrop0 : (serializeElems xs ++ ']' :: rest).drop 0 =
      serializeElems xs ++ ']' :: rest := rfl
  rw [scanF_elems false _ xs hv 0 1 _ hdrop0 (by omega)]
  have hdrop1 : (serializeElems xs ++ ']' :: rest).drop
      (0 + (serializeElems xs).length) = ']' :: rest := drop_decomp hdrop0
  rw [scanF_hit hdrop1 (by decide) (by omega)]
  rw [if_neg (by decide), if_neg (by decide),
    if_pos (show ']' = bClose false from rfl), if_pos rfl]
  rw [Nat.zero_add]


theorem stepBulk_obj {ps : List (Str × JsValue)} {rest path : Str} {w : JsValue}
    (hv : validPairs ps = true)
    (hjp : jsonParse (serialize (.jobj ps)) = some w) :
    stepBulk path true 0 0 false [] none (serialize (.jobj ps) ++ rest) =
      .ok (.nbulk path true 0 0 false (serialize (.jobj ps)) (some w), rest,
           [(path, w)]) := by
  have hbuf : serialize (JsValue.jobj ps) ++ rest =
      '\x7b' :: (serializePairs ps ++ '\x7d' :: rest) := by
    simp [serialize]
  rw [hbuf]
  simp only [stepBulk, Option.isSome_none, Bool.false_eq_true, if_false, if_true,
    peekFirstChar, List.head?, Option.some.injEq, List.take_succ_cons,
    List.take_zero, List.drop_succ_cons, List.drop_zero, List.nil_append]
  have hscan : scanLoop '\x7b' '\x7d'
      (fun c => c = '"' || c = '\x7b' || c = '\x7d')
      (serializePairs ps ++ '\x7d' :: rest)
      ((serializePairs ps ++ '\x7d' :: rest).length + 1) 1 0 false =
      (some (serializePairs ps).length, 0, (serializePairs ps).length, false) :=
    scan_top_obj ps hv rest
  rw [hscan]
  dsimp only
  rw [show (serializePairs ps ++ '\x7d' :: rest).take
      ((serializePairs ps).length + 1) =
    serializePairs ps ++ ['\x7d'] from by
      rw [List.take_append]
      rfl]
  rw [show (serializePairs ps ++ '\x7d' :: rest).drop
      ((serializePairs ps).length + 1) = rest from by
      rw [List.drop_append]
      rfl]
  rw [show (['\x7b'] : Str) ++ (serializePairs ps ++ ['\x7d']) =
    serialize (JsValue.jobj ps) from by simp [serialize]]
  rw [hjp]

theorem stepBulk_arr {xs : List JsValue} {rest path : Str} {w : JsValue}
    (hv : validList xs = true)
    (hjp : jsonParse (serialize (.jarr xs)) = some w) :
    stepBulk path false 0 0 false [] none (serialize (.jarr xs) ++ rest) =
      .ok (.nbulk path false 0 0 false (serialize (.jarr xs)) (some w), rest,
           [(path, w)]) := by
  have hbuf : serialize (JsValue.jarr xs) ++ rest =
      '[' :: (serializeElems xs ++ ']' :: rest) := by
    simp [serialize]
  rw [hbuf]
  simp only [stepBulk, Option.isSome_none, Bool.false_eq_true, if_false, if_true,
    peekFirstChar, List.head?, Option.some.injEq, List.take_succ_cons,
    List.take_zero, List.drop_succ_cons, List.drop_zero, List.nil_append]
  have hscan : scanLoop '[' ']'
      (fun c => c = '"' || c = '[' || c = ']')
      (serializeElems xs ++ ']' :: rest)
      ((serializeElems xs ++ ']' :: rest).length + 1) 1 0 false =
      (some (serializeElems xs).length, 0, (serializeElems xs).length, false) :=
    scan_top_arr xs hv rest
  rw [hscan]
  dsimp only
  rw [show (serializeElems xs ++ ']' :: rest).take
      ((serializeElems xs).length + 1) =
    serializeElems xs ++ [']'] from by
      rw [List.take_append]
      rfl]
  rw [show (serializeElems xs ++ ']' :: rest).drop
      ((serializeElems xs).length + 1) = rest from by
      rw [List.drop_append]
      rfl]
  rw [show (['['] : Str) ++ (serializeElems xs ++ [']']) =
    serialize (JsValue.jarr xs) from by simp [serialize]]
  rw [hjp]

theorem stepSkip_obj {ps : List (Str × JsValue)} {rest path : Str}
    (hv : validPairs ps = true) :
    stepSkip path true 0 0 false false (serialize (.jobj ps) ++ rest) =
      .ok (.nskip path true 0 0 false true, rest, []) := by
  have hbuf : serialize (JsValue.jobj ps) ++ rest =
      '\x7b' :: (serializePairs ps ++ '\x7d' :: rest) := by
    simp [serialize]
  rw [hbuf]
  simp only [stepSkip, Bool.false_eq_true, if_false, if_true,
    peekFirstChar, List.head?, Option.some.injEq, List.drop_succ_cons,
    List.drop_zero]
  have hscan : scanLoop '\x7b' '\x7d'
      (fun c => c = '"' || c = '\x7b' || c = '\x7d')
      (serializePairs ps ++ '\x7d' :: rest)
      ((serializePairs ps ++ '\x7d' :: rest).length + 1) 1 0 false =
      (some (serializePairs ps).length, 0, (serializePairs ps).length, false) :=
    scan_top_obj ps hv rest
  rw [hscan]
  dsimp only
  rw [show (serializePairs ps ++ '\x7d' :: rest).drop
      ((serializePairs ps).length + 1) = rest from by
      rw [List.drop_append]
      rfl]

theorem stepSkip_arr {xs : List JsValue} {rest path : Str}
    (hv : validList xs = true) :
    stepSkip path false 0 0 false false (serialize (.jarr xs) ++ rest) =
      .ok (.nskip path false 0 0 false true, rest, []) := by
  have hbuf : serialize (JsValue.jarr xs) ++ rest =
      '[' :: (serializeElems xs ++ ']' :: rest) := by
    simp [serialize]
  rw [hbuf]
  simp only [stepSkip, Bool.false_eq_true, if_false, if_true,
    peekFirstChar, List.head?, Option.some.injEq, List.drop_succ_cons,
    List.drop_zero]
  have hscan : scanLoop '[' ']'
      (fun c => c = '"' || c = '[' || c = ']')
      (serializeElems xs ++ ']' :: rest)
      ((serializeElems xs ++ ']' :: rest).length + 1) 1 0 false =
      (some (serializeElems xs).length, 0, (serializeElems xs).length, false) :=
    scan_top_arr xs hv rest
  rw [hscan]
  dsimp only
  rw [show (serializeElems xs ++ ']' :: rest).drop
      ((serializeElems xs).length + 1) = rest from by
      rw [List.drop_append]
      rfl]


/-! Phase 2: JSON.parse on serialized documents -/

theorem hexVal_hexDigit : ∀ n, n < 16 → hexVal (hexDigit n) = some n := by
  decide

theorem jsonUnescape_plain {c : Char} (h : ¬c = '\\') (h2 : ¬c.val < 0x20)
    (f : Nat) (r : Str) :
    jsonUnescape (f + 1) (c :: r) = (jsonUnescape f r).map (c :: ·) := by
  rw [show jsonUnescape (f + 1) (c :: r) =
    (if c = '\\' then
      match r with
      | [] => none
      | c1 :: r =>
        if c1 = '"' then (jsonUnescape f r).map ('"' :: ·)
        else if c1 = '\\' then (jsonUnescape f r).map ('\\' :: ·)
        else if c1 = '/' then (jsonUnescape f r).map ('/' :: ·)
        else if c1 = 'b' then (jsonUnescape f r).map (Char.ofNat 0x8 :: ·)
        else if c1 = 'f' then (jsonUnescape f r).map (Char.ofNat 0xC :: ·)
        else if c1 = 'n' then (jsonUnescape f r).map ('\n' :: ·)
        else if c1 = 'r' then (jsonUnescape f r).map (Char.ofNat 0xD :: ·)
        else if c1 = 't' then (jsonUnescape f r).map (Char.ofNat 0x9 :: ·)
        else if c1 = 'u' then
          match r with
          | a :: b :: c :: d :: r2 =>
            match hex4 a b c d with
            | none => none
            | some n =>
              if 0xD800 ≤ n && n ≤ 0xDBFF then
                match r2 with
                | e1 :: e2 :: a2 :: b2 :: c2 :: d2 :: r3 =>
                  if e1 = '\\' then
                    if e2 = 'u' then
                      match hex4 a2 b2 c2 d2 with
                      | none => none
                      | some m =>
                        if 0xDC00 ≤ m && m ≤ 0xDFFF then
                          (jsonUnescape f r3).map
                            (Char.ofNat
                              (0x10000 + (n - 0xD800) * 0x400 + (m - 0xDC00)) :: ·)
                        else none
                    else none
                  else none
                | _ => none
              else if 0xDC00 ≤ n && n ≤ 0xDFFF then none
              else (jsonUnescape f r2).map (Char.ofNat n :: ·)
          | _ => none
        else none
    else if c.val < 0x20 then none
    else (jsonUnescape f r).map (c :: ·)) from rfl]
  rw [if_neg h, if_neg h2]

theorem jsonUnescape_ctrl {n1 n2 : Nat} (hn1 : n1 < 16) (hn2 : n2 < 16)
    (f : Nat) (r : Str) :
    jsonUnescape (f + 1)
        ('\\' :: 'u' :: '0' :: '0' :: hexDigit n1 :: hexDigit n2 :: r) =
      (jsonUnescape f r).map (Char.ofNat (16 * n1 + n2) :: ·) := by
  rw [show jsonUnescape (f + 1)
      ('\\' :: 'u' :: '0' :: '0' :: hexDigit n1 :: hexDigit n2 :: r) =
    (match hex4 '0' '0' (hexDigit n1) (hexDigit n2) with
      | none => none
      | some n =>
        if 0xD800 ≤ n && n ≤ 0xDBFF then
          match r with
          | e1 :: e2 :: a2 :: b2 :: c2 :: d2 :: r3 =>
            if e1 = '\\' then
              if e2 = 'u' then
                match hex4 a2 b2 c2 d2 with
                | none => none
                | some m =>
                  if 0xDC00 ≤ m && m ≤ 0xDFFF then
                    (jsonUnescape f r3).map
                      (Char.ofNat
                        (0x10000 + (n - 0xD800) * 0x400 + (m - 0xDC00)) :: ·)
                  else none
              else none
            else none
          | _ => none
        else if 0xDC00 ≤ n && n ≤ 0xDFFF then none
        else (jsonUnescape f r).map (Char.ofNat n :: ·)) from rfl]
  have hhex : hex4 '0' '0' (hexDigit n1) (hexDigit n2) = some (16 * n1 + n2) := by
    unfold hex4
    rw [show hexVal '0' = some 0 from rfl]
    rw [hexVal_hexDigit n1 hn1, hexVal_hexDigit n2 hn2]
    show some (((0 * 16 + 0) * 16 + n1) * 16 + n2) = some (16 * n1 + n2)
    congr 1
    ring
  rw [hhex]
  dsimp only
  rw [if_neg (by simp; omega), if_neg (by simp; omega)]

theorem jsonUnescape_roundtrip :
    ∀ (s : Str) (f : Nat), (escapeStr s).length < f →
      jsonUnescape f (escapeStr s) = some s := by
  intro s
  induction s with
  | nil =>
    intro f hf
    obtain ⟨g, rfl⟩ : ∃ g, f = g + 1 := ⟨f - 1, by omega⟩
    rfl
  | cons c s2 ih =>
    intro f hf
    obtain ⟨g, rfl⟩ : ∃ g, f = g + 1 := ⟨f - 1, by omega⟩
    rw [escapeStr_cons] at hf ⊢
    rcases escChar_shape c with ⟨he, hq, hb, hv⟩ | ⟨he, hq⟩ | ⟨he, hq⟩ |
        ⟨n1, n2, hn1, hn2, he, hcv⟩ <;> rw [he] at hf ⊢
    · rw [show ([c] : Str) ++ escapeStr s2 = c :: escapeStr s2 from rfl]
      rw [jsonUnescape_plain hb hv g (escapeStr s2)]
      rw [ih g (by simp at hf ⊢; omega)]
      rfl
    · subst hq
      rw [show (['\\', '"'] : Str) ++ escapeStr s2 =
        '\\' :: '"' :: escapeStr s2 from rfl]
      rw [show jsonUnescape (g + 1) ('\\' :: '"' :: escapeStr s2) =
        (jsonUnescape g (escapeStr s2)).map ('"' :: ·) from rfl]
      rw [ih g (by simp at hf ⊢; omega)]
      rfl
    · subst hq
      rw [show (['\\', '\\'] : Str) ++ escapeStr s2 =
        '\\' :: '\\' :: escapeStr s2 from rfl]
      rw [show jsonUnescape (g + 1) ('\\' :: '\\' :: escapeStr s2) =
        (jsonUnescape g (escapeStr s2)).map ('\\' :: ·) from rfl]
      rw [ih g (by simp at hf ⊢; omega)]
      rfl
    · rw [show (['\\', 'u', '0', '0', hexDigit n1, hexDigit n2] : Str) ++
        escapeStr s2 =
        '\\' :: 'u' :: '0' :: '0' :: hexDigit n1 :: hexDigit n2 ::
          escapeStr s2 from rfl]
      rw [jsonUnescape_ctrl hn1 hn2 g (escapeStr s2)]
      rw [ih g (by simp at hf ⊢; omega)]
      rw [show (16 : Nat) * n1 + n2 = c.toNat from by omega]
      rw [Char.ofNat_toNat]
      rfl

theorem decode_ser_string (s : Str) :
    decodeStringLexeme (serialize (.jstr s)) = some s := by
  unfold decodeStringLexeme
  have hser : serialize (JsValue.jstr s) = '"' :: (escapeStr s ++ ['"']) := by
    simp [serialize]
  rw [hser]
  rw [show ('"' :: (escapeStr s ++ ['"'])).drop 1 = escapeStr s ++ ['"'] from rfl]
  rw [show ('"' :: (escapeStr s ++ ['"'])).length =
    (escapeStr s).length + 2 from by simp]
  rw [show (escapeStr s).length + 2 - 2 = (escapeStr s).length from by omega]
  rw [List.take_left]
  exact jsonUnescape_roundtrip s ((escapeStr s).length + 2 + 1) (by omega)


/-! Number lexing with a trailing remainder -/

theorem isTermChar_not_numChar {c : Char} (h : isTermChar c = true) :
    numChar c = false := by
  by_contra hcon
  rw [Bool.not_eq_false] at hcon
  rw [(numChar_facts hcon).1] at h
  exact absurd h (by simp)

theorem isTermChar_facts {c : Char} (h : isTermChar c = true) :
    isDigit c = false ∧ c ≠ '.' ∧ c ≠ 'e' ∧ c ≠ 'E' ∧ c ≠ '+' ∧ c ≠ '-' := by
  have hn := isTermChar_not_numChar h
  unfold numChar at hn
  simp only [Bool.or_eq_false_iff, decide_eq_false_iff_not] at hn
  exact ⟨hn.1.1.1.1.1, hn.1.1.2, hn.1.2, hn.2, hn.1.1.1.2, hn.1.1.1.1.2⟩

/-- rest-head condition shared by all the append lemmas. -/
def restHeadOk (rest : Str) : Prop :=
  ∀ c, rest.head? = some c → isTermChar c = true

theorem restHeadOk_takeWhile_digit {rest : Str} (h : restHeadOk rest) :
    rest.takeWhile isDigit = [] := by
  match rest with
  | [] => rfl
  | c :: r =>
    rw [List.takeWhile_cons, (isTermChar_facts (h c rfl)).1]
    rfl

theorem restHeadOk_dropWhile_digit {rest : Str} (h : restHeadOk rest) :
    rest.dropWhile isDigit = rest := by
  match rest with
  | [] => rfl
  | c :: r =>
    rw [List.dropWhile_cons, (isTermChar_facts (h c rfl)).1]
    rfl

theorem takeWhile_digit_append {r rest : Str} (h : restHeadOk rest) :
    (r ++ rest).takeWhile isDigit = r.takeWhile isDigit ∧
    (r ++ rest).dropWhile isDigit = r.dropWhile isDigit ++ rest := by
  by_cases hr : r.dropWhile isDigit = []
  · have hall : ∀ c ∈ r, isDigit c = true := by
      intro c hc
      have : r.takeWhile isDigit = r := by
        have := List.takeWhile_append_dropWhile (p := isDigit) (l := r)
        rw [hr, List.append_nil] at this
        exact this
    -- c ∈ r = takeWhile → isDigit
      rw [← this] at hc
      exact List.mem_takeWhile_imp hc
    constructor
    · rw [takeWhile_append_all hall, restHeadOk_takeWhile_digit h]
      rw [List.append_nil]
      have := List.takeWhile_append_dropWhile (p := isDigit) (l := r)
      rw [hr, List.append_nil] at this
      rw [this]
    · rw [dropWhile_append_all hall, restHeadOk_dropWhile_digit h, hr]
      rfl
  · exact ⟨takeWhile_append_stop hr rest, dropWhile_append_stop hr rest⟩

theorem numIntPart_append {s rest : Str} {ni : Nat} {r : Str}
    (h : numIntPart s = some (ni, r)) (hrest : restHeadOk rest) :
    numIntPart (s ++ rest) = some (ni, r ++ rest) := by
  match s with
  | [] => simp [numIntPart] at h
  | c :: s1 =>
    rw [show (c :: s1) ++ rest = c :: (s1 ++ rest) from rfl]
    unfold numIntPart at h ⊢
    dsimp only at h ⊢
    by_cases h0 : c = '0'
    · rw [if_pos h0] at h ⊢
      obtain ⟨h1, h2⟩ := Prod.mk.injEq .. ▸ Option.some_inj.mp h
      subst h1
      subst h2
      rfl
    · rw [if_neg h0] at h ⊢
      by_cases hd : isDigit c = true
      · rw [if_pos hd] at h ⊢
        obtain ⟨h1, h2⟩ := Prod.mk.injEq .. ▸ Option.some_inj.mp h
        rw [(takeWhile_digit_append hrest).1, (takeWhile_digit_append hrest).2]
        subst h1
        subst h2
        rfl
      · rw [if_neg hd] at h
        exact absurd h (by simp)

theorem numFracPart_append {s rest : Str} (hrest : restHeadOk rest) :
    numFracPart (s ++ rest) = ((numFracPart s).1, (numFracPart s).2 ++ rest) := by
  match s with
  | [] =>
    rw [List.nil_append]
    match rest with
    | [] => rfl
    | c :: r =>
      unfold numFracPart
      dsimp only
      rw [if_neg (isTermChar_facts (hrest c rfl)).2.1]
      rfl
  | c :: s1 =>
    rw [show (c :: s1) ++ rest = c :: (s1 ++ rest) from rfl]
    unfold numFracPart
    dsimp only
    by_cases hdot : c = '.'
    · rw [if_pos hdot, if_pos hdot]
      rw [(takeWhile_digit_append hrest).1, (takeWhile_digit_append hrest).2]
      by_cases hz : (s1.takeWhile isDigit).length = 0
      · rw [if_pos hz, if_pos hz]
        rfl
      · rw [if_neg hz, if_neg hz]
    · rw [if_neg hdot, if_neg hdot]
      rfl

theorem expSignLen_append {s rest : Str} (hrest : restHeadOk rest) :
    expSignLen (s ++ rest) = expSignLen s := by
  match s with
  | [] =>
    rw [List.nil_append]
    match rest with
    | [] => rfl
    | c :: r =>
      unfold expSignLen
      obtain ⟨-, -, -, -, hp, hm⟩ := isTermChar_facts (hrest c rfl)
      simp [hp, hm]
  | c :: s1 => rfl

theorem numExpPart_append {s rest : Str} (hrest : restHeadOk rest) :
    numExpPart (s ++ rest) = ((numExpPart s).1, (numExpPart s).2 ++ rest) := by
  match s with
  | [] =>
    rw [List.nil_append]
    match rest with
    | [] => rfl
    | c :: r =>
      unfold numExpPart
      dsimp only
      obtain ⟨-, -, he, hE, -, -⟩ := isTermChar_facts (hrest c rfl)
      rw [if_neg (by simp [he, hE])]
      rfl
  | c :: s1 =>
    rw [show (c :: s1) ++ rest = c :: (s1 ++ rest) from rfl]
    unfold numExpPart
    dsimp only
    by_cases hee : (c = 'e' || c = 'E') = true
    · rw [if_pos hee, if_pos hee]
      rw [expSignLen_append hrest]
      have hd : (s1 ++ rest).drop (expSignLen s1) =
          s1.drop (expSignLen s1) ++ rest ∨
          (s1 = [] ∧ (s1 ++ rest).drop (expSignLen s1) = rest) := by
        match s1 with
        | [] => exact Or.inr ⟨rfl, by simp [expSignLen]⟩
        | d :: s2 =>
          left
          unfold expSignLen
          dsimp only
          by_cases hs : (d = '+' || d = '-') = true
          · rw [if_pos hs]
            rfl
          · rw [if_neg hs]
            rfl
      rcases hd with hd | ⟨hnil, hd⟩
      · rw [hd]
        rw [(takeWhile_digit_append hrest).1, (takeWhile_digit_append hrest).2]
        by_cases hz : ((s1.drop (expSignLen s1)).takeWhile isDigit).length = 0
        · rw [if_pos hz, if_pos hz]
          rfl
        · rw [if_neg hz, if_neg hz]
      · subst hnil
        rw [hd]
        rw [show expSignLen ([] : Str) = 0 from rfl]
        rw [show (([] : Str).drop 0) = [] from rfl]
        rw [restHeadOk_takeWhile_digit hrest, restHeadOk_dropWhile_digit hrest]
        simp
    · rw [if_neg hee, if_neg hee]
      rfl

theorem minusSplit_append {c : Char} {l rest : Str} :
    minusSplit ((c :: l) ++ rest) =
      ((minusSplit (c :: l)).1, (minusSplit (c :: l)).2 ++ rest) := by
  rw [show (c :: l) ++ rest = c :: (l ++ rest) from rfl]
  rw [show minusSplit (c :: (l ++ rest)) =
    (if c = '-' then (1, l ++ rest) else (0, c :: (l ++ rest))) from rfl]
  rw [show minusSplit (c :: l) =
    (if c = '-' then (1, l) else (0, c :: l)) from rfl]
  by_cases hm : c = '-'
  · rw [if_pos hm, if_pos hm]
  · rw [if_neg hm, if_neg hm]
    rfl

/-- Length bookkeeping for the pieces of a valid lexeme. -/
theorem numIntPart_len {s : Str} {ni : Nat} {r : Str}
    (h : numIntPart s = some (ni, r)) : s.length = ni + r.length := by
  match s with
  | [] => simp [numIntPart] at h
  | c :: s1 =>
    unfold numIntPart at h
    dsimp only at h
    by_cases h0 : c = '0'
    · rw [if_pos h0] at h
      obtain ⟨h1, h2⟩ := Prod.mk.injEq .. ▸ Option.some_inj.mp h
      rw [← h1, ← h2]
      simp only [List.length_cons]
      omega
    · rw [if_neg h0] at h
      by_cases hd : isDigit c = true
      · rw [if_pos hd] at h
        obtain ⟨h1, h2⟩ := Prod.mk.injEq .. ▸ Option.some_inj.mp h
        rw [← h1, ← h2]
        have := congrArg List.length
          (List.takeWhile_append_dropWhile (p := isDigit) (l := s1))
        rw [List.length_append] at this
        simp only [List.length_cons]
        omega
      · rw [if_neg hd] at h
        exact absurd h (by simp)

theorem numFracPart_len (s : Str) :
    s.length = (numFracPart s).1 + (numFracPart s).2.length := by
  match s with
  | [] => rfl
  | c :: s1 =>
    unfold numFracPart
    dsimp only
    by_cases hdot : c = '.'
    · rw [if_pos hdot]
      by_cases hz : (s1.takeWhile isDigit).length = 0
      · rw [if_pos hz]
        simp
      · rw [if_neg hz]
        have := congrArg List.length
          (List.takeWhile_append_dropWhile (p := isDigit) (l := s1))
        rw [List.length_append] at this
        simp only [List.length_cons]
        omega
    · rw [if_neg hdot]
      simp

theorem numExpPart_len (s : Str) :
    s.length = (numExpPart s).1 + (numExpPart s).2.length := by
  match s with
  | [] => rfl
  | c :: s1 =>
    unfold numExpPart
    dsimp only
    by_cases hee : (c = 'e' || c = 'E') = true
    · rw [if_pos hee]
      by_cases hz : ((s1.drop (expSignLen s1)).takeWhile isDigit).length = 0
      · rw [if_pos hz]
        simp
      · rw [if_neg hz]
        have h1 := congrArg List.length
          (List.takeWhile_append_dropWhile (p := isDigit)
            (l := s1.drop (expSignLen s1)))
        rw [List.length_append] at h1
        have h2 : (s1.drop (expSignLen s1)).length =
            s1.length - expSignLen s1 := by
          rw [List.length_drop]
        have h3 : expSignLen s1 ≤ s1.length := by
          match s1 with
          | [] => simp [expSignLen]
          | d :: s2 =>
            unfold expSignLen
            dsimp only
            by_cases hs : (d = '+' || d = '-') = true
            · rw [if_pos hs]
              simp
            · rw [if_neg hs]
              simp
        simp only [List.length_cons]
        omega
    · rw [if_neg hee]
      simp

theorem minusSplit_len (s : Str) :
    s.length = (minusSplit s).1 + (minusSplit s).2.length := by
  match s with
  | [] => rfl
  | c :: s1 =>
    unfold minusSplit
    dsimp only
    by_cases hm : c = '-'
    · rw [if_pos hm]
      simp only [List.length_cons]
      omega
    · rw [if_neg hm]
      simp


theorem numLexParts {lex : Str} (hv : numLexValid lex = true) :
    ∃ ni s2, numIntPart (minusSplit lex).2 = some (ni, s2) ∧
      (numExpPart (numFracPart s2).2).2 = [] ∧
      (minusSplit lex).1 + ni + (numFracPart s2).1 +
        (numExpPart (numFracPart s2).2).1 = lex.length := by
  unfold numLexValid at hv
  match hmi : numIntPart (minusSplit lex).2 with
  | none => rw [hmi] at hv; exact absurd hv (by simp)
  | some (ni, s2) =>
    rw [hmi] at hv
    have hemp : (numExpPart (numFracPart s2).2).2 = [] :=
      List.isEmpty_iff.mp hv
    refine ⟨ni, s2, rfl, hemp, ?_⟩
    have l1 := minusSplit_len lex
    have l2 := numIntPart_len hmi
    have l3 := numFracPart_len s2
    have l4 := numExpPart_len (numFracPart s2).2
    rw [hemp] at l4
    simp only [List.length_nil] at l4
    omega

theorem numLexValid_ne_nil {lex : Str} (hv : numLexValid lex = true) :
    lex ≠ [] := by
  intro h
  subst h
  exact absurd hv (by decide)

theorem numLexLen_ser {lex : Str} (hv : numLexValid lex = true)
    {c : Char} {r' : Str} (hterm : isTermChar c = true) :
    numLexLen (lex ++ c :: r') = some lex.length := by
  obtain ⟨ni, s2, hmi, hemp, hsum⟩ := numLexParts hv
  have hrest : restHeadOk (c :: r') := by
    intro x hx
    rw [Option.some_inj.mp hx] at hterm
    exact hterm
  obtain ⟨c0, l, rfl⟩ : ∃ c0 l, lex = c0 :: l := by
    match lex with
    | [] => exact absurd rfl (numLexValid_ne_nil hv)
    | c0 :: l => exact ⟨c0, l, rfl⟩
  unfold numLexLen
  rw [minusSplit_append]
  dsimp only
  rw [numIntPart_append hmi hrest]
  dsimp only
  rw [numFracPart_append hrest]
  dsimp only
  rw [numExpPart_append hrest]
  dsimp only
  rw [hemp]
  rw [List.nil_append]
  dsimp only
  rw [if_pos hterm]
  rw [Option.some_inj]
  simp only [List.length_cons] at hsum ⊢
  omega

theorem jpNumLen_ser {lex rest : Str} (hv : numLexValid lex = true)
    (hrest : restHeadOk rest) :
    jpNumLen (lex ++ rest) = some lex.length := by
  obtain ⟨ni, s2, hmi, hemp, hsum⟩ := numLexParts hv
  obtain ⟨c0, l, rfl⟩ : ∃ c0 l, lex = c0 :: l := by
    match lex with
    | [] => exact absurd rfl (numLexValid_ne_nil hv)
    | c0 :: l => exact ⟨c0, l, rfl⟩
  unfold jpNumLen
  rw [minusSplit_append]
  dsimp only
  rw [numIntPart_append hmi hrest]
  dsimp only
  rw [numFracPart_append hrest]
  dsimp only
  rw [numExpPart_append hrest]
  dsimp only
  rw [Option.some_inj]
  simp only [List.length_cons] at hsum ⊢
  omega


/-! Scalar parser steps on a serialized value followed by more input -/

theorem stringBodyLen_plain_cons {c : Char} (hq : c ≠ '"') (hb : c ≠ '\\')
    (r : Str) : stringBodyLen (c :: r) = (stringBodyLen r).map (· + 1) := by
  rw [stringBodyLen_cons, if_neg hq, if_neg hb]

theorem stringBodyLen_esc2 {c2 : Char} (hlt : isLineTerm c2 = false) (r : Str) :
    stringBodyLen ('\\' :: c2 :: r) = (stringBodyLen r).map (· + 2) := by
  rw [stringBodyLen_cons, if_neg (by decide), if_pos rfl]
  dsimp only
  rw [hlt]
  rfl

theorem stringBodyLen_escaped (s : Str) (tail : Str) :
    stringBodyLen (escapeStr s ++ '"' :: tail) =
      some ((escapeStr s).length + 1) := by
  induction s with
  | nil =>
    rw [show escapeStr [] = [] from rfl, List.nil_append]
    rw [stringBodyLen_cons, if_pos rfl]
    rfl
  | cons c s2 ih =>
    rw [escapeStr_cons]
    rcases escChar_shape c with ⟨he, hq, hb, hv⟩ | ⟨he, hq⟩ | ⟨he, hq⟩ |
        ⟨n1, n2, hn1, hn2, he, hcv⟩ <;> rw [he]
    · rw [show ([c] ++ escapeStr s2) ++ '"' :: tail =
        c :: (escapeStr s2 ++ '"' :: tail) from by simp]
      rw [stringBodyLen_plain_cons hq hb, ih]
      simp only [Option.map_some', List.length_append, List.length_cons,
        List.length_nil]
      congr 1
      omega
    · rw [show (['\\', '"'] ++ escapeStr s2) ++ '"' :: tail =
        '\\' :: '"' :: (escapeStr s2 ++ '"' :: tail) from by simp]
      rw [stringBodyLen_esc2 (by decide), ih]
      simp only [Option.map_some', List.length_append, List.length_cons,
        List.length_nil]
      congr 1
      omega
    · rw [show (['\\', '\\'] ++ escapeStr s2) ++ '"' :: tail =
        '\\' :: '\\' :: (escapeStr s2 ++ '"' :: tail) from by simp]
      rw [stringBodyLen_esc2 (by decide), ih]
      simp only [Option.map_some', List.length_append, List.length_cons,
        List.length_nil]
      congr 1
      omega
    · rw [show (['\\', 'u', '0', '0', hexDigit n1, hexDigit n2] ++
        escapeStr s2) ++ '"' :: tail =
        '\\' :: 'u' :: '0' :: '0' :: hexDigit n1 :: hexDigit n2 ::
          (escapeStr s2 ++ '"' :: tail) from by simp]
      rw [stringBodyLen_esc2 (by decide)]
      rw [stringBodyLen_plain_cons (by decide) (by decide)]
      rw [stringBodyLen_plain_cons (by decide) (by decide)]
      rw [stringBodyLen_plain_cons (hexDigit_facts n1 hn1).1
        (hexDigit_facts n1 hn1).2.1]
      rw [stringBodyLen_plain_cons (hexDigit_facts n2 hn2).1
        (hexDigit_facts n2 hn2).2.1]
      rw [ih]
      simp only [Option.map_some', List.length_append, List.length_cons,
        List.length_nil]
      congr 1
      omega

theorem stringLexLen_ser (s : Str) (tail : Str) :
    stringLexLen (serialize (.jstr s) ++ tail) =
      some ((escapeStr s).length + 2) := by
  rw [show serialize (JsValue.jstr s) ++ tail =
    '"' :: (escapeStr s ++ '"' :: tail) from by simp [serialize]]
  rw [show stringLexLen ('"' :: (escapeStr s ++ '"' :: tail)) =
    (stringBodyLen (escapeStr s ++ '"' :: tail)).map (· + 1) from by
      rw [stringLexLen]
      rw [if_pos rfl]]
  rw [stringBodyLen_escaped]
  rfl

theorem ser_jstr_len (s : Str) :
    (serialize (.jstr s)).length = (escapeStr s).length + 2 := by
  simp [serialize]

theorem stepStr_ser (path : Str) (s : Str) (tail : Str) :
    stepStr path none (serialize (.jstr s) ++ tail) =
      .ok (.nstr path (some (.jstr s)), tail, [(path, .jstr s)]) := by
  unfold stepStr consumeUntilMatch
  dsimp only
  rw [stringLexLen_ser]
  rw [show (escapeStr s).length + 2 = (serialize (JsValue.jstr s)).length from
    (ser_jstr_len s).symm]
  rw [Option.map_some']
  dsimp only
  rw [List.take_left, List.drop_left]
  rw [decode_ser_string]

theorem stepNum_ser (path : Str) {lex : Str} (hv : numLexValid lex = true)
    {c : Char} {r' : Str} (hterm : isTermChar c = true) :
    stepNum path none (lex ++ c :: r') =
      .ok (.nnum path (some (.jnum lex)), c :: r', [(path, .jnum lex)]) := by
  unfold stepNum consumeUntilMatch
  dsimp only
  rw [numLexLen_ser hv hterm]
  rw [Option.map_some']
  dsimp only
  rw [List.take_left, List.drop_left]

theorem stepLit_ser (path : Str) {start : Char} {w : Str}
    (hw : litWord start = some w)
    {c : Char} {r' : Str} (hterm : isTermChar c = true) :
    stepLit start path none (w ++ c :: r') =
      .ok (.nlit start path (some (litVal start)), c :: r',
           [(path, litVal start)]) := by
  unfold stepLit
  rw [hw]
  dsimp only
  unfold consumeUntilMatch
  dsimp only
  rw [show litLexLen w (w ++ c :: r') = some w.length from by
    unfold litLexLen
    rw [if_pos (by rw [List.isPrefixOf_iff_prefix]; exact ⟨c :: r', rfl⟩)]
    rw [List.drop_left]
    dsimp only
    rw [if_pos hterm]]
  rw [Option.map_some']
  dsimp only
  rw [List.drop_left]

theorem keyLexLen_ser (k : Str) (tail : Str) :
    keyLexLen (serialize (.jstr k) ++ ':' :: tail) =
      some ((escapeStr k).length + 2, (escapeStr k).length + 3) := by
  unfold keyLexLen
  rw [stringLexLen_ser]
  dsimp only
  rw [show (escapeStr k).length + 2 = (serialize (JsValue.jstr k)).length from
    (ser_jstr_len k).symm]
  rw [List.drop_left]
  rw [show (':' :: tail).takeWhile isJsWs = [] from by
    rw [List.takeWhile_cons]
    rw [show isJsWs ':' = false from by decide]
    rfl]
  rw [show (':' :: tail).drop (List.length ([] : Str)) = ':' :: tail from rfl]
  rw [ser_jstr_len k]
  rfl

theorem stepKey_ser (k : Str) (tail : Str) :
    stepKey none (serialize (.jstr k) ++ ':' :: tail) =
      .ok (.nkey (some k), tail, []) := by
  unfold stepKey consumeUntilMatch
  dsimp only
  rw [keyLexLen_ser]
  rw [Option.map_some']
  dsimp only
  have htake : (serialize (JsValue.jstr k) ++ ':' :: tail).take
      ((escapeStr k).length + 2) = serialize (JsValue.jstr k) := by
    rw [show (escapeStr k).length + 2 = (serialize (JsValue.jstr k)).length from
      (ser_jstr_len k).symm]
    exact List.take_left ..
  rw [htake, decode_ser_string]
  have hdrop : (serialize (JsValue.jstr k) ++ ':' :: tail).drop
      ((escapeStr k).length + 3) = tail := by
    have h1 : (escapeStr k).length + 3 =
        (serialize (JsValue.jstr k)).length + 1 := by
      rw [ser_jstr_len]
    rw [h1, List.drop_append]
    rfl
  rw [hdrop]


/-! JSON.parse (jpValue) on serialized documents -/

theorem isJsonWs_imp_isJsWs {c : Char} (h : isJsonWs c = true) :
    isJsWs c = true := by
  unfold isJsonWs at h
  unfold isJsWs
  simp only [Bool.or_eq_true, decide_eq_true_eq] at h ⊢
  rcases h with ((h | h) | h) | h
  · tauto
  · tauto
  · tauto
  · tauto

theorem isJsWs_false_isJsonWs {c : Char} (h : isJsWs c = false) :
    isJsonWs c = false := by
  by_contra hcon
  rw [Bool.not_eq_false] at hcon
  rw [isJsonWs_imp_isJsWs hcon] at h
  exact absurd h (by simp)

/-- Heads of serialized valid values: never whitespace, a comma, a colon or a
closing bracket. -/
theorem serialize_head {v : JsValue} (hv : validVal v = true) :
    ∃ c r, serialize v = c :: r ∧ isJsWs c = false ∧
      c ≠ '\x7d' ∧ c ≠ ']' ∧ c ≠ ',' ∧ c ≠ ':' := by
  match v with
  | .jundef => exact absurd hv (by simp [validVal])
  | .jnull => exact ⟨'n', _, rfl, by decide, by decide, by decide, by decide,
      by decide⟩
  | .jbool true => exact ⟨'t', _, rfl, by decide, by decide, by decide,
      by decide, by decide⟩
  | .jbool false => exact ⟨'f', _, rfl, by decide, by decide, by decide,
      by decide, by decide⟩
  | .jstr s => exact ⟨'"', _, rfl, by decide, by decide, by decide, by decide,
      by decide⟩
  | .jarr xs => exact ⟨'[', _, rfl, by decide, by decide, by decide, by decide,
      by decide⟩
  | .jobj ps => exact ⟨'\x7b', _, rfl, by decide, by decide, by decide,
      by decide, by decide⟩
  | .jnum lex =>
    have hvn : numLexValid lex = true := hv
    obtain ⟨hall, c, r, hlex, hc⟩ := numLexValid_facts hvn
    refine ⟨c, r, by rw [show serialize (JsValue.jnum lex) = lex from rfl, hlex],
      ?_, ?_, ?_, ?_, ?_⟩
    · have hnum : numChar c = true := hall c (by rw [hlex]; simp)
      exact (numChar_facts hnum).2.1
    · have hnum : numChar c = true := hall c (by rw [hlex]; simp)
      exact (numChar_not_close hnum).1
    · have hnum : numChar c = true := hall c (by rw [hlex]; simp)
      exact (numChar_not_close hnum).2
    · have hnum : numChar c = true := hall c (by rw [hlex]; simp)
      intro hcon
      have := (numChar_facts hnum).1
      rw [hcon] at this
      exact absurd this (by decide)
    · have hnum : numChar c = true := hall c (by rw [hlex]; simp)
      intro hcon
      rcases hc with hc | hc
      · rw [hcon] at hc
        exact absurd hc (by decide)
      · rw [hcon] at hc
        exact absurd hc (by decide)

mutual

def jcostV : JsValue → Nat
  | .jarr xs => jcostE xs + 1
  | .jobj ps => jcostP ps + 1
  | _ => 1

def jcostE : List JsValue → Nat
  | [] => 1
  | x :: xs => max (jcostV x) (jcostE xs) + 1

def jcostP : List (Str × JsValue) → Nat
  | [] => 1
  | kv :: ps => max (jcostV kv.2) (jcostP ps) + 1

end


theorem jpSkipWs_noop {c : Char} {r : Str} (h : isJsonWs c = false) :
    jpSkipWs (c :: r) = c :: r := by
  simp [jpSkipWs, List.dropWhile_cons, h]

theorem isPrefixOf_ne_head {a b : Char} (h : a ≠ b) (as bs : List Char) :
    (a :: as).isPrefixOf (b :: bs) = false := by
  rw [show (a :: as).isPrefixOf (b :: bs) = (a == b && as.isPrefixOf bs) from
    rfl]
  rw [show (a == b) = false from beq_eq_false_iff_ne.mpr h]
  rw [Bool.false_and]

theorem jpValue_eq (f : Nat) (s0 : Str) :
    jpValue (f + 1) s0 =
      (let s := jpSkipWs s0
       if (['n', 'u', 'l', 'l'] : Str).isPrefixOf s then some (.jnull, s.drop 4)
       else if (['t', 'r', 'u', 'e'] : Str).isPrefixOf s then
         some (.jbool true, s.drop 4)
       else if (['f', 'a', 'l', 's', 'e'] : Str).isPrefixOf s then
         some (.jbool false, s.drop 5)
       else if s.head? = some '"' then
         match stringLexLen s with
         | none => none
         | some n =>
           match decodeStringLexeme (s.take n) with
           | none => none
           | some dec => some (.jstr dec, s.drop n)
       else if s.head? = some '[' then jpArr f (jpSkipWs (s.drop 1)) []
       else if s.head? = some '\x7b' then jpObj f (jpSkipWs (s.drop 1)) []
       else
         match jpNumLen s with
         | none => none
         | some n => some (.jnum (s.take n), s.drop n)) := rfl

theorem jpArr_eq (f : Nat) (s : Str) (acc : List JsValue) :
    jpArr (f + 1) s acc =
      (if acc.isEmpty && s.head? = some ']' then some (.jarr [], s.drop 1)
      else
        match jpValue f s with
        | none => none
        | some (v, r) =>
          let r1 := jpSkipWs r
          if r1.head? = some ',' then
            jpArr f (jpSkipWs (r1.drop 1)) (acc ++ [v])
          else if r1.head? = some ']' then some (.jarr (acc ++ [v]), r1.drop 1)
          else none) := rfl

theorem jpObj_eq (f : Nat) (s : Str) (acc : List (Str × JsValue)) :
    jpObj (f + 1) s acc =
      (if acc.isEmpty && s.head? = some '\x7d' then some (.jobj [], s.drop 1)
      else
        match stringLexLen s with
        | none => none
        | some n =>
          match decodeStringLexeme (s.take n) with
          | none => none
          | some k =>
            let r0 := jpSkipWs (s.drop n)
            if r0.head? = some ':' then
              match jpValue f (jpSkipWs (r0.drop 1)) with
              | none => none
              | some (v, r2) =>
                let r3 := jpSkipWs r2
                if r3.head? = some ',' then
                  jpObj f (jpSkipWs (r3.drop 1)) (objInsert acc k v)
                else if r3.head? = some '\x7d' then
                  some (.jobj (objInsert acc k v), r3.drop 1)
                else none
            else none) := rfl

/-- rest-head requirement of the `JSON.parse` model: only numbers look ahead. -/
def restHeadOkV : JsValue → Str → Prop
  | .jnum _, rest => restHeadOk rest
  | _, _ => True

theorem restHeadOk_cons {c : Char} (h : isTermChar c = true) (r : Str) :
    restHeadOk (c :: r) := by
  intro x hx
  rw [show x = c from (Option.some_inj.mp hx).symm]
  exact h

theorem restHeadOkV_of {v : JsValue} {rest : Str} (h : restHeadOk rest) :
    restHeadOkV v rest := by
  cases v <;> first | exact trivial | exact h

theorem jpSkipWs_noop_ser {v : JsValue} (hv : validVal v = true) (t : Str) :
    jpSkipWs (serialize v ++ t) = serialize v ++ t := by
  obtain ⟨c, r, hser, hws, -, -, -, -⟩ := serialize_head hv
  rw [hser, show (c :: r) ++ t = c :: (r ++ t) from rfl,
    jpSkipWs_noop (isJsWs_false_isJsonWs hws)]

theorem elems_head_decomp {x : JsValue} (ys : List JsValue) (t : Str) :
    ∃ T, serializeElems (x :: ys) ++ t = serialize x ++ T := by
  match ys with
  | [] => exact ⟨t, by rw [show serializeElems [x] = serialize x from rfl]⟩
  | y :: ys2 =>
    refine ⟨',' :: serializeElems (y :: ys2) ++ t, ?_⟩
    rw [show serializeElems (x :: y :: ys2) =
      serialize x ++ ',' :: serializeElems (y :: ys2) from rfl]
    simp

theorem jpSkipWs_noop_elems {y : JsValue} (ys : List JsValue)
    (hvy : validVal y = true) (t : Str) :
    jpSkipWs (serializeElems (y :: ys) ++ t) = serializeElems (y :: ys) ++ t := by
  obtain ⟨T, hT⟩ := elems_head_decomp ys t
  rw [hT, jpSkipWs_noop_ser hvy T]

theorem pairs_head_decomp {k : Str} {x : JsValue}
    (qs : List (Str × JsValue)) (t : Str) :
    ∃ T, serializePairs ((k, x) :: qs) ++ t =
      serialize (.jstr k) ++ ':' :: (serialize x ++ T) := by
  match qs with
  | [] =>
    refine ⟨t, ?_⟩
    rw [show serializePairs [(k, x)] =
      '"' :: escapeStr k ++ '"' :: ':' :: serialize x from rfl]
    simp [serialize]
  | q :: qs2 =>
    refine ⟨',' :: serializePairs (q :: qs2) ++ t, ?_⟩
    rw [show serializePairs ((k, x) :: q :: qs2) =
      '"' :: escapeStr k ++ '"' :: ':' :: serialize x ++
        ',' :: serializePairs (q :: qs2) from rfl]
    simp [serialize]

theorem ser_take (k : Str) (tail : Str) :
    (serialize (.jstr k) ++ tail).take ((escapeStr k).length + 2) =
      serialize (.jstr k) := by
  rw [show (escapeStr k).length + 2 = (serialize (JsValue.jstr k)).length from
    (ser_jstr_len k).symm]
  exact List.take_left ..

theorem ser_drop (k : Str) (tail : Str) :
    (serialize (.jstr k) ++ tail).drop ((escapeStr k).length + 2) = tail := by
  rw [show (escapeStr k).length + 2 = (serialize (JsValue.jstr k)).length from
    (ser_jstr_len k).symm]
  exact List.drop_left ..

theorem jpSkipWs_noop_pairs {k : Str} {x : JsValue}
    (qs : List (Str × JsValue)) (t : Str) :
    jpSkipWs (serializePairs ((k, x) :: qs) ++ t) =
      serializePairs ((k, x) :: qs) ++ t := by
  obtain ⟨T, hT⟩ := pairs_head_decomp qs t
  rw [hT]
  have h2 : serialize (JsValue.jstr k) ++ ':' :: (serialize x ++ T) =
      '"' :: (escapeStr k ++ '"' :: ':' :: (serialize x ++ T)) := by
    simp [serialize]
  rw [h2, jpSkipWs_noop (by decide)]

mutual

theorem jp_val (v : JsValue) (hv : validVal v = true) :
    ∀ (rest : Str), restHeadOkV v rest → ∀ (f : Nat), jcostV v ≤ f →
      jpValue f (serialize v ++ rest) = some (dedup v, rest) := by
  match v with
  | .jundef => exact absurd hv (by simp [validVal])
  | .jnull =>
    intro rest hok f hf
    obtain ⟨g, rfl⟩ : ∃ g, f = g + 1 := ⟨f - 1, by
      have : jcostV JsValue.jnull = 1 := rfl
      omega⟩
    rw [show serialize JsValue.jnull ++ rest =
      'n' :: 'u' :: 'l' :: 'l' :: rest from rfl]
    rw [jpValue_eq]
    dsimp only
    rw [jpSkipWs_noop (by decide)]
    rw [if_pos (by
      rw [List.isPrefixOf_iff_prefix]
      exact ⟨rest, rfl⟩)]
    rfl
  | .jbool true =>
    intro rest hok f hf
    obtain ⟨g, rfl⟩ : ∃ g, f = g + 1 := ⟨f - 1, by
      have : jcostV (JsValue.jbool true) = 1 := rfl
      omega⟩
    rw [show serialize (JsValue.jbool true) ++ rest =
      't' :: 'r' :: 'u' :: 'e' :: rest from rfl]
    rw [jpValue_eq]
    dsimp only
    rw [jpSkipWs_noop (by decide)]
    rw [show (['n', 'u', 'l', 'l'] : Str).isPrefixOf
      ('t' :: 'r' :: 'u' :: 'e' :: rest) = false from
      isPrefixOf_ne_head (by decide) _ _]
    simp only [Bool.false_eq_true, if_false]
    rw [if_pos (by
      rw [List.isPrefixOf_iff_prefix]
      exact ⟨rest, rfl⟩)]
    rfl
  | .jbool false =>
    intro rest hok f hf
    obtain ⟨g, rfl⟩ : ∃ g, f = g + 1 := ⟨f - 1, by
      have : jcostV (JsValue.jbool false) = 1 := rfl
      omega⟩
    rw [show serialize (JsValue.jbool false) ++ rest =
      'f' :: 'a' :: 'l' :: 's' :: 'e' :: rest from rfl]
    rw [jpValue_eq]
    dsimp only
    rw [jpSkipWs_noop (by decide)]
    rw [show (['n', 'u', 'l', 'l'] : Str).isPrefixOf
      ('f' :: 'a' :: 'l' :: 's' :: 'e' :: rest) = false from
      isPrefixOf_ne_head (by decide) _ _]
    rw [show (['t', 'r', 'u', 'e'] : Str).isPrefixOf
      ('f' :: 'a' :: 'l' :: 's' :: 'e' :: rest) = false from
      isPrefixOf_ne_head (by decide) _ _]
    simp only [Bool.false_eq_true, if_false]
    rw [if_pos (by
      rw [List.isPrefixOf_iff_prefix]
      exact ⟨rest, rfl⟩)]
    rfl
  | .jnum lex =>
    intro rest hok f hf
    obtain ⟨g, rfl⟩ : ∃ g, f = g + 1 := ⟨f - 1, by
      have : jcostV (JsValue.jnum lex) = 1 := rfl
      omega⟩
    have hvn : numLexValid lex = true := hv
    have hok' : restHeadOk rest := hok
    obtain ⟨hall, c0, l, hlex, hc0⟩ := numLexValid_facts hvn
    have hnum : numChar c0 = true := hall c0 (by rw [hlex]; simp)
    obtain ⟨-, hws, hq, hob, hab, ht, hfc, hn⟩ := numChar_facts hnum
    rw [show serialize (JsValue.jnum lex) ++ rest = lex ++ rest from rfl]
    rw [hlex]
    rw [show (c0 :: l) ++ rest = c0 :: (l ++ rest) from rfl]
    rw [jpValue_eq]
    dsimp only
    rw [jpSkipWs_noop (isJsWs_false_isJsonWs hws)]
    rw [isPrefixOf_ne_head (fun hcon => hn hcon.symm) _ _]
    rw [isPrefixOf_ne_head (fun hcon => ht hcon.symm) _ _]
    rw [isPrefixOf_ne_head (fun hcon => hfc hcon.symm) _ _]
    simp only [Bool.false_eq_true, if_false]
    rw [if_neg (by simp [hq]), if_neg (by simp [hab]), if_neg (by simp [hob])]
    rw [show c0 :: (l ++ rest) = (c0 :: l) ++ rest from rfl, ← hlex]
    rw [jpNumLen_ser hvn hok']
    dsimp only
    rw [List.take_left, List.drop_left]
    rfl
  | .jstr s =>
    intro rest hok f hf
    obtain ⟨g, rfl⟩ : ∃ g, f = g + 1 := ⟨f - 1, by
      have : jcostV (JsValue.jstr s) = 1 := rfl
      omega⟩
    rw [show serialize (JsValue.jstr s) ++ rest =
      '"' :: (escapeStr s ++ '"' :: rest) from by simp [serialize]]
    rw [jpValue_eq]
    dsimp only
    rw [jpSkipWs_noop (by decide)]
    rw [isPrefixOf_ne_head (by decide) _ _]
    rw [isPrefixOf_ne_head (by decide) _ _]
    rw [isPrefixOf_ne_head (by decide) _ _]
    simp only [Bool.false_eq_true, if_false]
    rw [if_pos (by rfl)]
    have hsl : stringLexLen ('"' :: (escapeStr s ++ '"' :: rest)) =
        some ((escapeStr s).length + 2) := by
      rw [show '"' :: (escapeStr s ++ '"' :: rest) =
        serialize (JsValue.jstr s) ++ rest from by simp [serialize]]
      exact stringLexLen_ser s rest
    rw [hsl]
    dsimp only
    have htake : ('"' :: (escapeStr s ++ '"' :: rest)).take
        ((escapeStr s).length + 2) = serialize (JsValue.jstr s) := by
      rw [show '"' :: (escapeStr s ++ '"' :: rest) =
        serialize (JsValue.jstr s) ++ rest from by simp [serialize]]
      rw [show (escapeStr s).length + 2 = (serialize (JsValue.jstr s)).length
        from (ser_jstr_len s).symm]
      exact List.take_left ..
    have hdrop : ('"' :: (escapeStr s ++ '"' :: rest)).drop
        ((escapeStr s).length + 2) = rest := by
      rw [show '"' :: (escapeStr s ++ '"' :: rest) =
        serialize (JsValue.jstr s) ++ rest from by simp [serialize]]
      rw [show (escapeStr s).length + 2 = (serialize (JsValue.jstr s)).length
        from (ser_jstr_len s).symm]
      exact List.drop_left ..
    rw [htake, decode_ser_string, hdrop]
    rfl
  | .jarr xs =>
    intro rest hok f hf
    have hvl : validList xs = true := hv
    obtain ⟨g, rfl⟩ : ∃ g, f = g + 1 := ⟨f - 1, by
      have : jcostV (JsValue.jarr xs) = jcostE xs + 1 := rfl
      omega⟩
    have hcost : jcostE xs ≤ g := by
      have : jcostV (JsValue.jarr xs) = jcostE xs + 1 := rfl
      omega
    rw [show serialize (JsValue.jarr xs) ++ rest =
      '[' :: (serializeElems xs ++ ']' :: rest) from by simp [serialize]]
    rw [jpValue_eq]
    dsimp only
    rw [jpSkipWs_noop (by decide)]
    rw [isPrefixOf_ne_head (by decide) _ _]
    rw [isPrefixOf_ne_head (by decide) _ _]
    rw [isPrefixOf_ne_head (by decide) _ _]
    simp only [Bool.false_eq_true, if_false]
    rw [if_neg (by simp), if_pos (by rfl)]
    rw [show ('[' :: (serializeElems xs ++ ']' :: rest)).drop 1 =
      serializeElems xs ++ ']' :: rest from rfl]
    match xs with
    | [] =>
      rw [show serializeElems ([] : List JsValue) ++ ']' :: rest =
        ']' :: rest from rfl]
      rw [jpSkipWs_noop (by decide)]
      obtain ⟨g2, rfl⟩ : ∃ g2, g = g2 + 1 := ⟨g - 1, by
        have : jcostE ([] : List JsValue) = 1 := rfl
        omega⟩
      rw [jpArr_eq]
      rw [if_pos (by simp)]
      rfl
    | x :: ys =>
      have hvx : validVal x = true := (Bool.and_eq_true _ _ ▸ hvl).1
      rw [jpSkipWs_noop_elems ys hvx (']' :: rest)]
      rw [jp_arr (x :: ys) hvl (by simp) [] rest g hcost]
      rfl
  | .jobj ps =>
    intro rest hok f hf
    have hvp : validPairs ps = true := hv
    obtain ⟨g, rfl⟩ : ∃ g, f = g + 1 := ⟨f - 1, by
      have : jcostV (JsValue.jobj ps) = jcostP ps + 1 := rfl
      omega⟩
    have hcost : jcostP ps ≤ g := by
      have : jcostV (JsValue.jobj ps) = jcostP ps + 1 := rfl
      omega
    rw [show serialize (JsValue.jobj ps) ++ rest =
      '\x7b' :: (serializePairs ps ++ '\x7d' :: rest) from by simp [serialize]]
    rw [jpValue_eq]
    dsimp only
    rw [jpSkipWs_noop (by decide)]
    rw [isPrefixOf_ne_head (by decide) _ _]
    rw [isPrefixOf_ne_head (by decide) _ _]
    rw [isPrefixOf_ne_head (by decide) _ _]
    simp only [Bool.false_eq_true, if_false]
    rw [if_neg (by simp), if_neg (by simp), if_pos (by rfl)]
    rw [show ('\x7b' :: (serializePairs ps ++ '\x7d' :: rest)).drop 1 =
      serializePairs ps ++ '\x7d' :: rest from rfl]
    match ps with
    | [] =>
      rw [show serializePairs ([] : List (Str × JsValue)) ++ '\x7d' :: rest =
        '\x7d' :: rest from rfl]
      rw [jpSkipWs_noop (by decide)]
      obtain ⟨g2, rfl⟩ : ∃ g2, g = g2 + 1 := ⟨g - 1, by
        have : jcostP ([] : List (Str × JsValue)) = 1 := rfl
        omega⟩
      rw [jpObj_eq]
      rw [if_pos (by simp)]
      rfl
    | (k, x) :: qs =>
      have hvx : validVal x = true := (Bool.and_eq_true _ _ ▸ hvp).1
      rw [jpSkipWs_noop_pairs qs ('\x7d' :: rest)]
      rw [jp_obj ((k, x) :: qs) hvp (by simp) [] rest g hcost]
      rfl

theorem jp_arr (xs : List JsValue) (hvl : validList xs = true)
    (hne : xs ≠ []) :
    ∀ (acc : List JsValue) (rest : Str) (f : Nat), jcostE xs ≤ f →
      jpArr f (serializeElems xs ++ ']' :: rest) acc =
        some (.jarr (acc ++ dedupList xs), rest) := by
  match xs with
  | [] => exact absurd rfl hne
  | x :: ys =>
    intro acc rest f hf
    have he : jcostE (x :: ys) = max (jcostV x) (jcostE ys) + 1 := rfl
    have hm1 := Nat.le_max_left (jcostV x) (jcostE ys)
    have hm2 := Nat.le_max_right (jcostV x) (jcostE ys)
    obtain ⟨g, rfl⟩ : ∃ g, f = g + 1 := ⟨f - 1, by omega⟩
    have hvx : validVal x = true := (Bool.and_eq_true _ _ ▸ hvl).1
    have hvr : validList ys = true := (Bool.and_eq_true _ _ ▸ hvl).2
    obtain ⟨c, r, hser, hws, hcb, hcsq, hccm, hccl⟩ := serialize_head hvx
    rw [jpArr_eq]
    match ys with
    | [] =>
      rw [show serializeElems [x] = serialize x from rfl]
      have hhead : (serialize x ++ ']' :: rest).head? = some c := by
        rw [hser]
        rfl
      rw [if_neg (by simp [hhead, hcsq])]
      rw [jp_val x hvx (']' :: rest)
        (restHeadOkV_of (restHeadOk_cons (by decide) rest)) g (by omega)]
      dsimp only
      rw [jpSkipWs_noop (by decide)]
      rw [if_neg (by simp), if_pos (by rfl)]
      rfl
    | y :: ys2 =>
      rw [show serializeElems (x :: y :: ys2) =
        serialize x ++ ',' :: serializeElems (y :: ys2) from rfl]
      rw [show (serialize x ++ ',' :: serializeElems (y :: ys2)) ++
        ']' :: rest =
        serialize x ++ ',' :: (serializeElems (y :: ys2) ++ ']' :: rest) from
        by simp]
      have hhead : (serialize x ++
          ',' :: (serializeElems (y :: ys2) ++ ']' :: rest)).head? = some c := by
        rw [hser]
        rfl
      rw [if_neg (by simp [hhead, hcsq])]
      rw [jp_val x hvx (',' :: (serializeElems (y :: ys2) ++ ']' :: rest))
        (restHeadOkV_of (restHeadOk_cons (by decide) _)) g (by omega)]
      dsimp only
      rw [jpSkipWs_noop (by decide)]
      rw [if_pos (by rfl)]
      rw [show (',' :: (serializeElems (y :: ys2) ++ ']' :: rest)).drop 1 =
        serializeElems (y :: ys2) ++ ']' :: rest from rfl]
      rw [jpSkipWs_noop_elems ys2 ((Bool.and_eq_true _ _ ▸ hvr).1)
        (']' :: rest)]
      rw [jp_arr (y :: ys2) hvr (by simp) (acc ++ [dedup x]) rest g (by omega)]
      rw [List.append_assoc]
      rfl

theorem jp_obj (ps : List (Str × JsValue)) (hvp : validPairs ps = true)
    (hne : ps ≠ []) :
    ∀ (acc : List (Str × JsValue)) (rest : Str) (f : Nat), jcostP ps ≤ f →
      jpObj f (serializePairs ps ++ '\x7d' :: rest) acc =
        some (.jobj (dedupPairs acc ps), rest) := by
  match ps with
  | [] => exact absurd rfl hne
  | (k, x) :: qs =>
    intro acc rest f hf
    have he : jcostP ((k, x) :: qs) = max (jcostV x) (jcostP qs) + 1 := rfl
    have hm1 := Nat.le_max_left (jcostV x) (jcostP qs)
    have hm2 := Nat.le_max_right (jcostV x) (jcostP qs)
    obtain ⟨g, rfl⟩ : ∃ g, f = g + 1 := ⟨f - 1, by omega⟩
    have hvx : validVal x = true := (Bool.and_eq_true _ _ ▸ hvp).1
    have hvr : validPairs qs = true := (Bool.and_eq_true _ _ ▸ hvp).2
    match qs with
    | [] =>
      have hs1 : serializePairs [(k, x)] ++ '\x7d' :: rest =
          serialize (.jstr k) ++ ':' :: (serialize x ++ '\x7d' :: rest) := by
        rw [show serializePairs [(k, x)] =
          '"' :: escapeStr k ++ '"' :: ':' :: serialize x from rfl]
        simp [serialize]
      rw [hs1, jpObj_eq]
      have hhead : (serialize (JsValue.jstr k) ++
          ':' :: (serialize x ++ '\x7d' :: rest)).head? = some '"' := by
        rw [show serialize (JsValue.jstr k) =
          '"' :: (escapeStr k ++ ['"']) from by simp [serialize]]
        rfl
      rw [if_neg (by simp [hhead])]
      rw [stringLexLen_ser k]
      dsimp only
      rw [ser_take k, decode_ser_string, ser_drop k]
      dsimp only
      rw [jpSkipWs_noop (by decide)]
      rw [if_pos (by rfl)]
      rw [show (':' :: (serialize x ++ '\x7d' :: rest)).drop 1 =
        serialize x ++ '\x7d' :: rest from rfl]
      rw [jpSkipWs_noop_ser hvx]
      rw [jp_val x hvx ('\x7d' :: rest)
        (restHeadOkV_of (restHeadOk_cons (by decide) _)) g (by omega)]
      dsimp only
      rw [jpSkipWs_noop (by decide)]
      rw [if_neg (by simp), if_pos (by rfl)]
      rfl
    | q :: qs2 =>
      obtain ⟨k2, x2⟩ := q
      have hs1 : serializePairs ((k, x) :: (k2, x2) :: qs2) ++ '\x7d' :: rest =
          serialize (.jstr k) ++ ':' :: (serialize x ++
            ',' :: (serializePairs ((k2, x2) :: qs2) ++ '\x7d' :: rest)) := by
        rw [show serializePairs ((k, x) :: (k2, x2) :: qs2) =
          '"' :: escapeStr k ++ '"' :: ':' :: serialize x ++
            ',' :: serializePairs ((k2, x2) :: qs2) from rfl]
        simp [serialize]
      rw [hs1, jpObj_eq]
      have hhead : (serialize (JsValue.jstr k) ++
          ':' :: (serialize x ++
            ',' :: (serializePairs ((k2, x2) :: qs2) ++
              '\x7d' :: rest))).head? = some '"' := by
        rw [show serialize (JsValue.jstr k) =
          '"' :: (escapeStr k ++ ['"']) from by simp [serialize]]
        rfl
      rw [if_neg (by simp [hhead])]
      rw [stringLexLen_ser k]
      dsimp only
      rw [ser_take k, decode_ser_string, ser_drop k]
      dsimp only
      rw [jpSkipWs_noop (by decide)]
      rw [if_pos (by rfl)]
      rw [show (':' :: (serialize x ++
        ',' :: (serializePairs ((k2, x2) :: qs2) ++ '\x7d' :: rest))).drop 1 =
        serialize x ++
          ',' :: (serializePairs ((k2, x2) :: qs2) ++ '\x7d' :: rest) from rfl]
      rw [jpSkipWs_noop_ser hvx]
      rw [jp_val x hvx
        (',' :: (serializePairs ((k2, x2) :: qs2) ++ '\x7d' :: rest))
        (restHeadOkV_of (restHeadOk_cons (by decide) _)) g (by omega)]
      dsimp only
      rw [jpSkipWs_noop (by decide)]
      rw [if_pos (by rfl)]
      rw [show (',' :: (serializePairs ((k2, x2) :: qs2) ++
        '\x7d' :: rest)).drop 1 =
        serializePairs ((k2, x2) :: qs2) ++ '\x7d' :: rest from rfl]
      rw [jpSkipWs_noop_pairs qs2 ('\x7d' :: rest)]
      rw [jp_obj ((k2, x2) :: qs2) hvr (by simp)
        (objInsert acc k (dedup x)) rest g (by omega)]
      rfl

end


theorem serialize_ne_nil {v : JsValue} (hv : validVal v = true) :
    1 ≤ (serialize v).length := by
  obtain ⟨c, r, hser, -⟩ := serialize_head hv
  rw [hser]
  simp

mutual

theorem jcostV_le (v : JsValue) (hv : validVal v = true) :
    jcostV v ≤ (serialize v).length := by
  match v with
  | .jundef => exact absurd hv (by simp [validVal])
  | .jnull => decide
  | .jbool true => decide
  | .jbool false => decide
  | .jstr s =>
    rw [show jcostV (JsValue.jstr s) = 1 from rfl, ser_jstr_len]
    omega
  | .jnum lex =>
    rw [show jcostV (JsValue.jnum lex) = 1 from rfl]
    exact serialize_ne_nil hv
  | .jarr xs =>
    have h1 := jcostE_le xs hv
    rw [show jcostV (JsValue.jarr xs) = jcostE xs + 1 from rfl]
    rw [show (serialize (JsValue.jarr xs)).length =
      (serializeElems xs).length + 2 from by simp [serialize]]
    omega
  | .jobj ps =>
    have h1 := jcostP_le ps hv
    rw [show jcostV (JsValue.jobj ps) = jcostP ps + 1 from rfl]
    rw [show (serialize (JsValue.jobj ps)).length =
      (serializePairs ps).length + 2 from by simp [serialize]]
    omega

theorem jcostE_le (xs : List JsValue) (hv : validList xs = true) :
    jcostE xs ≤ (serializeElems xs).length + 1 := by
  match xs with
  | [] => decide
  | [x] =>
    have hvx : validVal x = true := (Bool.and_eq_true _ _ ▸ hv).1
    have h1 := jcostV_le x hvx
    have h2 := serialize_ne_nil hvx
    rw [show jcostE [x] = max (jcostV x) (jcostE []) + 1 from rfl]
    rw [show jcostE ([] : List JsValue) = 1 from rfl]
    rw [show serializeElems [x] = serialize x from rfl]
    have hm : max (jcostV x) 1 ≤ (serialize x).length :=
      Nat.max_le.mpr ⟨h1, h2⟩
    omega
  | x :: y :: ys =>
    have hvx : validVal x = true := (Bool.and_eq_true _ _ ▸ hv).1
    have hvr : validList (y :: ys) = true := (Bool.and_eq_true _ _ ▸ hv).2
    have h1 := jcostV_le x hvx
    have h2 := jcostE_le (y :: ys) hvr
    rw [show jcostE (x :: y :: ys) =
      max (jcostV x) (jcostE (y :: ys)) + 1 from rfl]
    rw [show serializeElems (x :: y :: ys) =
      serialize x ++ ',' :: serializeElems (y :: ys) from rfl]
    have hm : max (jcostV x) (jcostE (y :: ys)) ≤
        (serialize x).length + (serializeElems (y :: ys)).length + 1 :=
      Nat.max_le.mpr ⟨by omega, by omega⟩
    simp only [List.length_append, List.length_cons]
    omega

theorem jcostP_le (ps : List (Str × JsValue)) (hv : validPairs ps = true) :
    jcostP ps ≤ (serializePairs ps).length + 1 := by
  match ps with
  | [] => decide
  | [(k, x)] =>
    have hvx : validVal x = true := (Bool.and_eq_true _ _ ▸ hv).1
    have h1 := jcostV_le x hvx
    rw [show jcostP [(k, x)] = max (jcostV x) (jcostP []) + 1 from rfl]
    rw [show jcostP ([] : List (Str × JsValue)) = 1 from rfl]
    rw [show serializePairs [(k, x)] =
      '"' :: escapeStr k ++ '"' :: ':' :: serialize x from rfl]
    have hm : max (jcostV x) 1 ≤ (serialize x).length + 2 :=
      Nat.max_le.mpr ⟨by omega, by omega⟩
    simp only [List.length_append, List.length_cons]
    omega
  | (k, x) :: q :: qs =>
    have hvx : validVal x = true := (Bool.and_eq_true _ _ ▸ hv).1
    have hvr : validPairs (q :: qs) = true := (Bool.and_eq_true _ _ ▸ hv).2
    have h1 := jcostV_le x hvx
    have h2 := jcostP_le (q :: qs) hvr
    rw [show jcostP ((k, x) :: q :: qs) =
      max (jcostV x) (jcostP (q :: qs)) + 1 from rfl]
    rw [show serializePairs ((k, x) :: q :: qs) =
      '"' :: escapeStr k ++ '"' :: ':' :: serialize x ++
        ',' :: serializePairs (q :: qs) from rfl]
    have hm : max (jcostV x) (jcostP (q :: qs)) ≤
        (serialize x).length + (serializePairs (q :: qs)).length + 1 :=
      Nat.max_le.mpr ⟨by omega, by omega⟩
    simp only [List.length_append, List.length_cons]
    omega

end

/-- `JSON.parse` recovers the (duplicate-collapsed) document from its
serialization. -/
theorem jsonParse_ser {v : JsValue} (hv : validVal v = true) :
    jsonParse (serialize v) = some (dedup v) := by
  unfold jsonParse
  have h := jp_val v hv [] (restHeadOkV_of (fun c hc => by simp at hc))
    ((serialize v).length + 1) (by have := jcostV_le v hv; omega)
  rw [List.append_nil] at h
  rw [h]
  rfl


/-! ## Phase 3: full-document engine simulation -/

/-- Scalar lookahead needed by the number/literal readers: a terminator
must follow the lexeme. -/
def termRest : JsValue → Str → Prop
  | .jnum _, rest => ∃ c r', rest = c :: r' ∧ isTermChar c = true
  | .jbool _, rest => ∃ c r', rest = c :: r' ∧ isTermChar c = true
  | .jnull, rest => ∃ c r', rest = c :: r' ∧ isTermChar c = true
  | _, _ => True

mutual

def costV : JsValue → Nat
  | .jobj ps => costPairs ps + 1
  | .jarr xs => costElems xs + 1
  | _ => 1

def costPairs : List (Str × JsValue) → Nat
  | [] => 1
  | kv :: more => costV kv.2 + costPairs more + 5

def costElems : List JsValue → Nat
  | [] => 1
  | x :: more => costV x + costElems more + 3

end

mutual

def asmVal (pats : List JsonPattern) (path : Str) : JsValue → JsValue
  | .jundef => .jundef
  | .jnull => .jnull
  | .jbool b => .jbool b
  | .jnum lex => .jnum lex
  | .jstr s => .jstr s
  | .jarr xs =>
    match determineParseStrategy pats path with
    | .skip => .jundef
    | .bulk => dedup (.jarr xs)
    | .incremental => .jarr (asmElems pats path 0 xs)
  | .jobj ps =>
    match determineParseStrategy pats path with
    | .skip => .jundef
    | .bulk => dedup (.jobj ps)
    | .incremental => .jobj (asmPairs pats path [] ps)

def asmElems (pats : List JsonPattern) (path : Str) (idx : Nat) :
    List JsValue → List JsValue
  | [] => []
  | x :: more =>
    asmVal pats (arrChildPath path idx) x :: asmElems pats path (idx + 1) more

def asmPairs (pats : List JsonPattern) (path : Str)
    (acc : List (Str × JsValue)) : List (Str × JsValue) →
    List (Str × JsValue)
  | [] => acc
  | (k, v) :: more =>
    asmPairs pats path (objInsert acc k (asmVal pats (objChildPath path k) v))
      more

end

mutual

def rawEmits (pats : List JsonPattern) (path : Str) : JsValue → List Emit
  | .jundef => [(path, .jundef)]
  | .jnull => [(path, .jnull)]
  | .jbool b => [(path, .jbool b)]
  | .jnum lex => [(path, .jnum lex)]
  | .jstr s => [(path, .jstr s)]
  | .jarr xs =>
    match determineParseStrategy pats path with
    | .skip => []
    | .bulk => [(path, dedup (.jarr xs))]
    | .incremental =>
      rawEmitsElems pats path 0 xs ++
        [(path, .jarr (asmElems pats path 0 xs))]
  | .jobj ps =>
    match determineParseStrategy pats path with
    | .skip => []
    | .bulk => [(path, dedup (.jobj ps))]
    | .incremental =>
      rawEmitsPairs pats path ps ++
        [(path, .jobj (asmPairs pats path [] ps))]

def rawEmitsElems (pats : List JsonPattern) (path : Str) (idx : Nat) :
    List JsValue → List Emit
  | [] => []
  | x :: more =>
    rawEmits pats (arrChildPath path idx) x ++
      rawEmitsElems pats path (idx + 1) more

def rawEmitsPairs (pats : List JsonPattern) (path : Str) :
    List (Str × JsValue) → List Emit
  | [] => []
  | (k, v) :: more =>
    rawEmits pats (objChildPath path k) v ++ rawEmitsPairs pats path more

end

/-- The node `_createParser` spawns for a value's first character. -/
def mkNode (pats : List JsonPattern) (path : Str) : JsValue → Node
  | .jundef => .nstr path none
  | .jnull => .nlit 'n' path none
  | .jbool true => .nlit 't' path none
  | .jbool false => .nlit 'f' path none
  | .jnum _ => .nnum path none
  | .jstr _ => .nstr path none
  | .jarr _ => createStructureParser pats path false
  | .jobj _ => createStructureParser pats path true

/-- The node state after a value has been fully consumed. -/
def doneNode (pats : List JsonPattern) (path : Str) : JsValue → Node
  | .jundef => .nstr path none
  | .jnull => .nlit 'n' path (some .jnull)
  | .jbool true => .nlit 't' path (some (.jbool true))
  | .jbool false => .nlit 'f' path (some (.jbool false))
  | .jnum lex => .nnum path (some (.jnum lex))
  | .jstr s => .nstr path (some (.jstr s))
  | .jarr xs =>
    match determineParseStrategy pats path with
    | .skip => .nskip path false 0 0 false true
    | .bulk =>
      .nbulk path false 0 0 false (serialize (.jarr xs))
        (some (dedup (.jarr xs)))
    | .incremental =>
      .narr path (asmElems pats path 0 xs) none xs.length xs.isEmpty true
        (some (.jarr (asmElems pats path 0 xs)))
  | .jobj ps =>
    match determineParseStrategy pats path with
    | .skip => .nskip path true 0 0 false true
    | .bulk =>
      .nbulk path true 0 0 false (serialize (.jobj ps))
        (some (dedup (.jobj ps)))
    | .incremental =>
      .nobj path (asmPairs pats path [] ps) none ps.isEmpty false none true
        (some (.jobj (asmPairs pats path [] ps)))

theorem costV_pos (v : JsValue) : 1 ≤ costV v := by
  cases v <;> simp [costV]

theorem costPairs_pos (ps : List (Str × JsValue)) : 1 ≤ costPairs ps := by
  cases ps <;> simp [costPairs]

theorem costElems_pos (xs : List JsValue) : 1 ≤ costElems xs := by
  cases xs <;> simp [costElems]

theorem termRest_of_head {v : JsValue} {t : Str} {c : Char} {r' : Str}
    (ht : t = c :: r') (hc : isTermChar c = true) : termRest v t := by
  cases v <;> first | exact trivial | exact ⟨c, r', ht, hc⟩

theorem doneNode_isDone {v : JsValue} (hv : validVal v = true)
    (pats : List JsonPattern) (path : Str) :
    (doneNode pats path v).isDone = true := by
  match v with
  | .jundef => exact absurd hv (by simp [validVal])
  | .jnull => rfl
  | .jbool true => rfl
  | .jbool false => rfl
  | .jnum lex => rfl
  | .jstr s => rfl
  | .jarr xs =>
    cases hstrat : determineParseStrategy pats path <;>
      simp [doneNode, hstrat, Node.isDone]
  | .jobj ps =>
    cases hstrat : determineParseStrategy pats path <;>
      simp [doneNode, hstrat, Node.isDone]

theorem doneNode_val {v : JsValue} (hv : validVal v = true)
    (pats : List JsonPattern) (path : Str) :
    (doneNode pats path v).valueResult.getD .jundef = asmVal pats path v := by
  match v with
  | .jundef => exact absurd hv (by simp [validVal])
  | .jnull => rfl
  | .jbool true => rfl
  | .jbool false => rfl
  | .jnum lex => rfl
  | .jstr s => rfl
  | .jarr xs =>
    cases hstrat : determineParseStrategy pats path <;>
      simp [doneNode, asmVal, hstrat, Node.valueResult, Option.getD]
  | .jobj ps =>
    cases hstrat : determineParseStrategy pats path <;>
      simp [doneNode, asmVal, hstrat, Node.valueResult, Option.getD]

theorem numLexValid_head {lex : Str} (hv : numLexValid lex = true) :
    ∃ c r, lex = c :: r ∧ (c = '-' ∨ ('0' ≤ c ∧ c ≤ '9')) := by
  match lex with
  | [] => exact absurd hv (by decide)
  | c :: r =>
    refine ⟨c, r, rfl, ?_⟩
    by_cases hc : c = '-'
    · exact Or.inl hc
    · right
      unfold numLexValid at hv
      rw [show minusSplit (c :: r) = if c = '-' then (1, r) else (0, c :: r) from
        rfl, if_neg hc] at hv
      dsimp only at hv
      rw [show numIntPart (c :: r) = if c = '0' then some (1, r)
            else if isDigit c then
              some ((r.takeWhile isDigit).length + 1, r.dropWhile isDigit)
            else none from rfl] at hv
      by_cases h0 : c = '0'
      · subst h0; exact ⟨by decide, by decide⟩
      · rw [if_neg h0] at hv
        by_cases hd : isDigit c
        · simp only [isDigit, Bool.and_eq_true, decide_eq_true_eq] at hd
          exact hd
        · rw [if_neg (by simpa using hd)] at hv
          simp at hv

theorem createParser_ser (pats : List JsonPattern) (path : Str) {v : JsValue}
    (hv : validVal v = true) (rest : Str) :
    createParser pats path (serialize v ++ rest) = some (mkNode pats path v) := by
  match v with
  | .jundef => exact absurd hv (by simp [validVal])
  | .jnull => rfl
  | .jbool true => rfl
  | .jbool false => rfl
  | .jstr s => rfl
  | .jarr xs => rfl
  | .jobj ps => rfl
  | .jnum lex =>
    obtain ⟨c, r, hlex, hc⟩ := numLexValid_head
      (show numLexValid lex = true by simpa [validVal] using hv)
    rw [show serialize (JsValue.jnum lex) = lex from rfl, hlex]
    show createParser pats path (c :: (r ++ rest)) = some (.nnum path none)
    have hq : ¬ c = '"' := by
      rcases hc with h | ⟨h1, h2⟩
      · subst h; decide
      · intro he; subst he; revert h1; decide
    have hcond : (c = '-' || ('0' ≤ c && c ≤ '9')) = true := by
      rcases hc with h | ⟨h1, h2⟩
      · simp [h]
      · simp [h1, h2]
    unfold createParser peekFirstChar
    simp only [List.head?]
    rw [if_neg hq, if_pos hcond]

theorem consumeWs_noop_ser {v : JsValue} (hv : validVal v = true) (t : Str) :
    consumeWhitespace (serialize v ++ t) = ([], serialize v ++ t) := by
  obtain ⟨c, r, hser, hws, -, -, -, -⟩ := serialize_head hv
  rw [hser]
  show consumeWhitespace (c :: (r ++ t)) = ([], c :: (r ++ t))
  unfold consumeWhitespace
  simp [List.takeWhile_cons, List.dropWhile_cons, hws]


theorem peek_ser {v : JsValue} (hv : validVal v = true) (t : Str) :
    ∃ c0, peekFirstChar (serialize v ++ t) = some c0 ∧
      ¬ c0 = '\x7d' ∧ ¬ c0 = ']' ∧ ¬ c0 = ',' := by
  obtain ⟨c, r, hser, -, hb, hsb, hcm, -⟩ := serialize_head hv
  exact ⟨c, by rw [hser]; rfl, hb, hsb, hcm⟩

theorem objLoop_keystep (f : Nat) (pats : List JsonPattern) (path : Str)
    (acc : List (Str × JsValue)) (accE : List Emit) (buf : Str) {k : Str}
    {buf' : Str}
    (hstep : stepNode f pats (.nkey none) buf = .ok (.nkey (some k), buf', [])) :
    objLoop (f + 1) pats path acc (some (.nkey none)) true false none true none
        buf accE =
      objLoop f pats path acc none false true (some k) true none buf' accE := by
  rw [objLoop.eq_def]
  dsimp only
  simp only [Option.isSome_none, Bool.false_eq_true, if_false]
  rw [hstep]
  dsimp only [Node.isDone, Option.isSome, Node.keyResult]
  simp only [Bool.not_true, Bool.false_eq_true, if_false, eq_self_iff_true,
    if_true, List.append_nil]

theorem objLoop_valcreate (f : Nat) (pats : List JsonPattern) (path : Str)
    (acc : List (Str × JsValue)) (accE : List Emit) (k : Str) {w : JsValue}
    (hvw : validVal w = true) (t : Str) :
    objLoop (f + 1) pats path acc none false true (some k) true none
        (serialize w ++ t) accE =
      objLoop f pats path acc (some (mkNode pats (objChildPath path k) w))
        false true (some k) true none (serialize w ++ t) accE := by
  obtain ⟨c0, hpeek, hcb, hsb, hcm⟩ := peek_ser hvw t
  rw [objLoop.eq_def]
  dsimp only
  simp only [Option.isSome_none, Bool.false_eq_true, if_false]
  rw [consumeWs_noop_ser hvw t]
  dsimp only
  rw [hpeek]
  dsimp only [Option.getD]
  rw [if_neg hcb, if_neg hcm]
  simp only [Bool.false_and, Bool.false_eq_true, if_false, eq_self_iff_true,
    if_true]
  rw [createParser_ser pats (objChildPath path k) hvw t]

theorem objLoop_valstep (f : Nat) (pats : List JsonPattern) (path : Str)
    (acc : List (Str × JsValue)) (accE : List Emit) (buf : Str) (k : Str)
    (c : Node) {c' : Node} {buf' : Str} {em : List Emit}
    (hstep : stepNode f pats c buf = .ok (c', buf', em))
    (hdone : c'.isDone = true) :
    objLoop (f + 1) pats path acc (some c) false true (some k) true none buf
        accE =
      objLoop f pats path (objInsert acc k (c'.valueResult.getD .jundef)) none
        false false none true none buf' (accE ++ em) := by
  rw [objLoop.eq_def]
  dsimp only
  simp only [Option.isSome_none, Bool.false_eq_true, if_false]
  rw [hstep]
  dsimp only
  rw [hdone]
  dsimp only [Option.getD]
  simp only [Bool.not_true, Bool.false_eq_true, if_false, eq_self_iff_true,
    if_true]

theorem arrLoop_valcreate (f : Nat) (pats : List JsonPattern) (path : Str)
    (acc : List JsValue) (idx : Nat) (accE : List Emit) {x : JsValue}
    (hvx : validVal x = true) (t : Str) :
    arrLoop (f + 1) pats path acc none idx true true none
        (serialize x ++ t) accE =
      arrLoop f pats path acc (some (mkNode pats (arrChildPath path idx) x))
        (idx + 1) true true none (serialize x ++ t) accE := by
  obtain ⟨c0, hpeek, hcb, hsb, hcm⟩ := peek_ser hvx t
  rw [arrLoop.eq_def]
  dsimp only
  simp only [Option.isSome_none, Bool.false_eq_true, if_false]
  rw [consumeWs_noop_ser hvx t]
  dsimp only
  rw [hpeek]
  dsimp only
  rw [if_neg hsb, if_neg hcm]
  simp only [eq_self_iff_true, if_true]
  rw [createParser_ser pats (arrChildPath path idx) hvx t]

theorem arrLoop_valstep (f : Nat) (pats : List JsonPattern) (path : Str)
    (acc : List JsValue) (idx : Nat) (accE : List Emit) (buf : Str)
    (c : Node) {c' : Node} {buf' : Str} {em : List Emit}
    (hstep : stepNode f pats c buf = .ok (c', buf', em))
    (hdone : c'.isDone = true) :
    arrLoop (f + 1) pats path acc (some c) idx true true none buf accE =
      arrLoop f pats path (acc ++ [c'.valueResult.getD .jundef]) none idx
        false true none buf' (accE ++ em) := by
  rw [arrLoop.eq_def]
  dsimp only
  simp only [Option.isSome_none, Bool.false_eq_true, if_false]
  rw [hstep]
  dsimp only
  rw [hdone]
  simp only [Bool.not_true, Bool.false_eq_true, if_false]


mutual

/-- Master simulation: one `executeStep` drive of a fresh node consumes the
whole serialized value, leaves the trailing input, and pushes exactly the
modelled raw emissions. -/
theorem stepVal (pats : List JsonPattern) (path : Str) (v : JsValue)
    (hv : validVal v = true) :
    ∀ (rest : Str), termRest v rest → ∀ (fuel : Nat), costV v ≤ fuel →
      stepNode fuel pats (mkNode pats path v) (serialize v ++ rest) =
        .ok (doneNode pats path v, rest, rawEmits pats path v) := by
  match v with
  | .jundef => exact absurd hv (by simp [validVal])
  | .jnull =>
    intro rest hrest fuel hfuel
    obtain ⟨c, r', rfl, hterm⟩ := hrest
    obtain ⟨f, rfl⟩ : ∃ f, fuel = f + 1 := ⟨fuel - 1, by
      have h1 : costV JsValue.jnull = 1 := rfl
      omega⟩
    rw [show stepNode (f + 1) pats (mkNode pats path .jnull)
          (serialize .jnull ++ c :: r') =
        stepLit 'n' path none (['n', 'u', 'l', 'l'] ++ c :: r') from rfl]
    rw [stepLit_ser path
      (show litWord 'n' = some ['n', 'u', 'l', 'l'] from rfl) hterm]
    rfl
  | .jbool true =>
    intro rest hrest fuel hfuel
    obtain ⟨c, r', rfl, hterm⟩ := hrest
    obtain ⟨f, rfl⟩ : ∃ f, fuel = f + 1 := ⟨fuel - 1, by
      have h1 : costV (JsValue.jbool true) = 1 := rfl
      omega⟩
    rw [show stepNode (f + 1) pats (mkNode pats path (.jbool true))
          (serialize (.jbool true) ++ c :: r') =
        stepLit 't' path none (['t', 'r', 'u', 'e'] ++ c :: r') from rfl]
    rw [stepLit_ser path
      (show litWord 't' = some ['t', 'r', 'u', 'e'] from rfl) hterm]
    rfl
  | .jbool false =>
    intro rest hrest fuel hfuel
    obtain ⟨c, r', rfl, hterm⟩ := hrest
    obtain ⟨f, rfl⟩ : ∃ f, fuel = f + 1 := ⟨fuel - 1, by
      have h1 : costV (JsValue.jbool false) = 1 := rfl
      omega⟩
    rw [show stepNode (f + 1) pats (mkNode pats path (.jbool false))
          (serialize (.jbool false) ++ c :: r') =
        stepLit 'f' path none (['f', 'a', 'l', 's', 'e'] ++ c :: r') from rfl]
    rw [stepLit_ser path
      (show litWord 'f' = some ['f', 'a', 'l', 's', 'e'] from rfl) hterm]
    rfl
  | .jnum lex =>
    intro rest hrest fuel hfuel
    obtain ⟨c, r', rfl, hterm⟩ := hrest
    obtain ⟨f, rfl⟩ : ∃ f, fuel = f + 1 := ⟨fuel - 1, by
      have h1 : costV (JsValue.jnum lex) = 1 := rfl
      omega⟩
    rw [show stepNode (f + 1) pats (mkNode pats path (.jnum lex))
          (serialize (.jnum lex) ++ c :: r') =
        stepNum path none (lex ++ c :: r') from rfl]
    rw [stepNum_ser path
      (show numLexValid lex = true by simpa [validVal] using hv) hterm]
    rfl
  | .jstr s =>
    intro rest hrest fuel hfuel
    obtain ⟨f, rfl⟩ : ∃ f, fuel = f + 1 := ⟨fuel - 1, by
      have h1 : costV (JsValue.jstr s) = 1 := rfl
      omega⟩
    rw [show stepNode (f + 1) pats (mkNode pats path (.jstr s))
          (serialize (.jstr s) ++ rest) =
        stepStr path none (serialize (.jstr s) ++ rest) from rfl]
    rw [stepStr_ser]
    rfl
  | .jobj ps =>
    intro rest hrest fuel hfuel
    have hvp : validPairs ps = true := by simpa [validVal] using hv
    have hc : costV (JsValue.jobj ps) = costPairs ps + 1 := rfl
    have hcp := costPairs_pos ps
    obtain ⟨f, rfl⟩ : ∃ f, fuel = f + 1 := ⟨fuel - 1, by omega⟩
    have hmk : mkNode pats path (.jobj ps) =
        (match determineParseStrategy pats path with
         | .skip => Node.nskip path true 0 0 false false
         | .bulk => Node.nbulk path true 0 0 false [] none
         | .incremental =>
           Node.nobj path [] none true false none false none) := rfl
    have hdn : doneNode pats path (.jobj ps) =
        (match determineParseStrategy pats path with
         | .skip => Node.nskip path true 0 0 false true
         | .bulk => Node.nbulk path true 0 0 false (serialize (.jobj ps))
             (some (dedup (.jobj ps)))
         | .incremental => Node.nobj path (asmPairs pats path [] ps) none
             ps.isEmpty false none true
             (some (.jobj (asmPairs pats path [] ps)))) := rfl
    have hre : rawEmits pats path (.jobj ps) =
        (match determineParseStrategy pats path with
         | .skip => []
         | .bulk => [(path, dedup (.jobj ps))]
         | .incremental => rawEmitsPairs pats path ps ++
             [(path, .jobj (asmPairs pats path [] ps))]) := rfl
    match hstrat : determineParseStrategy pats path with
    | .skip =>
      rw [hmk, hdn, hre, hstrat]
      dsimp only
      rw [show stepNode (f + 1) pats (Node.nskip path true 0 0 false false)
            (serialize (.jobj ps) ++ rest) =
          stepSkip path true 0 0 false false (serialize (.jobj ps) ++ rest)
            from rfl]
      rw [stepSkip_obj hvp]
    | .bulk =>
      rw [hmk, hdn, hre, hstrat]
      dsimp only
      rw [show stepNode (f + 1) pats (Node.nbulk path true 0 0 false [] none)
            (serialize (.jobj ps) ++ rest) =
          stepBulk path true 0 0 false [] none (serialize (.jobj ps) ++ rest)
            from rfl]
      rw [stepBulk_obj hvp (jsonParse_ser hv)]
    | .incremental =>
      rw [hmk, hdn, hre, hstrat]
      dsimp only
      rw [show serialize (JsValue.jobj ps) ++ rest =
            '\x7b' :: (serializePairs ps ++ '\x7d' :: rest) from by
        simp [serialize]]
      rw [show stepNode (f + 1) pats
            (Node.nobj path [] none true false none false none)
            ('\x7b' :: (serializePairs ps ++ '\x7d' :: rest)) =
          objLoop f pats path [] none true false none true none
            (serializePairs ps ++ '\x7d' :: rest) [] from rfl]
      rcases ps with _ | ⟨⟨k, w⟩, more⟩
      · obtain ⟨g, rfl⟩ : ∃ g, f = g + 1 := ⟨f - 1, by
          have h1 : costPairs ([] : List (Str × JsValue)) = 1 := rfl
          omega⟩
        rw [show serializePairs [] ++ '\x7d' :: rest = '\x7d' :: rest from rfl]
        rfl
      · rw [objRun pats path ((k, w) :: more) (List.cons_ne_nil _ _) hvp [] []
          rest f (by omega)]
        rfl
  | .jarr xs =>
    intro rest hrest fuel hfuel
    have hvl : validList xs = true := by simpa [validVal] using hv
    have hc : costV (JsValue.jarr xs) = costElems xs + 1 := rfl
    have hcp := costElems_pos xs
    obtain ⟨f, rfl⟩ : ∃ f, fuel = f + 1 := ⟨fuel - 1, by omega⟩
    have hmk : mkNode pats path (.jarr xs) =
        (match determineParseStrategy pats path with
         | .skip => Node.nskip path false 0 0 false false
         | .bulk => Node.nbulk path false 0 0 false [] none
         | .incremental =>
           Node.narr path [] none 0 true false none) := rfl
    have hdn : doneNode pats path (.jarr xs) =
        (match determineParseStrategy pats path with
         | .skip => Node.nskip path false 0 0 false true
         | .bulk => Node.nbulk path false 0 0 false (serialize (.jarr xs))
             (some (dedup (.jarr xs)))
         | .incremental => Node.narr path (asmElems pats path 0 xs) none
             xs.length xs.isEmpty true
             (some (.jarr (asmElems pats path 0 xs)))) := rfl
    have hre : rawEmits pats path (.jarr xs) =
        (match determineParseStrategy pats path with
         | .skip => []
         | .bulk => [(path, dedup (.jarr xs))]
         | .incremental => rawEmitsElems pats path 0 xs ++
             [(path, .jarr (asmElems pats path 0 xs))]) := rfl
    match hstrat : determineParseStrategy pats path with
    | .skip =>
      rw [hmk, hdn, hre, hstrat]
      dsimp only
      rw [show stepNode (f + 1) pats (Node.nskip path false 0 0 false false)
            (serialize (.jarr xs) ++ rest) =
          stepSkip path false 0 0 false false (serialize (.jarr xs) ++ rest)
            from rfl]
      rw [stepSkip_arr hvl]
    | .bulk =>
      rw [hmk, hdn, hre, hstrat]
      dsimp only
      rw [show stepNode (f + 1) pats (Node.nbulk path false 0 0 false [] none)
            (serialize (.jarr xs) ++ rest) =
          stepBulk path false 0 0 false [] none (serialize (.jarr xs) ++ rest)
            from rfl]
      rw [stepBulk_arr hvl (jsonParse_ser hv)]
    | .incremental =>
      rw [hmk, hdn, hre, hstrat]
      dsimp only
      rw [show serialize (JsValue.jarr xs) ++ rest =
            '[' :: (serializeElems xs ++ ']' :: rest) from by
        simp [serialize]]
      rw [show stepNode (f + 1) pats
            (Node.narr path [] none 0 true false none)
            ('[' :: (serializeElems xs ++ ']' :: rest)) =
          arrLoop f pats path [] none 0 true true none
            (serializeElems xs ++ ']' :: rest) [] from rfl]
      rcases xs with _ | ⟨x, more⟩
      · obtain ⟨g, rfl⟩ : ∃ g, f = g + 1 := ⟨f - 1, by
          have h1 : costElems ([] : List JsValue) = 1 := rfl
          omega⟩
        rw [show serializeElems [] ++ ']' :: rest = ']' :: rest from rfl]
        rfl
      · rw [arrRun pats path (x :: more) (List.cons_ne_nil _ _) hvl [] 0 []
          rest f (by omega)]
        simp only [List.nil_append, Nat.zero_add, List.isEmpty_cons]

/-- Master simulation of `JsonObjectParser.parse` over the serialized
remaining pairs of an open object. -/
theorem objRun (pats : List JsonPattern) (path : Str)
    (ps : List (Str × JsValue)) (hne : ps ≠ []) (hv : validPairs ps = true) :
    ∀ (acc : List (Str × JsValue)) (accE : List Emit) (rest : Str)
      (fuel : Nat), costPairs ps ≤ fuel →
      objLoop fuel pats path acc none true false none true none
          (serializePairs ps ++ '\x7d' :: rest) accE =
        .ok (.nobj path (asmPairs pats path acc ps) none false false none true
               (some (.jobj (asmPairs pats path acc ps))),
             rest,
             accE ++ (rawEmitsPairs pats path ps ++
               [(path, .jobj (asmPairs pats path acc ps))])) := by
  match ps with
  | [] => exact absurd rfl hne
  | (k, w) :: more =>
    intro acc accE rest fuel hfuel
    have hvw : validVal w = true := by
      have h := hv
      simp only [validPairs, Bool.and_eq_true] at h
      exact h.1
    have hvm : validPairs more = true := by
      have h := hv
      simp only [validPairs, Bool.and_eq_true] at h
      exact h.2
    have hcw := costV_pos w
    have hcm := costPairs_pos more
    have hce : costPairs ((k, w) :: more) = costV w + costPairs more + 5 := rfl
    obtain ⟨f1, rfl⟩ : ∃ f1, fuel = f1 + 1 := ⟨fuel - 1, by omega⟩
    obtain ⟨f2, rfl⟩ : ∃ f2, f1 = f2 + 1 := ⟨f1 - 1, by omega⟩
    obtain ⟨f3, rfl⟩ : ∃ f3, f2 = f3 + 1 := ⟨f2 - 1, by omega⟩
    obtain ⟨f4, rfl⟩ : ∃ f4, f3 = f4 + 1 := ⟨f3 - 1, by omega⟩
    obtain ⟨f5, rfl⟩ : ∃ f5, f4 = f5 + 1 := ⟨f4 - 1, by omega⟩
    rcases more with _ | ⟨q, qs⟩
    · rw [show serializePairs [(k, w)] ++ '\x7d' :: rest =
          serialize (.jstr k) ++ ':' :: (serialize w ++ '\x7d' :: rest) from by
        simp [serializePairs, serialize]]
      rw [show objLoop (f5 + 1 + 1 + 1 + 1 + 1) pats path acc none true false
            none true none
            (serialize (.jstr k) ++ ':' :: (serialize w ++ '\x7d' :: rest))
            accE =
          objLoop (f5 + 1 + 1 + 1 + 1) pats path acc (some (.nkey none)) true
            false none true none
            (serialize (.jstr k) ++ ':' :: (serialize w ++ '\x7d' :: rest))
            accE from rfl]
      have hkey : stepNode (f5 + 1 + 1 + 1) pats (Node.nkey none)
          (serialize (.jstr k) ++ ':' :: (serialize w ++ '\x7d' :: rest)) =
          .ok (.nkey (some k), serialize w ++ '\x7d' :: rest, []) := by
        rw [show stepNode (f5 + 1 + 1 + 1) pats (Node.nkey none)
              (serialize (.jstr k) ++ ':' :: (serialize w ++ '\x7d' :: rest)) =
            stepKey none
              (serialize (.jstr k) ++ ':' :: (serialize w ++ '\x7d' :: rest))
              from rfl]
        exact stepKey_ser k (serialize w ++ '\x7d' :: rest)
      rw [objLoop_keystep (f5 + 1 + 1 + 1) pats path acc accE _ hkey]
      rw [objLoop_valcreate (f5 + 1 + 1) pats path acc accE k hvw
        ('\x7d' :: rest)]
      have hstep := stepVal pats (objChildPath path k) w hvw ('\x7d' :: rest)
        (termRest_of_head rfl (by decide)) (f5 + 1) (by omega)
      rw [objLoop_valstep (f5 + 1) pats path acc accE _ k _ hstep
        (doneNode_isDone hvw pats _)]
      rw [doneNode_val hvw pats (objChildPath path k)]
      rw [show objLoop (f5 + 1) pats path
            (objInsert acc k (asmVal pats (objChildPath path k) w)) none false
            false none true none ('\x7d' :: rest)
            (accE ++ rawEmits pats (objChildPath path k) w) =
          .ok (.nobj path
                 (objInsert acc k (asmVal pats (objChildPath path k) w)) none
                 false false none true
                 (some (.jobj
                   (objInsert acc k (asmVal pats (objChildPath path k) w)))),
               rest,
               (accE ++ rawEmits pats (objChildPath path k) w) ++
                 [(path, .jobj
                   (objInsert acc k (asmVal pats (objChildPath path k) w)))])
            from rfl]
      simp only [asmPairs, rawEmitsPairs, List.append_nil, List.append_assoc]
    · rw [show serializePairs ((k, w) :: q :: qs) ++ '\x7d' :: rest =
          serialize (.jstr k) ++ ':' :: (serialize w ++
            ',' :: (serializePairs (q :: qs) ++ '\x7d' :: rest)) from by
        simp [serializePairs, serialize]]
      rw [show objLoop (f5 + 1 + 1 + 1 + 1 + 1) pats path acc none true false
            none true none
            (serialize (.jstr k) ++ ':' :: (serialize w ++
              ',' :: (serializePairs (q :: qs) ++ '\x7d' :: rest))) accE =
          objLoop (f5 + 1 + 1 + 1 + 1) pats path acc (some (.nkey none)) true
            false none true none
            (serialize (.jstr k) ++ ':' :: (serialize w ++
              ',' :: (serializePairs (q :: qs) ++ '\x7d' :: rest))) accE
            from rfl]
      have hkey : stepNode (f5 + 1 + 1 + 1) pats (Node.nkey none)
          (serialize (.jstr k) ++ ':' :: (serialize w ++
            ',' :: (serializePairs (q :: qs) ++ '\x7d' :: rest))) =
          .ok (.nkey (some k),
               serialize w ++
                 ',' :: (serializePairs (q :: qs) ++ '\x7d' :: rest), []) := by
        rw [show stepNode (f5 + 1 + 1 + 1) pats (Node.nkey none)
              (serialize (.jstr k) ++ ':' :: (serialize w ++
                ',' :: (serializePairs (q :: qs) ++ '\x7d' :: rest))) =
            stepKey none
              (serialize (.jstr k) ++ ':' :: (serialize w ++
                ',' :: (serializePairs (q :: qs) ++ '\x7d' :: rest)))
              from rfl]
        exact stepKey_ser k _
      rw [objLoop_keystep (f5 + 1 + 1 + 1) pats path acc accE _ hkey]
      rw [objLoop_valcreate (f5 + 1 + 1) pats path acc accE k hvw
        (',' :: (serializePairs (q :: qs) ++ '\x7d' :: rest))]
      have hstep := stepVal pats (objChildPath path k) w hvw
        (',' :: (serializePairs (q :: qs) ++ '\x7d' :: rest))
        (termRest_of_head rfl (by decide)) (f5 + 1) (by omega)
      rw [objLoop_valstep (f5 + 1) pats path acc accE _ k _ hstep
        (doneNode_isDone hvw pats _)]
      rw [doneNode_val hvw pats (objChildPath path k)]
      rw [show objLoop (f5 + 1) pats path
            (objInsert acc k (asmVal pats (objChildPath path k) w)) none false
            false none true none
            (',' :: (serializePairs (q :: qs) ++ '\x7d' :: rest))
            (accE ++ rawEmits pats (objChildPath path k) w) =
          objLoop f5 pats path
            (objInsert acc k (asmVal pats (objChildPath path k) w)) none true
            false none true none (serializePairs (q :: qs) ++ '\x7d' :: rest)
            (accE ++ rawEmits pats (objChildPath path k) w) from rfl]
      rw [objRun pats path (q :: qs) (List.cons_ne_nil _ _) hvm
        (objInsert acc k (asmVal pats (objChildPath path k) w))
        (accE ++ rawEmits pats (objChildPath path k) w) rest f5 (by omega)]
      simp only [asmPairs, rawEmitsPairs, List.append_assoc]

/-- Master simulation of `JsonArrayParser.parse` over the serialized
remaining elements of an open array. -/
theorem arrRun (pats : List JsonPattern) (path : Str) (xs : List JsValue)
    (hne : xs ≠ []) (hv : validList xs = true) :
    ∀ (acc : List JsValue) (idx : Nat) (accE : List Emit) (rest : Str)
      (fuel : Nat), costElems xs ≤ fuel →
      arrLoop fuel pats path acc none idx true true none
          (serializeElems xs ++ ']' :: rest) accE =
        .ok (.narr path (acc ++ asmElems pats path idx xs) none
               (idx + xs.length) false true
               (some (.jarr (acc ++ asmElems pats path idx xs))),
             rest,
             accE ++ (rawEmitsElems pats path idx xs ++
               [(path, .jarr (acc ++ asmElems pats path idx xs))])) := by
  match xs with
  | [] => exact absurd rfl hne
  | x :: more =>
    intro acc idx accE rest fuel hfuel
    have hvx : validVal x = true := by
      have h := hv
      simp only [validList, Bool.and_eq_true] at h
      exact h.1
    have hvm : validList more = true := by
      have h := hv
      simp only [validList, Bool.and_eq_true] at h
      exact h.2
    have hcx := costV_pos x
    have hcm := costElems_pos more
    have hce : costElems (x :: more) = costV x + costElems more + 3 := rfl
    obtain ⟨f1, rfl⟩ : ∃ f1, fuel = f1 + 1 := ⟨fuel - 1, by omega⟩
    obtain ⟨f2, rfl⟩ : ∃ f2, f1 = f2 + 1 := ⟨f1 - 1, by omega⟩
    obtain ⟨f3, rfl⟩ : ∃ f3, f2 = f3 + 1 := ⟨f2 - 1, by omega⟩
    rcases more with _ | ⟨q, qs⟩
    · rw [show serializeElems [x] ++ ']' :: rest =
          serialize x ++ ']' :: rest from by simp [serializeElems]]
      rw [arrLoop_valcreate (f3 + 1 + 1) pats path acc idx accE hvx
        (']' :: rest)]
      have hstep := stepVal pats (arrChildPath path idx) x hvx (']' :: rest)
        (termRest_of_head rfl (by decide)) (f3 + 1) (by omega)
      rw [arrLoop_valstep (f3 + 1) pats path acc (idx + 1) accE _ _ hstep
        (doneNode_isDone hvx pats _)]
      rw [doneNode_val hvx pats (arrChildPath path idx)]
      rw [show arrLoop (f3 + 1) pats path
            (acc ++ [asmVal pats (arrChildPath path idx) x]) none (idx + 1)
            false true none (']' :: rest)
            (accE ++ rawEmits pats (arrChildPath path idx) x) =
          .ok (.narr path (acc ++ [asmVal pats (arrChildPath path idx) x])
                 none (idx + 1) false true
                 (some (.jarr
                   (acc ++ [asmVal pats (arrChildPath path idx) x]))),
               rest,
               (accE ++ rawEmits pats (arrChildPath path idx) x) ++
                 [(path, .jarr
                   (acc ++ [asmVal pats (arrChildPath path idx) x]))])
            from rfl]
      simp only [asmElems, rawEmitsElems, List.append_nil, List.append_assoc,
        List.length_cons, List.length_nil]
    · rw [show serializeElems (x :: q :: qs) ++ ']' :: rest =
          serialize x ++
            ',' :: (serializeElems (q :: qs) ++ ']' :: rest) from by
        simp [serializeElems]]
      rw [arrLoop_valcreate (f3 + 1 + 1) pats path acc idx accE hvx
        (',' :: (serializeElems (q :: qs) ++ ']' :: rest))]
      have hstep := stepVal pats (arrChildPath path idx) x hvx
        (',' :: (serializeElems (q :: qs) ++ ']' :: rest))
        (termRest_of_head rfl (by decide)) (f3 + 1) (by omega)
      rw [arrLoop_valstep (f3 + 1) pats path acc (idx + 1) accE _ _ hstep
        (doneNode_isDone hvx pats _)]
      rw [doneNode_val hvx pats (arrChildPath path idx)]
      rw [show arrLoop (f3 + 1) pats path
            (acc ++ [asmVal pats (arrChildPath path idx) x]) none (idx + 1)
            false true none
            (',' :: (serializeElems (q :: qs) ++ ']' :: rest))
            (accE ++ rawEmits pats (arrChildPath path idx) x) =
          arrLoop f3 pats path
            (acc ++ [asmVal pats (arrChildPath path idx) x]) none (idx + 1)
            true true none (serializeElems (q :: qs) ++ ']' :: rest)
            (accE ++ rawEmits pats (arrChildPath path idx) x) from rfl]
      rw [arrRun pats path (q :: qs) (List.cons_ne_nil _ _) hvm
        (acc ++ [asmVal pats (arrChildPath path idx) x]) (idx + 1)
        (accE ++ rawEmits pats (arrChildPath path idx) x) rest f3 (by omega)]
      have hidx : idx + 1 + (q :: qs).length = idx + (x :: q :: qs).length := by
        simp only [List.length_cons]
        omega
      rw [hidx]
      simp only [asmElems, rawEmitsElems, List.append_assoc,
        List.cons_append, List.nil_append]

end


/-- Engine master theorem: feeding the whole serialized document as one
chunk delivers exactly the filtered modelled emissions and finalizes
cleanly. -/
theorem runEngine_ser (pats : List JsonPattern) (doc : JsValue)
    (hv : validVal doc = true) (hterm : termRest doc [])
    (fuel : Nat) (hfuel : costV doc ≤ fuel) :
    runEngine fuel pats [serialize doc] =
      (deliver pats (rawEmits pats ['$'] doc), none) := by
  have hcw : consumeWhitespace (serialize doc) = ([], serialize doc) := by
    have h := consumeWs_noop_ser hv []
    rwa [List.append_nil] at h
  have hcp : createParser pats ['$'] (serialize doc) =
      some (mkNode pats ['$'] doc) := by
    have h := createParser_ser pats ['$'] hv []
    rwa [List.append_nil] at h
  have hsv : stepNode fuel pats (mkNode pats ['$'] doc) (serialize doc) =
      .ok (doneNode pats ['$'] doc, [], rawEmits pats ['$'] doc) := by
    have h := stepVal pats ['$'] doc hv [] hterm fuel hfuel
    rwa [List.append_nil] at h
  simp only [runEngine, runChunksAux, transformChunk]
  rw [List.nil_append, hcw]
  rw [show (([] : Str), serialize doc).2 = serialize doc from rfl]
  rw [hcp]
  dsimp only
  rw [hsv]
  dsimp only
  rw [List.nil_append]
  simp only [flushCheck]
  rw [doneNode_isDone hv]
  simp only [Bool.not_true, Bool.false_eq_true, if_false]
  rfl


/-! ## Phase 5: value positions and pattern hiding -/

mutual

/-- All value positions of a document: each position's path and subtree. -/
def positions (path : Str) : JsValue → List (Str × JsValue)
  | .jundef => [(path, .jundef)]
  | .jnull => [(path, .jnull)]
  | .jbool b => [(path, .jbool b)]
  | .jnum lex => [(path, .jnum lex)]
  | .jstr s => [(path, .jstr s)]
  | .jarr xs => (path, .jarr xs) :: posElems path 0 xs
  | .jobj ps => (path, .jobj ps) :: posPairs path ps

def posElems (path : Str) (idx : Nat) : List JsValue → List (Str × JsValue)
  | [] => []
  | x :: more =>
    positions (arrChildPath path idx) x ++ posElems path (idx + 1) more

def posPairs (path : Str) : List (Str × JsValue) → List (Str × JsValue)
  | [] => []
  | (k, v) :: more =>
    positions (objChildPath path k) v ++ posPairs path more

end

/-- `q` lies strictly below `path` in the path tree: it extends it by a
non-empty suffix opening with a `.` or `[` child step. -/
def below (path q : Str) : Prop :=
  ∃ ext, q = path ++ ext ∧ ext ≠ [] ∧
    (ext.head? = some '.' ∨ ext.head? = some '[')

theorem objChildPath_eq (path k : Str) :
    objChildPath path k = path ++ '.' :: k := by
  unfold objChildPath
  by_cases h : path = ['$']
  · rw [if_pos h, h]
    rfl
  · rw [if_neg h]

theorem below_child_obj (path k : Str) : below path (objChildPath path k) :=
  ⟨'.' :: k, by rw [objChildPath_eq], by simp, Or.inl rfl⟩

theorem below_child_arr (path : Str) (idx : Nat) :
    below path (arrChildPath path idx) :=
  ⟨'[' :: ((Nat.repr idx).data ++ [']']),
   by simp [arrChildPath, List.append_assoc], by simp, Or.inr rfl⟩

theorem below_trans {p q r : Str} (h1 : below p q) (h2 : below q r) :
    below p r := by
  obtain ⟨e1, rfl, hne1, hh1⟩ := h1
  obtain ⟨e2, rfl, hne2, hh2⟩ := h2
  refine ⟨e1 ++ e2, by rw [List.append_assoc], by simp [hne1], ?_⟩
  obtain ⟨c, cs, rfl⟩ : ∃ c cs, e1 = c :: cs := by
    cases e1
    · exact absurd rfl hne1
    · exact ⟨_, _, rfl⟩
  simpa using hh1

mutual

theorem positions_shape (path : Str) (v : JsValue) :
    ∀ q w, (q, w) ∈ positions path v → q = path ∨ below path q := by
  match v with
  | .jundef => intro q w h; simp [positions] at h; exact Or.inl h.1
  | .jnull => intro q w h; simp [positions] at h; exact Or.inl h.1
  | .jbool b => intro q w h; simp [positions] at h; exact Or.inl h.1
  | .jnum lex => intro q w h; simp [positions] at h; exact Or.inl h.1
  | .jstr s => intro q w h; simp [positions] at h; exact Or.inl h.1
  | .jarr xs =>
    intro q w h
    rw [show positions path (.jarr xs) =
        (path, JsValue.jarr xs) :: posElems path 0 xs from rfl] at h
    rcases List.mem_cons.mp h with h | h
    · exact Or.inl (congrArg Prod.fst h)
    · exact Or.inr (posElems_below path 0 xs q w h)
  | .jobj ps =>
    intro q w h
    rw [show positions path (.jobj ps) =
        (path, JsValue.jobj ps) :: posPairs path ps from rfl] at h
    rcases List.mem_cons.mp h with h | h
    · exact Or.inl (congrArg Prod.fst h)
    · exact Or.inr (posPairs_below path ps q w h)

theorem posElems_below (path : Str) (idx : Nat) (xs : List JsValue) :
    ∀ q w, (q, w) ∈ posElems path idx xs → below path q := by
  match xs with
  | [] => intro q w h; simp [posElems] at h
  | x :: more =>
    intro q w h
    rw [show posElems path idx (x :: more) =
        positions (arrChildPath path idx) x ++ posElems path (idx + 1) more
        from rfl] at h
    rcases List.mem_append.mp h with h | h
    · rcases positions_shape (arrChildPath path idx) x q w h with h | h
      · rw [h]
        exact below_child_arr path idx
      · exact below_trans (below_child_arr path idx) h
    · exact posElems_below path (idx + 1) more q w h

theorem posPairs_below (path : Str) (ps : List (Str × JsValue)) :
    ∀ q w, (q, w) ∈ posPairs path ps → below path q := by
  match ps with
  | [] => intro q w h; simp [posPairs] at h
  | (k, v) :: more =>
    intro q w h
    rw [show posPairs path ((k, v) :: more) =
        positions (objChildPath path k) v ++ posPairs path more from rfl] at h
    rcases List.mem_append.mp h with h | h
    · rcases positions_shape (objChildPath path k) v q w h with h | h
      · rw [h]
        exact below_child_obj path k
      · exact below_trans (below_child_obj path k) h
    · exact posPairs_below path more q w h

end

theorem aw_digits_mem {b : Bool} {u : Str} (h : awDigits b u = true)
    {c : Char} (hc : c ∈ u) : isDigit c = true ∨ c = ']' := by
  match u with
  | [] => simp at hc
  | [x] =>
    simp only [awDigits, Bool.and_eq_true, decide_eq_true_eq] at h
    rw [List.mem_singleton.mp hc]
    exact Or.inr h.2
  | x :: y :: rest =>
    rw [show awDigits b (x :: y :: rest) =
        (isDigit x && awDigits (b || true) (y :: rest)) from rfl,
      Bool.and_eq_true] at h
    rcases List.mem_cons.mp hc with rfl | hc
    · exact Or.inl h.1
    · exact aw_digits_mem h.2 hc

theorem awDigits_append_ne {b : Bool} {u ext : Str}
    (h : awDigits b u = true) (hne : ext ≠ []) :
    awDigits b (u ++ ext) = false := by
  match u with
  | [] => simp [awDigits] at h
  | [x] =>
    simp only [awDigits, Bool.and_eq_true, decide_eq_true_eq] at h
    obtain ⟨e, es, rfl⟩ : ∃ e es, ext = e :: es := by
      cases ext
      · exact absurd rfl hne
      · exact ⟨_, _, rfl⟩
    rw [h.2]
    rw [show ([']'] : Str) ++ e :: es = ']' :: e :: es from rfl]
    rw [show awDigits b (']' :: e :: es) =
        (isDigit ']' && awDigits (b || true) (e :: es)) from rfl]
    simp [isDigit]
  | x :: y :: rest =>
    rw [show awDigits b (x :: y :: rest) =
        (isDigit x && awDigits (b || true) (y :: rest)) from rfl,
      Bool.and_eq_true] at h
    rw [show (x :: y :: rest) ++ ext = x :: y :: (rest ++ ext) from rfl]
    have hrec : awDigits (b || true) (y :: (rest ++ ext)) = false :=
      awDigits_append_ne h.2 hne
    rw [show awDigits b (x :: y :: (rest ++ ext)) =
        (isDigit x && awDigits (b || true) (y :: (rest ++ ext))) from rfl]
    rw [hrec, Bool.and_false]

theorem awTail_shape {t : Str} (h : awTail t = true) :
    ∃ u, t = '[' :: u ∧ awDigits false u = true := by
  cases t with
  | nil => simp [awTail] at h
  | cons c rest =>
    rw [show awTail (c :: rest) = (c = '[' && awDigits false rest) from rfl,
      Bool.and_eq_true, decide_eq_true_eq] at h
    exact ⟨rest, by rw [h.1], h.2⟩

theorem iPDO_self {jp : JsonPattern} {path : Str}
    (h : jp.basePath = path) : isPatternDescendantOf jp path = true := by
  unfold isPatternDescendantOf
  rw [h]
  rw [show path.isPrefixOf path = true from
    List.isPrefixOf_iff_prefix.mpr ⟨[], by simp⟩]
  rw [Bool.true_and, List.drop_length]

theorem iPDO_between {jp : JsonPattern} {path : Str} {e0 : Char} {es : Str}
    (he0 : e0 = '.' ∨ e0 = '[')
    (hpb : path <+: jp.basePath) (hbq : jp.basePath <+: path ++ e0 :: es) :
    isPatternDescendantOf jp path = true := by
  obtain ⟨d, hd⟩ := hpb
  unfold isPatternDescendantOf
  rw [show path.isPrefixOf jp.basePath = true from
    List.isPrefixOf_iff_prefix.mpr ⟨d, hd⟩]
  rw [Bool.true_and]
  rw [show jp.basePath.drop path.length = d from by rw [← hd, List.drop_left]]
  cases d with
  | nil => rfl
  | cons dc ds =>
    obtain ⟨t2, ht2⟩ := hbq
    rw [← hd, List.append_assoc] at ht2
    have h2 : dc :: (ds ++ t2) = e0 :: es := by
      have := List.append_cancel_left ht2
      simpa using this
    have hdc : dc = e0 := (List.cons.injEq _ _ _ _ ▸ h2).1
    rcases he0 with h | h <;> rw [hdc, h] <;> rfl


theorem patMatch_below {jp : JsonPattern}
    (hb : jp.type = PatType.exact → jp.basePath = jp.pattern)
    {path : Str} {e0 : Char} {es : Str} (he0 : e0 = '.' ∨ e0 = '[')
    (hm : patMatch jp (path ++ e0 :: es) = true) :
    isPatternDescendantOf jp path = true := by
  unfold patMatch at hm
  rw [if_neg (by simp : ¬ path ++ e0 :: es = [])] at hm
  cases htype : jp.type with
  | exact =>
    rw [htype] at hm
    simp only [decide_eq_true_eq] at hm
    exact iPDO_between he0 (by rw [hb htype, hm]; exact ⟨e0 :: es, rfl⟩)
      (by rw [hb htype, hm])
  | arrayWildcard =>
    rw [htype] at hm
    unfold arrayWildcardTest at hm
    rw [Bool.and_eq_true] at hm
    obtain ⟨hpre, hawt⟩ := hm
    have hbq : jp.basePath <+: path ++ e0 :: es :=
      List.isPrefixOf_iff_prefix.mp hpre
    rcases List.prefix_or_prefix_of_prefix hbq
      (List.prefix_append path (e0 :: es)) with hbp | hpb
    · obtain ⟨t, hbt⟩ := hbp
      have hdrop : (path ++ e0 :: es).drop jp.basePath.length =
          t ++ e0 :: es := by
        rw [← hbt, List.append_assoc, List.drop_left]
      rw [hdrop] at hawt
      obtain ⟨u, hu, hdig⟩ := awTail_shape hawt
      cases t with
      | nil =>
        exact iPDO_self (by rw [← hbt, List.append_nil])
      | cons tc ts =>
        rw [List.cons_append] at hu
        have hu2 : ts ++ e0 :: es = u := (List.cons.injEq _ _ _ _ ▸ hu).2
        have he0u : e0 ∈ u := by
          rw [← hu2]
          exact List.mem_append_right ts (List.mem_cons_self _ _)
        rcases aw_digits_mem hdig he0u with hd | hd <;>
          rcases he0 with h | h <;> rw [h] at hd <;> simp [isDigit] at hd
    · exact iPDO_between he0 hpb hbq
  | objectWildcard =>
    rw [htype] at hm
    unfold matchObjectWildcard at hm
    simp only [Bool.and_eq_true, decide_eq_true_eq, Bool.not_eq_true'] at hm
    obtain ⟨hpre, ⟨hrne, hnd⟩, hnb⟩ := hm
    have hbq1 : jp.basePath ++ ['.'] <+: path ++ e0 :: es :=
      List.isPrefixOf_iff_prefix.mp hpre
    have hbq : jp.basePath <+: path ++ e0 :: es :=
      (List.prefix_append jp.basePath ['.']).trans hbq1
    rcases List.prefix_or_prefix_of_prefix hbq
      (List.prefix_append path (e0 :: es)) with hbp | hpb
    · obtain ⟨t, hbt⟩ := hbp
      obtain ⟨u, hu⟩ := hbq1
      have hdropu : (path ++ e0 :: es).drop (jp.basePath ++ ['.']).length =
          u := by
        rw [← hu, List.drop_left]
      have hcu : '.' :: u = t ++ e0 :: es := by
        have h1 : jp.basePath ++ '.' :: u = jp.basePath ++ (t ++ e0 :: es) := by
          rw [show jp.basePath ++ '.' :: u =
              (jp.basePath ++ ['.']) ++ u from by simp, hu, ← hbt,
            List.append_assoc]
        exact List.append_cancel_left h1
      cases t with
      | nil =>
        exact iPDO_self (by rw [← hbt, List.append_nil])
      | cons tc ts =>
        rw [List.cons_append] at hcu
        have hu2 : u = ts ++ e0 :: es := (List.cons.injEq _ _ _ _ ▸ hcu).2
        have he0u : e0 ∈ u := by
          rw [hu2]
          exact List.mem_append_right ts (List.mem_cons_self _ _)
        rw [hdropu] at hnd hnb
        rcases he0 with h | h
        · rw [h] at he0u
          rw [show u.contains '.' = u.elem '.' from rfl,
            List.elem_iff.mpr he0u] at hnd
          simp at hnd
        · rw [h] at he0u
          rw [show u.contains '[' = u.elem '[' from rfl,
            List.elem_iff.mpr he0u] at hnb
          simp at hnb
    · exact iPDO_between he0 hpb hbq


theorem patMatch_not_both {jp : JsonPattern} {path : Str} {e0 : Char}
    {es : Str} (he0 : e0 = '.' ∨ e0 = '[')
    (hm : patMatch jp (path ++ e0 :: es) = true)
    (hm2 : patMatch jp path = true) : False := by
  unfold patMatch at hm hm2
  rw [if_neg (by simp : ¬ path ++ e0 :: es = [])] at hm
  by_cases hpe : path = []
  · rw [if_pos hpe] at hm2
    simp at hm2
  · rw [if_neg hpe] at hm2
    cases htype : jp.type with
    | exact =>
      rw [htype] at hm hm2
      simp only [decide_eq_true_eq] at hm hm2
      have : path ++ e0 :: es = path := by rw [← hm, hm2]
      simpa using congrArg List.length this
    | arrayWildcard =>
      rw [htype] at hm hm2
      unfold arrayWildcardTest at hm hm2
      rw [Bool.and_eq_true] at hm hm2
      obtain ⟨hpre2, hawt2⟩ := hm2
      obtain ⟨hpre, hawt⟩ := hm
      obtain ⟨t, hbt⟩ := List.isPrefixOf_iff_prefix.mp hpre2
      have hd2 : path.drop jp.basePath.length = t := by
        rw [← hbt, List.drop_left]
      rw [hd2] at hawt2
      have hd1 : (path ++ e0 :: es).drop jp.basePath.length =
          t ++ e0 :: es := by
        rw [← hbt, List.append_assoc, List.drop_left]
      rw [hd1] at hawt
      obtain ⟨u, rfl, hdig⟩ := awTail_shape hawt2
      rw [show ('[' :: u) ++ e0 :: es = '[' :: (u ++ e0 :: es) from rfl] at hawt
      rw [show awTail ('[' :: (u ++ e0 :: es)) =
          ('[' = '[' && awDigits false (u ++ e0 :: es)) from rfl] at hawt
      rw [awDigits_append_ne hdig (by simp)] at hawt
      simp at hawt
    | objectWildcard =>
      rw [htype] at hm hm2
      unfold matchObjectWildcard at hm hm2
      simp only [Bool.and_eq_true, decide_eq_true_eq,
        Bool.not_eq_true'] at hm hm2
      obtain ⟨hpre2, ⟨hrne2, hnd2⟩, hnb2⟩ := hm2
      obtain ⟨hpre, ⟨hrne, hnd⟩, hnb⟩ := hm
      obtain ⟨u1, hu1⟩ := List.isPrefixOf_iff_prefix.mp hpre2
      have hd2 : path.drop (jp.basePath ++ ['.']).length = u1 := by
        rw [← hu1, List.drop_left]
      have hd1 : (path ++ e0 :: es).drop (jp.basePath ++ ['.']).length =
          u1 ++ e0 :: es := by
        rw [← hu1, List.append_assoc, List.drop_left]
      rw [hd1] at hnd hnb
      rcases he0 with h | h
      · subst h
        have he0u : '.' ∈ u1 ++ '.' :: es :=
          List.mem_append_right u1 (List.mem_cons_self _ _)
        rw [show (u1 ++ '.' :: es).contains '.' = (u1 ++ '.' :: es).elem '.'
            from rfl, List.elem_iff.mpr he0u] at hnd
        simp at hnd
      · subst h
        have he0u : '[' ∈ u1 ++ '[' :: es :=
          List.mem_append_right u1 (List.mem_cons_self _ _)
        rw [show (u1 ++ '[' :: es).contains '[' = (u1 ++ '[' :: es).elem '['
            from rfl, List.elem_iff.mpr he0u] at hnb
        simp at hnb

theorem parsePattern_exact_base {src : Str} {jp : JsonPattern}
    (h : parsePattern src = some jp) (ht : jp.type = PatType.exact) :
    jp.basePath = jp.pattern := by
  unfold parsePattern at h
  by_cases h0 : src = []
  · rw [if_pos h0] at h
    exact absurd h (by simp)
  · rw [if_neg h0] at h
    cases hdt : determineType src with
    | none =>
      rw [hdt] at h
      exact absurd h (by simp)
    | some t =>
      rw [hdt] at h
      obtain rfl : jp = ⟨src, t, extractBasePath src t⟩ :=
        (Option.some_inj.mp h).symm
      dsimp only at ht ⊢
      rw [ht]
      rfl

/-- If a strict path-descendant of `path` is matched by a configured
pattern, the strategy at `path` is incremental. -/
theorem matched_below_incremental {pats : List JsonPattern}
    (hp : ∀ jp ∈ pats, ∃ src, parsePattern src = some jp)
    {path q : Str} (hbelow : below path q) {jp : JsonPattern}
    (hjp : jp ∈ pats) (hm : patMatch jp q = true) :
    determineParseStrategy pats path = .incremental := by
  obtain ⟨ext, rfl, hne, hh⟩ := hbelow
  obtain ⟨e0, es, rfl⟩ : ∃ e0 es, ext = e0 :: es := by
    cases ext
    · exact absurd rfl hne
    · exact ⟨_, _, rfl⟩
  have he0 : e0 = '.' ∨ e0 = '[' := by
    rcases hh with h | h
    · exact Or.inl (by simpa using h)
    · exact Or.inr (by simpa using h)
  have hb : jp.type = PatType.exact → jp.basePath = jp.pattern := by
    intro ht
    obtain ⟨src, hsrc⟩ := hp jp hjp
    exact parsePattern_exact_base hsrc ht
  have hipdo := patMatch_below hb he0 hm
  unfold determineParseStrategy
  by_cases hmd : pats.any (fun jp => hasMatchingDescendants jp path) = true
  · rw [if_pos hmd]
  · exfalso
    have hmdjp : hasMatchingDescendants jp path = false := by
      rw [Bool.eq_false_iff]
      intro hcon
      exact hmd (List.any_eq_true.mpr ⟨jp, hjp, hcon⟩)
    unfold hasMatchingDescendants at hmdjp
    by_cases hpm : patMatch jp path = true
    · exact patMatch_not_both he0 hm hpm
    · rw [if_neg (by simpa using hpm), hipdo] at hmdjp
      simp at hmdjp


theorem strat_skip_facts {pats : List JsonPattern} {path : Str}
    (h : determineParseStrategy pats path = .skip) :
    pats.any (fun jp => patMatch jp path) = false := by
  unfold determineParseStrategy at h
  by_cases h1 : pats.any (fun jp => hasMatchingDescendants jp path) = true
  · rw [if_pos h1] at h
    exact absurd h (by simp)
  · rw [if_neg h1] at h
    by_cases h2 : pats.any (fun jp => patMatch jp path) = true
    · rw [if_pos h2] at h
      exact absurd h (by simp)
    · exact Bool.eq_false_iff.mpr h2

theorem deliver_count {pats : List JsonPattern} {q : Str}
    (hq : pats.any (fun jp => patMatch jp q) = true) (raw : List Emit) :
    ((deliver pats raw).map Prod.fst).count q =
      (raw.map Prod.fst).count q := by
  induction raw with
  | nil => rfl
  | cons e r ih =>
    unfold deliver at ih ⊢
    by_cases hpe : pats.any (fun jp => patMatch jp e.1) = true
    · simp only [List.filter_cons, hpe, if_true]
      simp only [List.map_cons, List.count_cons]
      rw [ih]
    · have hpe' : pats.any (fun jp => patMatch jp e.1) = false :=
        Bool.eq_false_iff.mpr hpe
      simp only [List.filter_cons, hpe', Bool.false_eq_true, if_false]
      rw [ih]
      simp only [List.map_cons, List.count_cons]
      have hne : (e.1 == q) = false := by
        rw [beq_eq_false_iff_ne]
        intro hcon
        rw [hcon] at hpe
        exact hpe hq
      rw [hne]
      simp

theorem below_not_skip {pats : List JsonPattern}
    (hp : ∀ jp ∈ pats, ∃ src, parsePattern src = some jp) {q : Str}
    (hq : pats.any (fun jp => patMatch jp q) = true) {path : Str}
    {ps : List (Str × JsValue)}
    (hmem : q ∈ (posPairs path ps).map Prod.fst) :
    determineParseStrategy pats path = .incremental := by
  obtain ⟨x, hx, hfst⟩ := List.mem_map.mp hmem
  obtain ⟨jp, hjp, hpm⟩ := List.any_eq_true.mp hq
  have hbel : below path q := by
    rw [← hfst]
    exact posPairs_below path ps x.1 x.2 hx
  exact matched_below_incremental hp hbel hjp hpm

theorem below_not_skip_arr {pats : List JsonPattern}
    (hp : ∀ jp ∈ pats, ∃ src, parsePattern src = some jp) {q : Str}
    (hq : pats.any (fun jp => patMatch jp q) = true) {path : Str} {idx : Nat}
    {xs : List JsValue}
    (hmem : q ∈ (posElems path idx xs).map Prod.fst) :
    determineParseStrategy pats path = .incremental := by
  obtain ⟨x, hx, hfst⟩ := List.mem_map.mp hmem
  obtain ⟨jp, hjp, hpm⟩ := List.any_eq_true.mp hq
  have hbel : below path q := by
    rw [← hfst]
    exact posElems_below path idx xs x.1 x.2 hx
  exact matched_below_incremental hp hbel hjp hpm

mutual

/-- For a matched path `q`, the raw emissions at `q` are in bijection with
the value positions at `q`: the filter-completeness count identity. -/
theorem rawCount_val (pats : List JsonPattern)
    (hp : ∀ jp ∈ pats, ∃ src, parsePattern src = some jp) (q : Str)
    (hq : pats.any (fun jp => patMatch jp q) = true) (path : Str)
    (v : JsValue) :
    ((rawEmits pats path v).map Prod.fst).count q =
      ((positions path v).map Prod.fst).count q := by
  match v with
  | .jundef => rfl
  | .jnull => rfl
  | .jbool b => rfl
  | .jnum lex => rfl
  | .jstr s => rfl
  | .jobj ps =>
    have hre : rawEmits pats path (.jobj ps) =
        (match determineParseStrategy pats path with
         | .skip => []
         | .bulk => [(path, dedup (.jobj ps))]
         | .incremental => rawEmitsPairs pats path ps ++
             [(path, .jobj (asmPairs pats path [] ps))]) := rfl
    have hpos : positions path (.jobj ps) =
        (path, JsValue.jobj ps) :: posPairs path ps := rfl
    cases hstrat : determineParseStrategy pats path with
    | skip =>
      rw [hre, hstrat, hpos]
      simp only [List.map_nil, List.count_nil, List.map_cons, List.count_cons]
      have h1 : (path == q) = false := by
        rw [beq_eq_false_iff_ne]
        intro hcon
        rw [← hcon, strat_skip_facts hstrat] at hq
        exact Bool.false_ne_true hq
      have h2 : ((posPairs path ps).map Prod.fst).count q = 0 := by
        rw [List.count_eq_zero]
        intro hcon
        rw [below_not_skip hp hq hcon] at hstrat
        exact Strat.noConfusion hstrat
      rw [h1, h2]
      simp
    | bulk =>
      rw [hre, hstrat, hpos]
      simp only [List.map_cons, List.count_cons, List.map_nil, List.count_nil]
      have h2 : ((posPairs path ps).map Prod.fst).count q = 0 := by
        rw [List.count_eq_zero]
        intro hcon
        rw [below_not_skip hp hq hcon] at hstrat
        exact Strat.noConfusion hstrat
      rw [h2]
    | incremental =>
      rw [hre, hstrat, hpos]
      rw [List.map_append, List.count_append]
      rw [rawCount_pairs pats hp q hq path ps]
      simp only [List.map_cons, List.count_cons, List.map_nil, List.count_nil]
      omega
  | .jarr xs =>
    have hre : rawEmits pats path (.jarr xs) =
        (match determineParseStrategy pats path with
         | .skip => []
         | .bulk => [(path, dedup (.jarr xs))]
         | .incremental => rawEmitsElems pats path 0 xs ++
             [(path, .jarr (asmElems pats path 0 xs))]) := rfl
    have hpos : positions path (.jarr xs) =
        (path, JsValue.jarr xs) :: posElems path 0 xs := rfl
    cases hstrat : determineParseStrategy pats path with
    | skip =>
      rw [hre, hstrat, hpos]
      simp only [List.map_nil, List.count_nil, List.map_cons, List.count_cons]
      have h1 : (path == q) = false := by
        rw [beq_eq_false_iff_ne]
        intro hcon
        rw [← hcon, strat_skip_facts hstrat] at hq
        exact Bool.false_ne_true hq
      have h2 : ((posElems path 0 xs).map Prod.fst).count q = 0 := by
        rw [List.count_eq_zero]
        intro hcon
        rw [below_not_skip_arr hp hq hcon] at hstrat
        exact Strat.noConfusion hstrat
      rw [h1, h2]
      simp
    | bulk =>
      rw [hre, hstrat, hpos]
      simp only [List.map_cons, List.count_cons, List.map_nil, List.count_nil]
      have h2 : ((posElems path 0 xs).map Prod.fst).count q = 0 := by
        rw [List.count_eq_zero]
        intro hcon
        rw [below_not_skip_arr hp hq hcon] at hstrat
        exact Strat.noConfusion hstrat
      rw [h2]
    | incremental =>
      rw [hre, hstrat, hpos]
      rw [List.map_append, List.count_append]
      rw [rawCount_elems pats hp q hq path 0 xs]
      simp only [List.map_cons, List.count_cons, List.map_nil, List.count_nil]
      omega

theorem rawCount_pairs (pats : List JsonPattern)
    (hp : ∀ jp ∈ pats, ∃ src, parsePattern src = some jp) (q : Str)
    (hq : pats.any (fun jp => patMatch jp q) = true) (path : Str)
    (ps : List (Str × JsValue)) :
    ((rawEmitsPairs pats path ps).map Prod.fst).count q =
      ((posPairs path ps).map Prod.fst).count q := by
  match ps with
  | [] => rfl
  | (k, v) :: more =>
    rw [show rawEmitsPairs pats path ((k, v) :: more) =
        rawEmits pats (objChildPath path k) v ++ rawEmitsPairs pats path more
        from rfl]
    rw [show posPairs path ((k, v) :: more) =
        positions (objChildPath path k) v ++ posPairs path more from rfl]
    rw [List.map_append, List.count_append, List.map_append,
      List.count_append]
    rw [rawCount_val pats hp q hq (objChildPath path k) v,
      rawCount_pairs pats hp q hq path more]

theorem rawCount_elems (pats : List JsonPattern)
    (hp : ∀ jp ∈ pats, ∃ src, parsePattern src = some jp) (q : Str)
    (hq : pats.any (fun jp => patMatch jp q) = true) (path : Str) (idx : Nat)
    (xs : List JsValue) :
    ((rawEmitsElems pats path idx xs).map Prod.fst).count q =
      ((posElems path idx xs).map Prod.fst).count q := by
  match xs with
  | [] => rfl
  | x :: more =>
    rw [show rawEmitsElems pats path idx (x :: more) =
        rawEmits pats (arrChildPath path idx) x ++
          rawEmitsElems pats path (idx + 1) more from rfl]
    rw [show posElems path idx (x :: more) =
        positions (arrChildPath path idx) x ++ posElems path (idx + 1) more
        from rfl]
    rw [List.map_append, List.count_append, List.map_append,
      List.count_append]
    rw [rawCount_val pats hp q hq (arrChildPath path idx) x,
      rawCount_elems pats hp q hq path (idx + 1) more]

end


mutual

/-- Soundness of the raw emissions: every emitted pair is a value position
of the document carrying its strategy-dependent assembled value. -/
theorem rawEmits_sound (pats : List JsonPattern) (path : Str) (v : JsValue) :
    ∀ e ∈ rawEmits pats path v,
      ∃ w, (e.1, w) ∈ positions path v ∧ e.2 = asmVal pats e.1 w := by
  match v with
  | .jundef =>
    intro e he
    obtain rfl := List.mem_singleton.mp he
    exact ⟨.jundef, List.mem_singleton.mpr rfl, rfl⟩
  | .jnull =>
    intro e he
    obtain rfl := List.mem_singleton.mp he
    exact ⟨.jnull, List.mem_singleton.mpr rfl, rfl⟩
  | .jbool b =>
    intro e he
    obtain rfl := List.mem_singleton.mp he
    exact ⟨.jbool b, List.mem_singleton.mpr rfl, rfl⟩
  | .jnum lex =>
    intro e he
    obtain rfl := List.mem_singleton.mp he
    exact ⟨.jnum lex, List.mem_singleton.mpr rfl, rfl⟩
  | .jstr s =>
    intro e he
    obtain rfl := List.mem_singleton.mp he
    exact ⟨.jstr s, List.mem_singleton.mpr rfl, rfl⟩
  | .jobj ps =>
    intro e he
    have hre : rawEmits pats path (.jobj ps) =
        (match determineParseStrategy pats path with
         | .skip => []
         | .bulk => [(path, dedup (.jobj ps))]
         | .incremental => rawEmitsPairs pats path ps ++
             [(path, .jobj (asmPairs pats path [] ps))]) := rfl
    have hasm : asmVal pats path (.jobj ps) =
        (match determineParseStrategy pats path with
         | .skip => .jundef
         | .bulk => dedup (.jobj ps)
         | .incremental => .jobj (asmPairs pats path [] ps)) := rfl
    cases hstrat : determineParseStrategy pats path with
    | skip =>
      rw [hre, hstrat] at he
      simp at he
    | bulk =>
      rw [hre, hstrat] at he
      obtain rfl := List.mem_singleton.mp he
      refine ⟨.jobj ps, List.mem_cons_self _ _, ?_⟩
      rw [hasm, hstrat]
    | incremental =>
      rw [hre, hstrat] at he
      rcases List.mem_append.mp he with h | h
      · obtain ⟨w, hmem, hval⟩ := rawEmitsPairs_sound pats path ps e h
        exact ⟨w, List.mem_cons_of_mem _ hmem, hval⟩
      · obtain rfl := List.mem_singleton.mp h
        refine ⟨.jobj ps, List.mem_cons_self _ _, ?_⟩
        rw [hasm, hstrat]
  | .jarr xs =>
    intro e he
    have hre : rawEmits pats path (.jarr xs) =
        (match determineParseStrategy pats path with
         | .skip => []
         | .bulk => [(path, dedup (.jarr xs))]
         | .incremental => rawEmitsElems pats path 0 xs ++
             [(path, .jarr (asmElems pats path 0 xs))]) := rfl
    have hasm : asmVal pats path (.jarr xs) =
        (match determineParseStrategy pats path with
         | .skip => .jundef
         | .bulk => dedup (.jarr xs)
         | .incremental => .jarr (asmElems pats path 0 xs)) := rfl
    cases hstrat : determineParseStrategy pats path with
    | skip =>
      rw [hre, hstrat] at he
      simp at he
    | bulk =>
      rw [hre, hstrat] at he
      obtain rfl := List.mem_singleton.mp he
      refine ⟨.jarr xs, List.mem_cons_self _ _, ?_⟩
      rw [hasm, hstrat]
    | incremental =>
      rw [hre, hstrat] at he
      rcases List.mem_append.mp he with h | h
      · obtain ⟨w, hmem, hval⟩ := rawEmitsElems_sound pats path 0 xs e h
        exact ⟨w, List.mem_cons_of_mem _ hmem, hval⟩
      · obtain rfl := List.mem_singleton.mp h
        refine ⟨.jarr xs, List.mem_cons_self _ _, ?_⟩
        rw [hasm, hstrat]

theorem rawEmitsPairs_sound (pats : List JsonPattern) (path : Str)
    (ps : List (Str × JsValue)) :
    ∀ e ∈ rawEmitsPairs pats path ps,
      ∃ w, (e.1, w) ∈ posPairs path ps ∧ e.2 = asmVal pats e.1 w := by
  match ps with
  | [] => intro e he; simp [rawEmitsPairs] at he
  | (k, v) :: more =>
    intro e he
    rw [show rawEmitsPairs pats path ((k, v) :: more) =
        rawEmits pats (objChildPath path k) v ++ rawEmitsPairs pats path more
        from rfl] at he
    rw [show posPairs path ((k, v) :: more) =
        positions (objChildPath path k) v ++ posPairs path more from rfl]
    rcases List.mem_append.mp he with h | h
    · obtain ⟨w, hmem, hval⟩ := rawEmits_sound pats (objChildPath path k) v e h
      exact ⟨w, List.mem_append_left _ hmem, hval⟩
    · obtain ⟨w, hmem, hval⟩ := rawEmitsPairs_sound pats path more e h
      exact ⟨w, List.mem_append_right _ hmem, hval⟩

theorem rawEmitsElems_sound (pats : List JsonPattern) (path : Str)
    (idx : Nat) (xs : List JsValue) :
    ∀ e ∈ rawEmitsElems pats path idx xs,
      ∃ w, (e.1, w) ∈ posElems path idx xs ∧ e.2 = asmVal pats e.1 w := by
  match xs with
  | [] => intro e he; simp [rawEmitsElems] at he
  | x :: more =>
    intro e he
    rw [show rawEmitsElems pats path idx (x :: more) =
        rawEmits pats (arrChildPath path idx) x ++
          rawEmitsElems pats path (idx + 1) more from rfl] at he
    rw [show posElems path idx (x :: more) =
        positions (arrChildPath path idx) x ++ posElems path (idx + 1) more
        from rfl]
    rcases List.mem_append.mp he with h | h
    · obtain ⟨w, hmem, hval⟩ :=
        rawEmits_sound pats (arrChildPath path idx) x e h
      exact ⟨w, List.mem_append_left _ hmem, hval⟩
    · obtain ⟨w, hmem, hval⟩ := rawEmitsElems_sound pats path (idx + 1) more e h
      exact ⟨w, List.mem_append_right _ hmem, hval⟩

end


/-! ## Duplicate keys: last-wins lookup (claim C10) -/

/-- JS property read in insertion order: the first entry with the key. -/
def lookupKey : List (Str × JsValue) → Str → Option JsValue
  | [], _ => none
  | (k', v) :: more, k => if k' = k then some v else lookupKey more k

/-- The value of the last occurrence of `k` in source order. -/
def lastVal (k : Str) : List (Str × JsValue) → Option JsValue
  | [] => none
  | (k', v) :: more =>
    match lastVal k more with
    | some w => some w
    | none => if k' = k then some v else none

theorem lookupKey_append_single {ps : List (Str × JsValue)} {k k' : Str}
    {v : JsValue} (hne : ¬ k' = k) :
    lookupKey (ps ++ [(k', v)]) k = lookupKey ps k := by
  induction ps with
  | nil => simp [lookupKey, hne]
  | cons p more ih =>
    rw [List.cons_append]
    rw [show lookupKey (p :: (more ++ [(k', v)])) k =
        if p.1 = k then some p.2 else lookupKey (more ++ [(k', v)]) k from by
      rcases p with ⟨pk, pv⟩
      rfl]
    rw [show lookupKey (p :: more) k =
        if p.1 = k then some p.2 else lookupKey more k from by
      rcases p with ⟨pk, pv⟩
      rfl]
    rw [ih]

theorem lookupKey_map_self {ps : List (Str × JsValue)} {k : Str}
    {v : JsValue} (h : ps.any (fun p => p.1 = k) = true) :
    lookupKey (ps.map (fun p => if p.1 = k then (k, v) else p)) k =
      some v := by
  induction ps with
  | nil => simp at h
  | cons p more ih =>
    rw [List.map_cons]
    by_cases hp : p.1 = k
    · rw [if_pos hp]
      rw [show lookupKey ((k, v) ::
          more.map (fun p => if p.1 = k then (k, v) else p)) k =
          if k = k then some v else
            lookupKey (more.map (fun p => if p.1 = k then (k, v) else p)) k
          from rfl]
      rw [if_pos rfl]
    · rw [if_neg hp]
      rw [show lookupKey (p ::
          more.map (fun p => if p.1 = k then (k, v) else p)) k =
          if p.1 = k then some p.2 else
            lookupKey (more.map (fun p => if p.1 = k then (k, v) else p)) k
          from by
        rcases p with ⟨pk, pv⟩
        rfl]
      rw [if_neg hp]
      apply ih
      rw [List.any_cons] at h
      rcases Bool.or_eq_true_iff.mp h with h1 | h1
      · exact absurd (of_decide_eq_true h1) hp
      · exact h1

theorem lookupKey_map_ne {ps : List (Str × JsValue)} {k k' : Str}
    {v : JsValue} (hne : ¬ k' = k) :
    lookupKey (ps.map (fun p => if p.1 = k' then (k', v) else p)) k =
      lookupKey ps k := by
  induction ps with
  | nil => rfl
  | cons p more ih =>
    rw [List.map_cons]
    by_cases hp : p.1 = k'
    · rw [if_pos hp]
      rw [show lookupKey ((k', v) ::
          more.map (fun p => if p.1 = k' then (k', v) else p)) k =
          if k' = k then some v else
            lookupKey (more.map (fun p => if p.1 = k' then (k', v) else p)) k
          from rfl]
      rw [show lookupKey (p :: more) k =
          if p.1 = k then some p.2 else lookupKey more k from by
        rcases p with ⟨pk, pv⟩
        rfl]
      rw [if_neg hne, if_neg (by rw [hp]; exact hne), ih]
    · rw [if_neg hp]
      rw [show lookupKey (p ::
          more.map (fun p => if p.1 = k' then (k', v) else p)) k =
          if p.1 = k then some p.2 else
            lookupKey (more.map (fun p => if p.1 = k' then (k', v) else p)) k
          from by
        rcases p with ⟨pk, pv⟩
        rfl]
      rw [show lookupKey (p :: more) k =
          if p.1 = k then some p.2 else lookupKey more k from by
        rcases p with ⟨pk, pv⟩
        rfl]
      rw [ih]

theorem lookupKey_objInsert_self (ps : List (Str × JsValue)) (k : Str)
    (v : JsValue) : lookupKey (objInsert ps k v) k = some v := by
  unfold objInsert
  by_cases h : ps.any (fun p => p.1 = k) = true
  · rw [if_pos h]
    exact lookupKey_map_self h
  · rw [if_neg h]
    have hall : ∀ p ∈ ps, ¬ p.1 = k := by
      intro p hp hcon
      exact h (List.any_eq_true.mpr ⟨p, hp, decide_eq_true hcon⟩)
    induction ps with
    | nil => simp [lookupKey]
    | cons p more ih =>
      rw [List.cons_append]
      rw [show lookupKey (p :: (more ++ [(k, v)])) k =
          if p.1 = k then some p.2 else lookupKey (more ++ [(k, v)]) k
          from by
        rcases p with ⟨pk, pv⟩
        rfl]
      rw [if_neg (hall p (List.mem_cons_self _ _))]
      exact ih (by
        intro hcon
        exact h (by
          rw [List.any_cons]
          rw [hcon]
          simp)) (fun p hp => hall p (List.mem_cons_of_mem _ hp))

theorem lookupKey_objInsert_ne {ps : List (Str × JsValue)} {k k' : Str}
    {v : JsValue} (hne : ¬ k' = k) :
    lookupKey (objInsert ps k' v) k = lookupKey ps k := by
  unfold objInsert
  by_cases h : ps.any (fun p => p.1 = k') = true
  · rw [if_pos h]
    exact lookupKey_map_ne hne
  · rw [if_neg h]
    exact lookupKey_append_single hne

/-- The accumulated object data maps each key to the assembly of its last
occurrence. -/
theorem asmPairs_lookup (pats : List JsonPattern) (path : Str)
    (ps : List (Str × JsValue)) :
    ∀ (acc : List (Str × JsValue)) (k : Str),
      lookupKey (asmPairs pats path acc ps) k =
        (match lastVal k ps with
         | some w => some (asmVal pats (objChildPath path k) w)
         | none => lookupKey acc k) := by
  induction ps with
  | nil => intro acc k; rfl
  | cons kv more ih =>
    intro acc k
    rcases kv with ⟨k', v⟩
    rw [show asmPairs pats path acc ((k', v) :: more) =
        asmPairs pats path
          (objInsert acc k' (asmVal pats (objChildPath path k') v)) more
        from rfl]
    rw [ih]
    rw [show lastVal k ((k', v) :: more) =
        (match lastVal k more with
         | some w => some w
         | none => if k' = k then some v else none) from rfl]
    cases hl : lastVal k more with
    | some w => rfl
    | none =>
      dsimp only
      by_cases hk : k' = k
      · rw [if_pos hk, hk]
        exact lookupKey_objInsert_self _ _ _
      · rw [if_neg hk]
        exact lookupKey_objInsert_ne hk

/-- Each occurrence of a key contributes its emission block at the same
child path, independent of its position in the object. -/
theorem rawEmitsPairs_flatten (pats : List JsonPattern) (path : Str)
    (ps : List (Str × JsValue)) :
    rawEmitsPairs pats path ps =
      (ps.map (fun kv => rawEmits pats (objChildPath path kv.1) kv.2)).flatten := by
  induction ps with
  | nil => rfl
  | cons kv more ih =>
    rcases kv with ⟨k, v⟩
    rw [show rawEmitsPairs pats path ((k, v) :: more) =
        rawEmits pats (objChildPath path k) v ++ rawEmitsPairs pats path more
        from rfl]
    rw [List.map_cons, List.flatten_cons, ih]


/-- C1 (corrected): every delivered `(path, value)` pair sits at a value
position of the document, and `value` is the strategy-dependent assembled
value at that position (full decoded subtree only when bulk-parsed; an
incrementally parsed container's skipped children are `undefined`). -/
theorem claim_C1 (pats : List JsonPattern) (doc : JsValue) (fuel : Nat)
    (hv : validVal doc = true) (hterm : termRest doc [])
    (hfuel : costV doc ≤ fuel) (e : Emit)
    (he : e ∈ (runEngine fuel pats [serialize doc]).1) :
    ∃ w, (e.1, w) ∈ positions ['$'] doc ∧ e.2 = asmVal pats e.1 w := by
  rw [runEngine_ser pats doc hv hterm fuel hfuel] at he
  exact rawEmits_sound pats ['$'] doc e (List.mem_filter.mp he).1

theorem claim_C1_witness :
    ∃ w, ((['$'] : Str), w) ∈ positions ['$'] (.jobj []) ∧
      JsValue.jobj [] = asmVal [patDollar] ['$'] w :=
  claim_C1 [patDollar] (.jobj []) 10 (by decide) True.intro (by decide)
    (['$'], .jobj []) (List.mem_singleton.mpr rfl)

/-- Claim C3, original form, refuted: the completeness half fails on a
bare number root.  The input `5` with pattern `$` is valid JSON whose sole
value position `$` matches the pattern, yet the engine delivers it zero
times — the number reader's terminator lookahead never succeeds at top
level, so nothing is emitted and finalization fails Incomplete. -/
theorem claim_C3_counterexample :
    validVal (JsValue.jnum ['5']) = true ∧
    [patDollar].any (fun jp => patMatch jp ['$']) = true ∧
    ((positions ['$'] (JsValue.jnum ['5'])).map Prod.fst).count ['$'] = 1 ∧
    (runEngine 9 [patDollar] [serialize (JsValue.jnum ['5'])]).2 =
      some .incompleteStructure ∧
    ¬ (((runEngine 9 [patDollar]
          [serialize (JsValue.jnum ['5'])]).1.map Prod.fst).count ['$'] =
        ((positions ['$'] (JsValue.jnum ['5'])).map Prod.fst).count ['$']) := by
  decide

/-- C3 (corrected): every delivered path matches a configured pattern; and
for every input whose root lexeme needs no terminator lookahead (string,
object or array roots — bare number/boolean/null roots complete nothing
and deliver nothing, see the counterexample), the number of deliveries at
each matched path equals the number of value positions at that path. -/
theorem claim_C3 (pats : List JsonPattern) (doc : JsValue) (fuel : Nat)
    (hp : ∀ jp ∈ pats, ∃ src, parsePattern src = some jp)
    (hv : validVal doc = true) (hterm : termRest doc [])
    (hfuel : costV doc ≤ fuel) :
    (∀ e ∈ (runEngine fuel pats [serialize doc]).1,
       pats.any (fun jp => patMatch jp e.1) = true) ∧
    (∀ q, pats.any (fun jp => patMatch jp q) = true →
       ((runEngine fuel pats [serialize doc]).1.map Prod.fst).count q =
         ((positions ['$'] doc).map Prod.fst).count q) := by
  rw [runEngine_ser pats doc hv hterm fuel hfuel]
  constructor
  · intro e he
    exact (List.mem_filter.mp he).2
  · intro q hq
    rw [show ((deliver pats (rawEmits pats ['$'] doc), none) :
        List Emit × Option PErr).1 = deliver pats (rawEmits pats ['$'] doc)
        from rfl]
    rw [deliver_count hq]
    exact rawCount_val pats hp q hq ['$'] doc

theorem claim_C3_witness :
    [patDollar].any (fun jp => patMatch jp (['$'] : Str)) = true ∧
    ((runEngine 10 [patDollar] [serialize (.jobj [])]).1.map
        Prod.fst).count ['$'] =
      ((positions ['$'] (.jobj [])).map Prod.fst).count ['$'] :=
  ⟨(claim_C3 [patDollar] (.jobj []) 10
      (fun jp h => ⟨['$'],
        by rw [List.mem_singleton.mp h]; exact parsePattern_dollar⟩)
      (by decide) True.intro (by decide)).1
     (['$'], .jobj []) (List.mem_singleton.mpr rfl),
   (claim_C3 [patDollar] (.jobj []) 10
      (fun jp h => ⟨['$'],
        by rw [List.mem_singleton.mp h]; exact parsePattern_dollar⟩)
      (by decide) True.intro (by decide)).2
     ['$'] (by decide)⟩

/-- C10: in an incrementally parsed object, every occurrence of a repeated
key is parsed at the same child path and contributes its own emission
block (delivered whenever the child path is matched), while the parent
object maps the key to the assembled value of the last occurrence. -/
theorem claim_C10 (pats : List JsonPattern) (ps : List (Str × JsValue))
    (fuel : Nat) (hv : validVal (.jobj ps) = true)
    (hstrat : determineParseStrategy pats ['$'] = .incremental)
    (hfuel : costV (.jobj ps) ≤ fuel) :
    runEngine fuel pats [serialize (.jobj ps)] =
      (deliver pats (rawEmitsPairs pats ['$'] ps ++
         [(['$'], JsValue.jobj (asmPairs pats ['$'] [] ps))]), none) ∧
    rawEmitsPairs pats ['$'] ps =
      (ps.map (fun kv =>
        rawEmits pats (objChildPath ['$'] kv.1) kv.2)).flatten ∧
    (∀ k w, lastVal k ps = some w →
       lookupKey (asmPairs pats ['$'] [] ps) k =
         some (asmVal pats (objChildPath ['$'] k) w)) ∧
    (∀ k, pats.any (fun jp => patMatch jp (objChildPath ['$'] k)) = true →
       ((runEngine fuel pats [serialize (.jobj ps)]).1.map Prod.fst).count
           (objChildPath ['$'] k) =
         ((rawEmitsPairs pats ['$'] ps ++
             [(['$'], JsValue.jobj (asmPairs pats ['$'] [] ps))]).map
            Prod.fst).count (objChildPath ['$'] k)) := by
  have hrun := runEngine_ser pats (.jobj ps) hv True.intro fuel hfuel
  have hre : rawEmits pats ['$'] (.jobj ps) =
      rawEmitsPairs pats ['$'] ps ++
        [(['$'], JsValue.jobj (asmPairs pats ['$'] [] ps))] := by
    rw [show rawEmits pats ['$'] (.jobj ps) =
        (match determineParseStrategy pats ['$'] with
         | .skip => []
         | .bulk => [(['$'], dedup (JsValue.jobj ps))]
         | .incremental => rawEmitsPairs pats ['$'] ps ++
             [(['$'], JsValue.jobj (asmPairs pats ['$'] [] ps))]) from rfl, hstrat]
  refine ⟨by rw [hrun, hre], rawEmitsPairs_flatten pats ['$'] ps, ?_, ?_⟩
  · intro k w hlast
    have h := asmPairs_lookup pats ['$'] ps [] k
    rw [hlast] at h
    exact h
  · intro k hq
    rw [hrun]
    rw [show ((deliver pats (rawEmits pats ['$'] (.jobj ps)), none) :
        List Emit × Option PErr).1 =
        deliver pats (rawEmits pats ['$'] (.jobj ps)) from rfl]
    rw [hre]
    exact deliver_count hq _

theorem claim_C10_witness :
    (runEngine 30 [patDollarA]
        [serialize (.jobj [(['a'], JsValue.jnum ['1']),
                           (['a'], JsValue.jnum ['2'])])] =
      (deliver [patDollarA]
        (rawEmitsPairs [patDollarA] ['$']
            [(['a'], JsValue.jnum ['1']), (['a'], JsValue.jnum ['2'])] ++
          [(['$'], JsValue.jobj (asmPairs [patDollarA] ['$'] []
            [(['a'], JsValue.jnum ['1']), (['a'], JsValue.jnum ['2'])]))]),
       none)) ∧
    lookupKey (asmPairs [patDollarA] ['$'] []
        [(['a'], JsValue.jnum ['1']), (['a'], JsValue.jnum ['2'])]) ['a'] =
      some (asmVal [patDollarA] (objChildPath ['$'] ['a'])
        (JsValue.jnum ['2'])) :=
  ⟨(claim_C10 [patDollarA]
      [(['a'], JsValue.jnum ['1']), (['a'], JsValue.jnum ['2'])] 30
      (by decide) (by decide) (by decide)).1,
   (claim_C10 [patDollarA]
      [(['a'], JsValue.jnum ['1']), (['a'], JsValue.jnum ['2'])] 30
      (by decide) (by decide) (by decide)).2.2.1 ['a'] (JsValue.jnum ['2'])
     rfl⟩

end JsonStream
